import Mathlib

/-!
The file `incoming.c`: packet buffers and the ingestion parser, verified

A shallow embedding of `src/src/incoming.c` (worker-local packet buffer cache,
`incoming_flush`, `incoming_parse`, `incoming_handler`) and theorems about it.

Conventions of the embedding.

* A C `char` is a `Char`; a line `s` of `len` bytes is a `List Char` of length
  `len`; a pointer into the line is the index `p - s`.
* Packet buffers live in a heap `Addr → pbuf_t`; a `struct pbuf_t *` is an
  `Option Addr` (`none` is `NULL`), a pointer into `pb->data` is the offset from
  `pb->data`.
* The storage behind `pb->data` is a `List Char` whose length is the capacity of
  the cell; a `memcpy` or a store that leaves its destination (or source) array
  is undefined behaviour in C and is the outcome `Run.fault` here.
* Every C `while` loop is run by `whileM` with a step budget; an exhausted
  budget is the outcome `Run.spin`.  A call returns iff some budget gives
  `Run.ret`, and it never returns iff every budget gives `Run.spin`.
* `int` lengths are `Nat`/`Int` without wrap-around: they are lengths of lines
  held in memory, far below `2^31`.
* The headers (`incoming.h`, `worker.h`) are not among the sources: their
  constants are the fields of `Config`.  The cell allocator (`cellmalloc.c`)
  and the content parser (`parse_aprs.c`) are not among the sources either:
  the first is modelled from the spec, the second is a parameter.
-/

namespace Aprsc

/-! ## Outcomes and loops -/

/-- Outcome of running a fragment of C code. -/
inductive Run (α : Type) where
  /-- the fragment ran to its end with this result -/
  | ret : α → Run α
  /-- a store or copy left its array -/
  | fault : Run α
  /-- the step budget of a loop ran out -/
  | spin : Run α

/-- Sequencing of outcomes. -/
def Run.bind {α β : Type} : Run α → (α → Run β) → Run β
  | .ret a, f => f a
  | .fault, _ => .fault
  | .spin, _ => .spin

/-- The result of a fragment that ran to its end. -/
def Run.result {α : Type} : Run α → Option α
  | .ret a => some a
  | .fault => none
  | .spin => none

/-- The loop `while (cond) body`, run for at most `fuel` evaluations of `cond`. -/
def whileM {σ : Type} (cond : σ → Bool) (body : σ → Run σ) : Nat → σ → Run σ
  | 0, _ => .spin
  | fuel + 1, x => if cond x then (body x).bind (whileM cond body fuel) else .ret x

/-! ## Bytes -/

/-- The byte `'\0'`. -/
def NUL : Char := Char.ofNat 0
/-- The byte `'\r'`. -/
def CR : Char := Char.ofNat 13
/-- The byte `'\n'`. -/
def LF : Char := Char.ofNat 10

/-- The byte `s[i]` of a line. -/
def byte_at (s : List Char) (i : Nat) : Char := s.getD i NUL

/-- The call `memchr(s, c, n)`: the index of the first `c` among the first `n` bytes of
`s`, `none` for `NULL`. -/
def memchr (s : List Char) (c : Char) (n : Nat) : Option Nat :=
  if (s.take n).indexOf c < (s.take n).length then some ((s.take n).indexOf c) else none

/-- The call `memcpy(dst + off, src, n)` on arrays: `fault` when the `n` bytes do not lie
within `src` or the destination range does not lie within `dst`. -/
def memcpy (dst : List Char) (off : Nat) (src : List Char) (n : Nat) : Run (List Char) :=
  if n ≤ src.length ∧ off + n ≤ dst.length then
    .ret (dst.take off ++ src.take n ++ dst.drop (off + n))
  else .fault

/-- The store `dst[off] = c` on an array: `fault` when `off` is not an index of `dst`. -/
def poke (dst : List Char) (off : Nat) (c : Char) : Run (List Char) :=
  if off < dst.length then .ret (dst.set off c) else .fault

/-! ## Data model -/

/-- Address of a packet buffer cell. -/
abbrev Addr := Nat

/-- Constants of the headers, which are not among the sources. -/
structure Config where
  CALLSIGNLEN_MAX : Nat
  PACKETLEN_MIN : Nat
  PACKETLEN_MAX : Nat
  PACKETLEN_MAX_SMALL : Nat
  PACKETLEN_MAX_LARGE : Nat
  PACKETLEN_MAX_HUGE : Nat
  PBUF_ALLOCATE_BUNCH_SMALL : Nat
  PBUF_ALLOCATE_BUNCH_LARGE : Nat
  PBUF_ALLOCATE_BUNCH_HUGE : Nat

/-- The values of the constants in aprsc's `worker.h`. -/
def aprsc_config : Config where
  CALLSIGNLEN_MAX := 9
  PACKETLEN_MIN := 10
  PACKETLEN_MAX := 512
  PACKETLEN_MAX_SMALL := 130
  PACKETLEN_MAX_LARGE := 300
  PACKETLEN_MAX_HUGE := 600
  PBUF_ALLOCATE_BUNCH_SMALL := 2000
  PBUF_ALLOCATE_BUNCH_LARGE := 2000
  PBUF_ALLOCATE_BUNCH_HUGE := 50

/-- The fields of `struct pbuf_t` that `incoming.c` uses.  `srccall_end`,
`dstcall_end` and `info_start` are pointers into `data`, kept as offsets from
`data` (`none` is `NULL`); `origin` is the client the packet came from. -/
structure pbuf_t where
  next : Option Addr
  buf_len : Int
  packet_len : Int
  origin : Option Nat
  t : Int
  srccall_end : Option Nat
  dstcall_end : Option Nat
  info_start : Option Nat
  data : List Char

/-- The heap of packet buffer cells. -/
abbrev Heap := Addr → pbuf_t

/-- Store a cell in the heap. -/
def Heap.put (h : Heap) (a : Addr) (b : pbuf_t) : Heap :=
  fun x => if x = a then b else h x

/-- The call `memset(pb, 0, sizeof(*pb))`: every header field is zero, the storage behind
`data` is untouched. -/
def pbuf_t.zeroed (b : pbuf_t) : pbuf_t :=
  { next := none, buf_len := 0, packet_len := 0, origin := none, t := 0,
    srccall_end := none, dstcall_end := none, info_start := none, data := b.data }

/-- A `struct pbuf_t **`: the address of one of the worker's two queue heads or
of the `next` field of a buffer. -/
inductive Slot where
  /-- the address `&self->pbuf_incoming_local` -/
  | incoming_local : Slot
  /-- the address `&self->pbuf_incoming` -/
  | incoming : Slot
  /-- the address `&pb->next` -/
  | next : Addr → Slot
  deriving DecidableEq

/-- The fields of `struct worker_t` that `incoming.c` uses: the three local free
lists, the local pending queue with its tail pointer, and the inbox shared with
the dupecheck thread with its tail pointer. -/
structure worker_t where
  pbuf_free_small : Option Addr
  pbuf_free_large : Option Addr
  pbuf_free_huge : Option Addr
  pbuf_incoming_local : Option Addr
  pbuf_incoming_local_last : Slot
  pbuf_incoming : Option Addr
  pbuf_incoming_last : Slot
  deriving DecidableEq

/-- A call made to a cell arena. -/
inductive CellCall where
  | mallocmany : Nat → List Addr → CellCall
  | free : Addr → CellCall
  | freemany : List Addr → CellCall
  deriving DecidableEq

/-- Modelled from the spec: `cellarena_t` of `cellmalloc.c`, which is not among
the sources.  An arena manages cells of one fixed size: `cells` are the cells
it can hand out, in the order it hands them out; `calls` records the calls it
has received, oldest first. -/
structure cellarena_t where
  cells : List Addr
  calls : List CellCall
  deriving DecidableEq

/-- Modelled from the spec: `cellmallocmany` of `cellmalloc.c` (allocate-bunch:
"requests n cells from the tier's arena in one locked operation; may return
fewer than n if the arena is constrained").  Returns the array of cells handed
out (its length is the C return value) and the arena afterwards. -/
def cellmallocmany (ca : cellarena_t) (n : Nat) : List Addr × cellarena_t :=
  (ca.cells.take n,
   { cells := ca.cells.drop n, calls := ca.calls ++ [CellCall.mallocmany n (ca.cells.take n)] })

/-- Modelled from the spec: `cellfree` of `cellmalloc.c` (free-one: the cell
goes back to the arena). -/
def cellfree (ca : cellarena_t) (p : Addr) : cellarena_t :=
  { cells := ca.cells ++ [p], calls := ca.calls ++ [CellCall.free p] }

/-- Modelled from the spec: `cellfreemany` of `cellmalloc.c` (free-bunch:
"returns buffers to the backing arena in one locked operation"). -/
def cellfreemany (ca : cellarena_t) (array : List Addr) : cellarena_t :=
  { cells := ca.cells ++ array, calls := ca.calls ++ [CellCall.freemany array] }

/-- The state `incoming.c` works on: one worker, the heap of cells and the three
global arenas `pbuf_cells_small`, `pbuf_cells_large`, `pbuf_cells_huge`. -/
structure State where
  self : worker_t
  heap : Heap
  pbuf_cells_small : cellarena_t
  pbuf_cells_large : cellarena_t
  pbuf_cells_huge : cellarena_t

/-- The store `*slot = v` for a `struct pbuf_t **slot`. -/
def State.store (st : State) (slot : Slot) (v : Option Addr) : State :=
  match slot with
  | .incoming_local => { st with self := { st.self with pbuf_incoming_local := v } }
  | .incoming => { st with self := { st.self with pbuf_incoming := v } }
  | .next a => { st with heap := st.heap.put a { st.heap a with next := v } }

/-! ## The worker-local buffer cache (`incoming.c` lines 70 to 212) -/

/-- The tier a `buf_len` names in `switch (p->buf_len)`: 0 small, 1 large,
2 huge, `none` for the `default` branch. -/
def tier_of (cfg : Config) (buf_len : Int) : Option (Fin 3) :=
  if buf_len = cfg.PACKETLEN_MAX_SMALL then some 0
  else if buf_len = cfg.PACKETLEN_MAX_LARGE then some 1
  else if buf_len = cfg.PACKETLEN_MAX_HUGE then some 2
  else none

/-- The function `pbuf_free(self, p)`; `has_self` is `self != NULL`. -/
def pbuf_free (cfg : Config) (has_self : Bool) (p : Addr) (st : State) : State :=
  match has_self, tier_of cfg (st.heap p).buf_len with
  | true, some 0 =>
    { st with heap := st.heap.put p { st.heap p with next := st.self.pbuf_free_small },
              self := { st.self with pbuf_free_small := some p } }
  | true, some 1 =>
    { st with heap := st.heap.put p { st.heap p with next := st.self.pbuf_free_large },
              self := { st.self with pbuf_free_large := some p } }
  | true, some 2 =>
    { st with heap := st.heap.put p { st.heap p with next := st.self.pbuf_free_huge },
              self := { st.self with pbuf_free_huge := some p } }
  | false, some 0 => { st with pbuf_cells_small := cellfree st.pbuf_cells_small p }
  | false, some 1 => { st with pbuf_cells_large := cellfree st.pbuf_cells_large p }
  | false, some 2 => { st with pbuf_cells_huge := cellfree st.pbuf_cells_huge p }
  | _, none => st

/-- The loop of lines 123 to 138 of `pbuf_free_many` over the cells `array[i..]`:
the arrays `arraysmall`, `arraylarge`, `arrayhuge` filled so far (their lengths
are the counters `smallcnt`, `largecnt`, `hugecnt`) get the cell appended whose
`buf_len` names their tier; a cell of the `default` branch goes to none. -/
def sort_cells (cfg : Config) (h : Heap) :
    List Addr → List Addr × List Addr × List Addr → List Addr × List Addr × List Addr
  | [], acc => acc
  | p :: rest, (arraysmall, arraylarge, arrayhuge) =>
    match tier_of cfg (h p).buf_len with
    | some 0 => sort_cells cfg h rest (arraysmall ++ [p], arraylarge, arrayhuge)
    | some 1 => sort_cells cfg h rest (arraysmall, arraylarge ++ [p], arrayhuge)
    | some 2 => sort_cells cfg h rest (arraysmall, arraylarge, arrayhuge ++ [p])
    | none => sort_cells cfg h rest (arraysmall, arraylarge, arrayhuge)

/-- The function `pbuf_free_many(array, numbufs)`; `numbufs` is the length of
`array`. -/
def pbuf_free_many (cfg : Config) (array : List Addr) (st : State) : State :=
  let sorted := sort_cells cfg st.heap array ([], [], [])
  let st1 := if 0 < sorted.1.length then
    { st with pbuf_cells_small := cellfreemany st.pbuf_cells_small sorted.1 } else st
  let st2 := if 0 < sorted.2.1.length then
    { st1 with pbuf_cells_large := cellfreemany st1.pbuf_cells_large sorted.2.1 } else st1
  if 0 < sorted.2.2.length then
    { st2 with pbuf_cells_huge := cellfreemany st2.pbuf_cells_huge sorted.2.2 } else st2

/-- The loop `for (i = 0; i < bunchlen; ++i)` of `pbuf_get_real` from index `i`
on, over the cells `allocarray[i..]`:
`if (i > 0) (*pool)->next = allocarray[i]; *pool = allocarray[i];`. -/
def link_cells : List Addr → Nat → Heap → Option Addr → Heap × Option Addr
  | [], _, h, pool => (h, pool)
  | a :: rest, i, h, pool =>
    let h1 := match pool with
      | some p => if 0 < i then h.put p { h p with next := some a } else h
      | none => h
    link_cells rest (i + 1) h1 (some a)

/-- The function `pbuf_get_real(pool, global_pool, len, bunchlen)`: takes the
heap, `*pool` and the arena, returns the buffer (`none` for `NULL`), the heap,
`*pool` and the arena afterwards. -/
def pbuf_get_real (h : Heap) (pool : Option Addr) (global_pool : cellarena_t)
    (len : Int) (bunchlen : Nat) : Option Addr × Heap × Option Addr × cellarena_t :=
  match pool with
  | some pb => (some pb, h, (h pb).next, global_pool)
  | none =>
    let got := cellmallocmany global_pool bunchlen
    let linked := link_cells got.1 0 h none
    match linked.2 with
    | none => (none, linked.1, none, got.2)
    | some pb =>
      let h2 := linked.1.put pb { linked.1 pb with next := none }
      let pool2 := (h2 pb).next
      let h3 := h2.put pb { (h2 pb).zeroed with buf_len := len }
      (some pb, h3, pool2, got.2)

/-- The function `pbuf_get(self, len)`: the buffer (`none` for `NULL`) and the
state afterwards. -/
def pbuf_get (cfg : Config) (st : State) (len : Int) : Option Addr × State :=
  if len ≤ cfg.PACKETLEN_MAX_SMALL then
    let r := pbuf_get_real st.heap st.self.pbuf_free_small st.pbuf_cells_small
      cfg.PACKETLEN_MAX_SMALL cfg.PBUF_ALLOCATE_BUNCH_SMALL
    (r.1, { st with heap := r.2.1, self := { st.self with pbuf_free_small := r.2.2.1 },
                    pbuf_cells_small := r.2.2.2 })
  else if len ≤ cfg.PACKETLEN_MAX_LARGE then
    let r := pbuf_get_real st.heap st.self.pbuf_free_large st.pbuf_cells_large
      cfg.PACKETLEN_MAX_LARGE cfg.PBUF_ALLOCATE_BUNCH_LARGE
    (r.1, { st with heap := r.2.1, self := { st.self with pbuf_free_large := r.2.2.1 },
                    pbuf_cells_large := r.2.2.2 })
  else if len ≤ cfg.PACKETLEN_MAX_HUGE then
    let r := pbuf_get_real st.heap st.self.pbuf_free_huge st.pbuf_cells_huge
      cfg.PACKETLEN_MAX_HUGE cfg.PBUF_ALLOCATE_BUNCH_HUGE
    (r.1, { st with heap := r.2.1, self := { st.self with pbuf_free_huge := r.2.2.1 },
                    pbuf_cells_huge := r.2.2.2 })
  else (none, st)

/-! ## Queue handoff (`incoming.c` lines 220 to 234) -/

/-- The function `incoming_flush(self)`; `locked` is whether
`pthread_mutex_trylock` acquired the mutex (returned 0). -/
def incoming_flush (locked : Bool) (st : State) : State :=
  if locked then
    let st1 := st.store st.self.pbuf_incoming_last st.self.pbuf_incoming_local
    { st1 with self := { st1.self with pbuf_incoming_local := none,
                                       pbuf_incoming_local_last := Slot.incoming_local } }
  else st

/-! ## The ingestion parser (`incoming.c` lines 240 to 396) -/

/-- What `incoming_parse` has computed when it reaches `pbuf_get` (line 359):
the pointers into the line as indices, the lengths, and the scratch array
`qcons`. -/
structure Fields where
  src_end : Nat
  dstcall_end : Nat
  via_start : Nat
  info_start : Nat
  pathlen : Nat
  datalen : Nat
  qcons : List Char
  qcons_len : Nat
  deriving DecidableEq

/-- The loop of lines 301 and 302: the end of the destination callsign. -/
def scan_dstcall (fuel : Nat) (s : List Char) (path_end path_start : Nat) : Run Nat :=
  whileM (fun d => decide (d < path_end) && byte_at s d != '-' && byte_at s d != ','
            && byte_at s d != ':')
    (fun d => .ret (d + 1)) fuel path_start

/-- Lines 308 to 312: the start of the via path. -/
def scan_via (fuel : Nat) (s : List Char) (path_end dstcall_end : Nat) : Run Nat :=
  (whileM (fun v => decide (v < path_end) && (byte_at s v != ',' && byte_at s v != ':'))
    (fun v => .ret (v + 1)) fuel dstcall_end).bind fun v =>
  .ret (if byte_at s v = ',' then v + 1 else v)

/-- The loop of lines 320 and 321: back from `path_end - 3` to the previous
comma or to the start of the line. -/
def scan_back (fuel : Nat) (s : List Char) (path_end : Nat) : Run Nat :=
  whileM (fun p => decide (0 < p) && byte_at s p != ',')
    (fun p => .ret (p - 1)) fuel (path_end - 3)

/-- The loop of lines 340 to 344: its body advances `qcons_start` only when the
byte is neither a colon nor a comma. -/
def scan_hop (fuel : Nat) (s : List Char) (path_end qcons_start : Nat) : Run Nat :=
  whileM (fun q => decide (q < path_end))
    (fun q => .ret (if byte_at s q != ':' && byte_at s q != ',' then q + 1 else q))
    fuel qcons_start

/-- The loop of lines 334 to 347, the scan for an existing `qA`.  The `break`
that opens the body is the second conjunct of the loop condition. -/
def scan_qcons (fuel : Nat) (s : List Char) (path_end via_start : Nat) : Run Nat :=
  whileM (fun q => decide (q < path_end) && !(byte_at s q == 'q' && byte_at s (q + 1) == 'A'))
    (fun q => (scan_hop fuel s path_end q).bind fun q1 =>
      .ret (if byte_at s q1 = ',' then q1 + 1 else q1))
    fuel via_start

/-- Lines 317 to 354 of `incoming_parse`: the q construct.  Returns `none` for
`return -1`, otherwise the new `pathlen`, the scratch array `qcons` and
`qcons_len`.  The scratch array `char qcons[20]` starts as 20 zero bytes: its
content is indeterminate in C, and no byte of it is read that was not written. -/
def build_qcons (cfg : Config) (fuel : Nat) (s : List Char) (path_end via_start : Nat) :
    Run (Option (Nat × List Char × Nat)) :=
  if 2 < path_end ∧ byte_at s (path_end - 1) = 'I' ∧ byte_at s (path_end - 2) = ',' then
    (scan_back fuel s path_end).bind fun p =>
    if path_end - p > cfg.CALLSIGNLEN_MAX + 3 then .ret none
    else
      let p1 := if byte_at s p = ',' then p + 1 else p
      (memcpy (List.replicate 20 NUL) 0 ['q', 'A', '#', ','] 4).bind fun q1 =>
      (memcpy q1 4 (s.drop p1) (path_end - p1 - 2)).bind fun q2 =>
      .ret (some (p1, q2, path_end - p1 + 2))
  else
    (scan_qcons fuel s path_end via_start).bind fun _ =>
    .ret (some (path_end, List.replicate 20 NUL, 0))

/-- Lines 265 to 354 of `incoming_parse`: everything before `pbuf_get`.
Returns `none` for `return -1`. -/
def locate_fields (cfg : Config) (fuel : Nat) (s : List Char) : Run (Option Fields) :=
  match memchr s ':' s.length with
  | none => .ret none
  | some path_end =>
    match memchr s '>' (if path_end < cfg.CALLSIGNLEN_MAX + 1 then path_end
                        else cfg.CALLSIGNLEN_MAX + 1) with
    | none => .ret none
    | some src_end =>
      if src_end + 1 ≥ s.length then .ret none
      else if src_end > cfg.CALLSIGNLEN_MAX then .ret none
      else if path_end + 1 ≥ s.length then .ret none
      else if s.length ≤ path_end + 1 then .ret none
      else
        (scan_dstcall fuel s path_end (src_end + 1)).bind fun dstcall_end =>
        if dstcall_end - (src_end + 1) > cfg.CALLSIGNLEN_MAX then .ret none
        else
          (scan_via fuel s path_end dstcall_end).bind fun via_start =>
          (build_qcons cfg fuel s path_end via_start).bind fun q =>
          match q with
          | none => .ret none
          | some (pathlen, qcons, qcons_len) =>
            .ret (some { src_end := src_end, dstcall_end := dstcall_end,
                         via_start := via_start, info_start := path_end + 1,
                         pathlen := pathlen, datalen := s.length - path_end,
                         qcons := qcons, qcons_len := qcons_len })

/-- Lines 363 to 385 of `incoming_parse`: fill the buffer `b` that `pbuf_get`
returned.  The payload copy of line 375 reads from `s`, as the source does. -/
def fill_pbuf (c : Nat) (now : Int) (s : List Char) (f : Fields) (b : pbuf_t) : Run pbuf_t :=
  (memcpy b.data 0 s f.pathlen).bind fun d1 =>
  (poke d1 f.pathlen NUL).bind fun d2 =>
  (memcpy d2 f.pathlen f.qcons f.qcons_len).bind fun d3 =>
  (memcpy d3 (f.pathlen + f.qcons_len) s f.datalen).bind fun d4 =>
  (memcpy d4 (f.pathlen + f.qcons_len + f.datalen) [CR, LF] 2).bind fun d5 =>
  .ret { b with origin := some c, t := now, data := d5,
                packet_len := (f.pathlen + f.qcons_len + f.datalen + 2 : Nat),
                srccall_end := some f.src_end,
                dstcall_end := some f.dstcall_end,
                info_start := some f.info_start }

/-- Lines 387 to 395 of `incoming_parse`: with the filled buffer `b` for the
cell `pb`, store `pb->next = NULL`, append `pb` to the local pending queue and
advance its tail pointer. -/
def enqueue_local (st : State) (pb : Addr) (b : pbuf_t) : State :=
  let st1 := { st with heap := st.heap.put pb { b with next := none } }
  let st2 := st1.store st1.self.pbuf_incoming_local_last (some pb)
  { st2 with self := { st2.self with pbuf_incoming_local_last := Slot.next pb } }

/-- The function `incoming_parse(self, c, s, len)`, `len` being the length of
`s`.  The content parser `parse_aprs` is a parameter: a total function from the
worker and the filled buffer to a status; `now` is the global clock.  Returns
the C return value and the state afterwards. -/
def incoming_parse (cfg : Config) (parse_aprs : worker_t → pbuf_t → Int) (now : Int)
    (fuel : Nat) (st : State) (c : Nat) (s : List Char) : Run (Int × State) :=
  (locate_fields cfg fuel s).bind fun r =>
  match r with
  | none => .ret (-1, st)
  | some f =>
    match pbuf_get cfg st (s.length + 14 : Nat) with
    | (none, st1) => .ret (-1, st1)
    | (some pb, st1) =>
      (fill_pbuf c now s f (st1.heap pb)).bind fun b =>
      .ret (parse_aprs st1.self b, enqueue_local st1 pb b)

/-- The function `incoming_handler(self, c, s, len)`, `len` being the length of
`s`. -/
def incoming_handler (cfg : Config) (parse_aprs : worker_t → pbuf_t → Int) (now : Int)
    (fuel : Nat) (st : State) (c : Nat) (s : List Char) : Run (Int × State) :=
  if s.length < cfg.PACKETLEN_MIN ∨ s.length + 2 > cfg.PACKETLEN_MAX then .ret (0, st)
  else if byte_at s 0 = '#' then .ret (0, st)
  else
    (incoming_parse cfg parse_aprs now fuel st c s).bind fun r => .ret (0, r.2)

/-! ## Linked lists in the heap -/

/-- The chain of `next` pointers that starts at `p` visits exactly the cells `l`,
in this order, and ends in `NULL`. -/
def is_list (h : Heap) : Option Addr → List Addr → Prop
  | p, [] => p = none
  | p, a :: l => p = some a ∧ is_list h (h a).next l

/-- Deciding `is_list` by walking the chain. -/
def is_list_dec (h : Heap) : (p : Option Addr) → (l : List Addr) → Decidable (is_list h p l)
  | p, [] => inferInstanceAs (Decidable (p = none))
  | p, a :: l =>
    @instDecidableAnd _ _ (inferInstanceAs (Decidable (p = some a))) (is_list_dec h (h a).next l)

instance (h : Heap) (p : Option Addr) (l : List Addr) : Decidable (is_list h p l) :=
  is_list_dec h p l

/-- The tail pointer of a queue with head slot `head` that holds the cells `l`:
the head slot when the queue is empty, the `next` field of the last cell
otherwise. -/
def tail_slot (head : Slot) (l : List Addr) : Slot :=
  match l.getLast? with
  | none => head
  | some a => Slot.next a

/-- The worker's local pending queue holds the cells `q`, oldest first, and its
tail pointer `pbuf_incoming_local_last` is the tail slot of the queue. -/
def pending_queue (st : State) (q : List Addr) : Prop :=
  is_list st.heap st.self.pbuf_incoming_local q ∧
  st.self.pbuf_incoming_local_last = tail_slot Slot.incoming_local q

/-- The shared inbox of the worker holds the cells `q`, oldest first. -/
def inbox (st : State) (q : List Addr) : Prop :=
  is_list st.heap st.self.pbuf_incoming q

instance (st : State) (q : List Addr) : Decidable (pending_queue st q) :=
  inferInstanceAs (Decidable (_ ∧ _))

instance (st : State) (q : List Addr) : Decidable (inbox st q) :=
  inferInstanceAs (Decidable (is_list _ _ _))

/-! ## Well-formed states -/

/-- Cell `a` is free in `st` as far as `pbuf_get` can see: it is the head of a
local free list or a cell held by an arena. -/
def is_free_cell (st : State) (a : Addr) : Prop :=
  st.self.pbuf_free_small = some a ∨ st.self.pbuf_free_large = some a ∨
  st.self.pbuf_free_huge = some a ∨ a ∈ st.pbuf_cells_small.cells ∨
  a ∈ st.pbuf_cells_large.cells ∨ a ∈ st.pbuf_cells_huge.cells

instance (st : State) (a : Addr) : Decidable (is_free_cell st a) :=
  inferInstanceAs (Decidable (_ ∨ _))

/-- The buffer at the head of the free list `p`, if there is one, carries `size`
in `buf_len` and has `size` bytes of storage behind `data`. -/
def head_has_size (h : Heap) (p : Option Addr) (size : Nat) : Prop :=
  ∀ a, p = some a → (h a).buf_len = size ∧ (h a).data.length = size

/-- The cells the arena `ca` holds have `size` bytes of storage behind `data`,
as `pbuf_init` asks `cellinit` for. -/
def cells_have_size (h : Heap) (ca : cellarena_t) (size : Nat) : Prop :=
  ∀ a ∈ ca.cells, (h a).data.length = size

/-- The tier invariant as far as one call of `pbuf_get` depends on it: the head
of each local free list carries the size of its tier, and the cells of each
arena have the capacity of its tier. -/
def tiers_ok (cfg : Config) (st : State) : Prop :=
  head_has_size st.heap st.self.pbuf_free_small cfg.PACKETLEN_MAX_SMALL ∧
  head_has_size st.heap st.self.pbuf_free_large cfg.PACKETLEN_MAX_LARGE ∧
  head_has_size st.heap st.self.pbuf_free_huge cfg.PACKETLEN_MAX_HUGE ∧
  cells_have_size st.heap st.pbuf_cells_small cfg.PACKETLEN_MAX_SMALL ∧
  cells_have_size st.heap st.pbuf_cells_large cfg.PACKETLEN_MAX_LARGE ∧
  cells_have_size st.heap st.pbuf_cells_huge cfg.PACKETLEN_MAX_HUGE

/-! ## A sample state -/

/-- A cell with `cap` bytes of storage, all zero, and a header that is zero
except for `buf_len` and `next`. -/
def blank_cell (buf_len : Int) (next : Option Addr) (cap : Nat) : pbuf_t :=
  { next := next, buf_len := buf_len, packet_len := 0, origin := none, t := 0,
    srccall_end := none, dstcall_end := none, info_start := none,
    data := List.replicate cap NUL }

/-- A worker that has three small buffers (cells 1, 2, 3) on its local free
list, empty queues, and arenas that hold a few more cells of their tier. -/
def sample_state : State where
  self := { pbuf_free_small := some 1, pbuf_free_large := none, pbuf_free_huge := none,
            pbuf_incoming_local := none, pbuf_incoming_local_last := Slot.incoming_local,
            pbuf_incoming := none, pbuf_incoming_last := Slot.incoming }
  heap := fun a =>
    if a = 1 then blank_cell 130 (some 2) 130
    else if a = 2 then blank_cell 130 (some 3) 130
    else if a = 3 then blank_cell 130 none 130
    else if a < 10 then blank_cell 0 none 130
    else if a < 20 then blank_cell 0 none 300
    else blank_cell 0 none 600
  pbuf_cells_small := { cells := [4, 5], calls := [] }
  pbuf_cells_large := { cells := [11, 12], calls := [] }
  pbuf_cells_huge := { cells := [21], calls := [] }

/-- A content parser for the examples: it reports success. -/
def sample_parse_aprs : worker_t → pbuf_t → Int := fun _ _ => 0

/-- What the examples observe of a call of `incoming_parse` that returned: the
return value, the head of the local pending queue, and of the cell `pb` the
bytes `data[0 .. packet_len)`, `packet_len` and the three offsets. -/
def observe (pb : Addr) (r : Run (Int × State)) :
    Option (Int × Option Addr × List Char × Int × Option Nat × Option Nat × Option Nat) :=
  r.result.map fun x =>
    (x.1, x.2.self.pbuf_incoming_local,
     (x.2.heap pb).data.take (x.2.heap pb).packet_len.toNat, (x.2.heap pb).packet_len,
     (x.2.heap pb).srccall_end, (x.2.heap pb).dstcall_end, (x.2.heap pb).info_start)

/-- The line `SRC>DST,WIDE1-1,WIDE2-1:x`: two via hops, no q construct. -/
def two_hop_line : List Char := "SRC>DST,WIDE1-1,WIDE2-1:x".toList

/-- The line `OH2ABC>APRS,WIDE2-1:>Hello` of the first end-to-end scenario. -/
def plain_line : List Char := "OH2ABC>APRS,WIDE2-1:>Hello".toList

/-- The line `OH2ABC>APRS,RELAY,I:>Hello`, of the `,I` injection form. -/
def relay_line : List Char := "OH2ABC>APRS,RELAY,I:>Hello".toList

/-- The fields of `plain_line` when `incoming_parse` reaches `pbuf_get`. -/
def plain_fields : Fields :=
  { src_end := 6, dstcall_end := 11, via_start := 12, info_start := 20, pathlen := 19,
    datalen := 7, qcons := List.replicate 20 NUL, qcons_len := 0 }

/-- The fields of `relay_line` when `incoming_parse` reaches `pbuf_get`. -/
def relay_fields : Fields :=
  { src_end := 6, dstcall_end := 11, via_start := 12, info_start := 20, pathlen := 12,
    datalen := 7,
    qcons := "qA#,RELAY".toList ++ List.replicate 11 NUL,
    qcons_len := 9 }

/-- The sample state after `incoming_parse` has queued `plain_line` in cell 1. -/
def one_pending_state : State :=
  match incoming_parse aprsc_config sample_parse_aprs 0 100 sample_state 5 plain_line with
  | .ret r => r.2
  | .fault => sample_state
  | .spin => sample_state

/-! ## Tiers and free lists -/

/-- The size of tier `t`: 0 is small, 1 is large, 2 is huge. -/
def tier_size (cfg : Config) (t : Fin 3) : Nat :=
  match t with
  | 0 => cfg.PACKETLEN_MAX_SMALL
  | 1 => cfg.PACKETLEN_MAX_LARGE
  | 2 => cfg.PACKETLEN_MAX_HUGE

/-- The number of cells `pbuf_get` asks the arena of tier `t` for. -/
def bunch_size (cfg : Config) (t : Fin 3) : Nat :=
  match t with
  | 0 => cfg.PBUF_ALLOCATE_BUNCH_SMALL
  | 1 => cfg.PBUF_ALLOCATE_BUNCH_LARGE
  | 2 => cfg.PBUF_ALLOCATE_BUNCH_HUGE

/-- The head of the worker's local free list of tier `t`. -/
def free_list (w : worker_t) (t : Fin 3) : Option Addr :=
  match t with
  | 0 => w.pbuf_free_small
  | 1 => w.pbuf_free_large
  | 2 => w.pbuf_free_huge

/-- The global arena of tier `t`. -/
def arena_of (st : State) (t : Fin 3) : cellarena_t :=
  match t with
  | 0 => st.pbuf_cells_small
  | 1 => st.pbuf_cells_large
  | 2 => st.pbuf_cells_huge

/-- Cell `a` is reached from the pointer `p` along `next` pointers: it is on the
list that starts at `p`.  The list need not end. -/
inductive on_list (h : Heap) : Option Addr → Addr → Prop where
  /-- the first cell of the list -/
  | head (a : Addr) : on_list h (some a) a
  /-- a cell of the rest of the list -/
  | tail (a b : Addr) : on_list h (h a).next b → on_list h (some a) b

/-- The free-list tier invariant: every buffer on the worker's small, large and
huge local free list has `buf_len` equal to the size of that tier. -/
def free_lists_tiered (cfg : Config) (st : State) : Prop :=
  ∀ t : Fin 3, ∀ a, on_list st.heap (free_list st.self t) a →
    (st.heap a).buf_len = tier_size cfg t

/-- No cell held by an arena is on a local free list of the worker. -/
def arenas_apart (st : State) : Prop :=
  ∀ t t2 : Fin 3, ∀ a ∈ (arena_of st t).cells, ¬ on_list st.heap (free_list st.self t2) a

/-- The cell behind the tail pointer of the pending queue, when that pointer is
the `next` field of a cell, is on no local free list of the worker. -/
def tail_apart (st : State) : Prop :=
  ∀ a, st.self.pbuf_incoming_local_last = Slot.next a →
    ∀ t : Fin 3, ¬ on_list st.heap (free_list st.self t) a

/-! ## More sample data -/

/-- The line `OH2ABC>:payload`: nothing lies between the `>` and the colon. -/
def empty_path_line : List Char := "OH2ABC>:payload".toList

/-- A small buffer that has carried a packet: its header holds the packet's
length, origin, time stamp and offsets. -/
def used_cell : pbuf_t :=
  { next := none, buf_len := 130, packet_len := 28, origin := some 5, t := 1000,
    srccall_end := some 6, dstcall_end := some 11, info_start := some 20,
    data := "OH2ABC>APRS,WIDE2-1:>Hello".toList ++ [CR, LF] ++ List.replicate 102 NUL }

/-- The sample state with the used buffer `used_cell` in cell 7. -/
def used_cell_state : State :=
  { sample_state with heap := sample_state.heap.put 7 used_cell }

/-- The sample state with an empty small free list: the two small cells 4 and 5
are in the arena. -/
def empty_cache_state : State :=
  { sample_state with self := { sample_state.self with pbuf_free_small := none } }

/-- The fields of `empty_path_line` when `incoming_parse` reaches `pbuf_get`. -/
def empty_path_fields : Fields :=
  { src_end := 6, dstcall_end := 7, via_start := 7, info_start := 8, pathlen := 7,
    datalen := 8, qcons := List.replicate 20 NUL, qcons_len := 0 }

/-- The header of a cell: every field of `pbuf_t` but the storage behind `data`,
in the order `next`, `buf_len`, `packet_len`, `origin`, `t`, `srccall_end`,
`dstcall_end`, `info_start`. -/
def pbuf_t.header (b : pbuf_t) :
    Option Addr × Int × Int × Option Nat × Int × Option Nat × Option Nat × Option Nat :=
  (b.next, b.buf_len, b.packet_len, b.origin, b.t, b.srccall_end, b.dstcall_end, b.info_start)

/-- The cells of `array` whose `buf_len` names tier `t`, in the order of
`array`. -/
def cells_of_tier (cfg : Config) (h : Heap) (array : List Addr) (t : Fin 3) : List Addr :=
  array.filter (fun p => decide (tier_of cfg (h p).buf_len = some t))

/-- The cells of `array` whose `buf_len` names one of the three tiers, in the
order of `array`. -/
def cells_of_known_tier (cfg : Config) (h : Heap) (array : List Addr) : List Addr :=
  array.filter (fun p => decide (tier_of cfg (h p).buf_len ≠ none))

/-- A state for `pbuf_free_many`: the cells 31 and 35 are small buffers, 32 is a
large one, 33 a huge one, and the `buf_len` of cell 34 names no tier. -/
def mixed_state : State :=
  { sample_state with heap := fun a =>
      if a = 31 then blank_cell 130 none 130
      else if a = 32 then blank_cell 300 none 300
      else if a = 33 then blank_cell 600 none 600
      else if a = 34 then blank_cell 77 none 130
      else if a = 35 then blank_cell 130 none 130
      else sample_state.heap a }

/-- Tier `t` is the smallest tier whose size is at least `len`, in the words of
the spec ("selects the smallest tier whose capacity is at least len"). -/
def smallest_fit (cfg : Config) (len : Int) (t : Fin 3) : Prop :=
  len ≤ (tier_size cfg t : Int) ∧
  ∀ t2 : Fin 3, len ≤ (tier_size cfg t2 : Int) → tier_size cfg t ≤ tier_size cfg t2

/-! ## Lemmas on outcomes and loops -/

@[simp] theorem Run.bind_ret {α β : Type} (a : α) (f : α → Run β) : (Run.ret a).bind f = f a := rfl
@[simp] theorem Run.bind_fault {α β : Type} (f : α → Run β) : (Run.fault : Run α).bind f = .fault := rfl
@[simp] theorem Run.bind_spin {α β : Type} (f : α → Run β) : (Run.spin : Run α).bind f = .spin := rfl

theorem Run.bind_eq_ret {α β : Type} {r : Run α} {f : α → Run β} {b : β} :
    r.bind f = .ret b ↔ ∃ a, r = .ret a ∧ f a = .ret b := by
  cases r <;> simp [Run.bind]

@[simp] theorem whileM_zero {σ : Type} (cond : σ → Bool) (body : σ → Run σ) (x : σ) :
    whileM cond body 0 x = .spin := rfl

theorem whileM_succ {σ : Type} (cond : σ → Bool) (body : σ → Run σ) (n : Nat) (x : σ) :
    whileM cond body (n + 1) x
      = if cond x then (body x).bind (whileM cond body n) else .ret x := rfl

/-- A loop whose body maps a state that satisfies the condition to itself never
ends. -/
theorem whileM_stuck {σ : Type} (cond : σ → Bool) (body : σ → Run σ) (x : σ)
    (hc : cond x = true) (hb : body x = .ret x) : ∀ n, whileM cond body n x = .spin := by
  intro n
  induction n with
  | zero => rfl
  | succ n ih => rw [whileM_succ, hc, hb]; simpa using ih

/-- A loop that never ends from the state after one step never ends. -/
theorem whileM_spin_step {σ : Type} (cond : σ → Bool) (body : σ → Run σ) (x y : σ)
    (hc : cond x = true) (hb : body x = .ret y) (hy : ∀ n, whileM cond body n y = .spin) :
    ∀ n, whileM cond body n x = .spin := by
  intro n
  cases n with
  | zero => rfl
  | succ n => rw [whileM_succ, hc, hb]; simpa using hy n

/-- The result of a loop does not depend on the budget: a smaller or larger
budget gives the same result or runs out. -/
theorem whileM_ret_or_spin {σ : Type} (cond : σ → Bool) (body : σ → Run σ) :
    ∀ (n : Nat) (x y : σ), whileM cond body n x = .ret y →
      ∀ m, whileM cond body m x = .ret y ∨ whileM cond body m x = .spin := by
  intro n
  induction n with
  | zero => intro x y h; simp at h
  | succ n ih =>
    intro x y h m
    cases m with
    | zero => right; rfl
    | succ m =>
      rw [whileM_succ] at h ⊢
      by_cases hc : cond x = true
      · rw [if_pos hc] at h ⊢
        obtain ⟨x1, hx1, h1⟩ := Run.bind_eq_ret.mp h
        rw [hx1]
        simpa using ih x1 y h1 m
      · rw [if_neg hc] at h ⊢
        left; exact h

/-- An invariant of the loop body holds when the loop ends, and the loop
condition is false then. -/
theorem whileM_inv {σ : Type} (cond : σ → Bool) (body : σ → Run σ) (P : σ → Prop)
    (hP : ∀ x y, P x → cond x = true → body x = .ret y → P y) :
    ∀ (n : Nat) (x y : σ), P x → whileM cond body n x = .ret y → P y ∧ cond y = false := by
  intro n
  induction n with
  | zero => intro x y _ h; simp at h
  | succ n ih =>
    intro x y hx h
    rw [whileM_succ] at h
    by_cases hc : cond x = true
    · rw [if_pos hc] at h
      obtain ⟨x1, hx1, h1⟩ := Run.bind_eq_ret.mp h
      exact ih x1 y (hP x x1 hx hc hx1) h1
    · rw [if_neg hc] at h
      cases h
      exact ⟨hx, by simpa using hc⟩

/-! ## The scan for an existing q construct -/

/-- On `two_hop_line` the inner loop of the scan, entered at the first via hop
(index 8), reaches the comma at index 15 and stays there. -/
theorem scan_hop_two_hop_line (fuel : Nat) : scan_hop fuel two_hop_line 23 8 = .spin := by
  unfold scan_hop
  refine whileM_spin_step _ _ 8 9 rfl rfl ?_ fuel
  refine whileM_spin_step _ _ 9 10 rfl rfl ?_
  refine whileM_spin_step _ _ 10 11 rfl rfl ?_
  refine whileM_spin_step _ _ 11 12 rfl rfl ?_
  refine whileM_spin_step _ _ 12 13 rfl rfl ?_
  refine whileM_spin_step _ _ 13 14 rfl rfl ?_
  refine whileM_spin_step _ _ 14 15 rfl rfl ?_
  exact whileM_stuck _ _ 15 rfl rfl

/-- On `two_hop_line` the scan for `qA`, entered at the first via hop, never
ends: its first round runs the inner loop. -/
theorem scan_qcons_two_hop_line (fuel : Nat) : scan_qcons fuel two_hop_line 23 8 = .spin := by
  cases fuel with
  | zero => rfl
  | succ n =>
    unfold scan_qcons
    rw [whileM_succ, if_pos (by rfl), scan_hop_two_hop_line]
    rfl

/-- On `two_hop_line` control never reaches `pbuf_get`. -/
theorem locate_fields_two_hop_line (fuel : Nat) :
    locate_fields aprsc_config fuel two_hop_line = .spin := by
  have h1 : memchr two_hop_line ':' two_hop_line.length = some 23 := by rfl
  have h2 : memchr two_hop_line '>' (if 23 < aprsc_config.CALLSIGNLEN_MAX + 1 then 23
      else aprsc_config.CALLSIGNLEN_MAX + 1) = some 3 := by rfl
  have h3 : scan_dstcall 100 two_hop_line 23 (3 + 1) = .ret 7 := by rfl
  have h4 : whileM (fun v => decide (v < 23) && (byte_at two_hop_line v != ','
      && byte_at two_hop_line v != ':')) (fun v => Run.ret (v + 1)) 100 7 = .ret 7 := by rfl
  unfold locate_fields
  simp only [h1, h2]
  rw [if_neg (by decide), if_neg (by decide), if_neg (by decide), if_neg (by decide)]
  rcases whileM_ret_or_spin _ _ 100 _ _ h3 fuel with h | h
  · unfold scan_dstcall
    rw [h, Run.bind_ret, if_neg (by decide)]
    rcases whileM_ret_or_spin _ _ 100 _ _ h4 fuel with h' | h'
    · unfold scan_via
      rw [h', Run.bind_ret, Run.bind_ret]
      unfold build_qcons
      rw [if_neg (by decide)]
      have : (if byte_at two_hop_line 7 = ',' then 7 + 1 else 7) = 8 := by rfl
      rw [this, scan_qcons_two_hop_line]
      rfl
    · unfold scan_via
      rw [h']; rfl
  · unfold scan_dstcall
    rw [h]; rfl

/-- C3 (the code does not do this): `incoming_parse` does not terminate on every
input.  On the line `SRC>DST,WIDE1-1,WIDE2-1:x`, which the claim names, the call
never returns: whatever the step budget, the worker state, the client and the
content parser, the run is still inside the loop of lines 340 to 344, which
stays at the comma after the first via hop. -/
theorem incoming_parse_two_hop_line_never_returns (parse_aprs : worker_t → pbuf_t → Int)
    (now : Int) (fuel : Nat) (st : State) (c : Nat) :
    incoming_parse aprsc_config parse_aprs now fuel st c two_hop_line = .spin := by
  unfold incoming_parse
  rw [locate_fields_two_hop_line]
  rfl

/-! ## Rejections before the buffer is allocated -/

theorem memchr_eq_none {s : List Char} {c : Char} (n : Nat) (h : c ∉ s) : memchr s c n = none := by
  unfold memchr
  rw [if_neg]
  rw [List.indexOf_lt_length]
  exact fun hm => h (List.mem_of_mem_take hm)

theorem memchr_append_self {p : List Char} {c : Char} (h : c ∉ p) :
    memchr (p ++ [c]) c (p ++ [c]).length = some p.length := by
  unfold memchr
  rw [List.take_length, List.indexOf_append_of_not_mem h]
  simp

/-- A line that `locate_fields` rejects is rejected by `incoming_parse` with the
state as it was. -/
theorem incoming_parse_of_reject (cfg : Config) (parse_aprs : worker_t → pbuf_t → Int)
    (now : Int) (fuel : Nat) (st : State) (c : Nat) (s : List Char)
    (h : locate_fields cfg fuel s = .ret none) :
    incoming_parse cfg parse_aprs now fuel st c s = .ret (-1, st) := by
  unfold incoming_parse
  rw [h]
  rfl

theorem locate_fields_no_colon (cfg : Config) (fuel : Nat) (s : List Char) (h : ':' ∉ s) :
    locate_fields cfg fuel s = .ret none := by
  unfold locate_fields
  rw [memchr_eq_none _ h]

theorem locate_fields_empty_payload (cfg : Config) (fuel : Nat) (p : List Char) (h : ':' ∉ p) :
    locate_fields cfg fuel (p ++ [':']) = .ret none := by
  unfold locate_fields
  rw [memchr_append_self h]
  simp only
  split
  · rfl
  · split_ifs with h1 h2 h3
    · rfl
    · rfl
    · rfl
    · exact absurd (by simp) h3

/-- C9: whenever `incoming_parse` rejects a line on structural grounds, that is
whenever one of the `return -1` of lines 265 to 323 is taken (`locate_fields`
gives `none`: no colon, no `>` in range, over-long source or destination
callsign, empty payload, bad `,I` form), it returns -1 and the state is exactly
as before the call: the three local free lists, the local pending queue and its
tail pointer, the shared inbox, the heap of buffers, and the three arenas with
the record of the calls they received, so that neither `pbuf_get` nor an arena
was called and no buffer was allocated, filled or queued. -/
theorem structural_reject_leaves_state (cfg : Config) (parse_aprs : worker_t → pbuf_t → Int)
    (now : Int) (fuel : Nat) (st : State) (c : Nat) (s : List Char)
    (h : locate_fields cfg fuel s = .ret none) :
    incoming_parse cfg parse_aprs now fuel st c s = .ret (-1, st) :=
  incoming_parse_of_reject cfg parse_aprs now fuel st c s h

/-- The destination callsign `ABCDEFGHIJ` of this line is one byte too long. -/
theorem structural_reject_leaves_state_witness :
    locate_fields aprsc_config 100 "OH2ABC>ABCDEFGHIJ,WIDE2-1:>Hello".toList = .ret none ∧
    incoming_parse aprsc_config sample_parse_aprs 0 100 sample_state 5
      "OH2ABC>ABCDEFGHIJ,WIDE2-1:>Hello".toList = .ret (-1, sample_state) :=
  ⟨rfl, structural_reject_leaves_state aprsc_config sample_parse_aprs 0 100 sample_state 5
    "OH2ABC>ABCDEFGHIJ,WIDE2-1:>Hello".toList rfl⟩

/-- C10: `incoming_parse` accepts a line only if it has a colon followed by at
least one byte.  A line without a colon is rejected with -1, whatever its other
bytes, and so is a line whose first colon is its last byte (empty payload);
both for every step budget, with the state left as it was. -/
theorem no_colon_or_empty_payload_rejected (cfg : Config)
    (parse_aprs : worker_t → pbuf_t → Int) (now : Int) (fuel : Nat) (st : State) (c : Nat) :
    (∀ s : List Char, ':' ∉ s →
      incoming_parse cfg parse_aprs now fuel st c s = .ret (-1, st)) ∧
    (∀ p : List Char, ':' ∉ p →
      incoming_parse cfg parse_aprs now fuel st c (p ++ [':']) = .ret (-1, st)) :=
  ⟨fun s h => incoming_parse_of_reject cfg parse_aprs now fuel st c s
      (locate_fields_no_colon cfg fuel s h),
   fun p h => incoming_parse_of_reject cfg parse_aprs now fuel st c (p ++ [':'])
      (locate_fields_empty_payload cfg fuel p h)⟩

/-- The lines `OH2ABC>APRS,WIDE2-1` and `OH2ABC>APRS,WIDE2-1:` are rejected. -/
theorem no_colon_or_empty_payload_rejected_witness :
    (':' ∉ "OH2ABC>APRS,WIDE2-1".toList ∧
      incoming_parse aprsc_config sample_parse_aprs 0 0 sample_state 5
        "OH2ABC>APRS,WIDE2-1".toList = .ret (-1, sample_state)) ∧
    (':' ∉ "OH2ABC>APRS,WIDE2-1".toList ∧
      incoming_parse aprsc_config sample_parse_aprs 0 0 sample_state 5
        ("OH2ABC>APRS,WIDE2-1".toList ++ [':']) = .ret (-1, sample_state)) :=
  ⟨⟨by decide, (no_colon_or_empty_payload_rejected aprsc_config sample_parse_aprs 0 0
      sample_state 5).1 _ (by decide)⟩,
   ⟨by decide, (no_colon_or_empty_payload_rejected aprsc_config sample_parse_aprs 0 0
      sample_state 5).2 _ (by decide)⟩⟩

/-! ## The end-to-end scenarios on the sample state -/

set_option maxRecDepth 100000 in
/-- C1 (the code does not do this): on `OH2ABC>APRS,WIDE2-1:>Hello`, which is
accepted and is not of the `,I` form, `packet_len` is `len + 2 = 28` and the path
is copied, but the bytes after the path are not the colon and the payload
`:>Hello`: line 375 copies `datalen` bytes from `s`, the start of the line,
so the buffer holds `OH2ABC>APRS,WIDE2-1` `OH2ABC>` CR LF. -/
theorem plain_line_payload_is_line_start :
    observe 1 (incoming_parse aprsc_config sample_parse_aprs 0 100 sample_state 5 plain_line)
      = some (0, some 1, "OH2ABC>APRS,WIDE2-1OH2ABC>".toList ++ [CR, LF], 28,
              some 6, some 11, some 20) := by
  rfl

set_option maxRecDepth 100000 in
/-- C2 (the code does not do this): on `OH2ABC>APRS,RELAY,I:>Hello` the path is
truncated before `RELAY`, the annotation `qA#,RELAY` follows it and `packet_len`
is 12 + 9 + 7 + 2 = 30, but the bytes after the annotation are not `:>Hello`:
line 375 copies `datalen` bytes from the start of the line, so the buffer holds
`OH2ABC>APRS,qA#,RELAY` `OH2ABC>` CR LF. -/
theorem relay_line_payload_is_line_start :
    (observe 1 (incoming_parse aprsc_config sample_parse_aprs 0 100 sample_state 5 relay_line)).map
        (fun o => (o.1, o.2.1, o.2.2.1, o.2.2.2.1))
      = some (0, some 1, "OH2ABC>APRS,qA#,RELAYOH2ABC>".toList ++ [CR, LF], 30) := by
  rfl

set_option maxRecDepth 100000 in
/-- C7 (the code does not do this): on `OH2ABC>APRS,RELAY,I:>Hello` the path
written is 12 bytes and the annotation written is 9 bytes, so the byte after the
colon is written at index 12 + 9 + 1 = 22 of the buffer, but the offset stored
in `info_start` is 20, the index of the payload in the line as received; index
20 of the buffer holds the last byte of the annotation. -/
theorem relay_line_info_start_is_line_offset :
    (locate_fields aprsc_config 100 relay_line).result.map
        (fun f => f.map (fun f => (f.pathlen, f.qcons_len, f.info_start)))
      = some (some (12, 9, 20)) ∧
    (observe 1 (incoming_parse aprsc_config sample_parse_aprs 0 100 sample_state 5 relay_line)).map
        (fun o => (o.2.2.2.2.1, o.2.2.2.2.2.1, o.2.2.2.2.2.2, o.2.2.1.take 21, o.2.2.1.getD 20 NUL))
      = some (some 6, some 11, some 20, "OH2ABC>APRS,qA#,RELAY".toList, 'Y') := by
  constructor <;> rfl

set_option maxRecDepth 100000 in
/-- C5 (the code does not do this): `incoming_flush` stores the local queue
through `pbuf_incoming_last` and leaves `pbuf_incoming_last` where it was.
From the sample state (empty inbox, tail pointer at the inbox head slot): a
first line is parsed into cell 1 and flushed, the inbox holds cell 1; a second
line is parsed into cell 2 and flushed, and the inbox holds cell 2 alone, cell 1
is gone from it; and a flush with an empty local queue right after the first
flush leaves the inbox empty. -/
theorem second_flush_overwrites_inbox :
    ∃ r1 r2 : Int × State,
      incoming_parse aprsc_config sample_parse_aprs 0 100 sample_state 5 plain_line = .ret r1 ∧
      pending_queue r1.2 [1] ∧
      inbox (incoming_flush true r1.2) [1] ∧
      pending_queue (incoming_flush true r1.2) [] ∧
      (incoming_flush true r1.2).self.pbuf_incoming_last = Slot.incoming ∧
      incoming_parse aprsc_config sample_parse_aprs 0 100 (incoming_flush true r1.2) 5 relay_line
        = .ret r2 ∧
      pending_queue r2.2 [2] ∧
      inbox r2.2 [1] ∧
      inbox (incoming_flush true r2.2) [2] ∧
      ¬ inbox (incoming_flush true r2.2) [1, 2] ∧
      inbox (incoming_flush true (incoming_flush true r1.2)) [] := by
  refine ⟨_, _, rfl, ?_, ?_, ?_, rfl, rfl, ?_, ?_, ?_, ?_, ?_⟩ <;> decide

/-! ## Lemmas on linked lists -/

@[simp] theorem Heap.put_same (h : Heap) (a : Addr) (b : pbuf_t) : h.put a b a = b := by
  simp [Heap.put]

theorem Heap.put_other (h : Heap) (a : Addr) (b : pbuf_t) (x : Addr) (hx : x ≠ a) :
    h.put a b x = h x := by
  simp [Heap.put, hx]

/-- A chain is determined by its first pointer. -/
theorem is_list_unique (h : Heap) : ∀ (l1 l2 : List Addr) (p : Option Addr),
    is_list h p l1 → is_list h p l2 → l1 = l2 := by
  intro l1
  induction l1 with
  | nil =>
    intro l2 p h1 h2
    cases l2 with
    | nil => rfl
    | cons b l2 =>
      simp only [is_list] at h1 h2
      rw [h1] at h2
      exact absurd h2.1 (by simp)
  | cons a l1 ih =>
    intro l2 p h1 h2
    cases l2 with
    | nil =>
      simp only [is_list] at h1 h2
      rw [h2] at h1
      exact absurd h1.1 (by simp)
    | cons b l2 =>
      simp only [is_list] at h1 h2
      have hab : a = b := by
        have := h1.1.symm.trans h2.1
        simpa using this
      subst hab
      rw [ih l2 _ h1.2 h2.2]

/-- The part of a chain from one of its cells on is a chain. -/
theorem is_list_suffix (h : Heap) : ∀ (l1 l2 : List Addr) (a : Addr) (p : Option Addr),
    is_list h p (l1 ++ a :: l2) → is_list h (some a) (a :: l2) := by
  intro l1
  induction l1 with
  | nil =>
    intro l2 a p hp
    simp only [List.nil_append, is_list] at hp ⊢
    exact ⟨trivial, hp.2⟩
  | cons b l1 ih =>
    intro l2 a p hp
    simp only [List.cons_append, is_list] at hp
    exact ih l2 a _ hp.2

/-- The first cell of a chain does not occur again in it. -/
theorem is_list_head_not_mem (h : Heap) (a : Addr) (l : List Addr) (p : Option Addr)
    (hp : is_list h p (a :: l)) : a ∉ l := by
  intro ha
  obtain ⟨l1, l2, hl⟩ := List.append_of_mem ha
  have h1 : is_list h (some a) (a :: l) := by
    simp only [is_list] at hp ⊢
    exact ⟨trivial, hp.2⟩
  have h2 : is_list h (some a) (a :: l2) := by
    have hp2 := hp.2
    rw [hl] at hp2
    exact is_list_suffix h l1 l2 a _ hp2
  have := is_list_unique h _ _ _ h1 h2
  have hlen := congrArg List.length this
  rw [hl] at hlen
  simp at hlen
  omega

/-- A chain is still there in a heap with the same `next` fields on its cells. -/
theorem is_list_congr (h h2 : Heap) : ∀ (l : List Addr) (p : Option Addr),
    (∀ a ∈ l, (h2 a).next = (h a).next) → is_list h p l → is_list h2 p l := by
  intro l
  induction l with
  | nil => intro p _ hp; exact hp
  | cons a l ih =>
    intro p hn hp
    simp only [is_list] at hp ⊢
    refine ⟨hp.1, ?_⟩
    rw [hn a (List.mem_cons_self a l)]
    exact ih _ (fun x hx => hn x (List.mem_cons_of_mem a hx)) hp.2

/-- Appending a cell at the tail slot of a non-empty chain: the cell `pb`, not on
the chain, is stored with `next = NULL` and the `next` field of the last cell is
set to `pb`. -/
theorem is_list_append (h : Heap) (pb : Addr) (b : pbuf_t) (hb : b.next = none) :
    ∀ (l : List Addr) (p : Option Addr) (hl : l ≠ []), is_list h p l → pb ∉ l →
      is_list ((h.put pb b).put (l.getLast hl)
        { (h.put pb b) (l.getLast hl) with next := some pb }) p (l ++ [pb]) := by
  intro l
  induction l with
  | nil => intro p hl; exact absurd rfl hl
  | cons a l ih =>
    intro p hl hp hpb
    have hane : a ≠ pb := fun e => hpb (e ▸ List.mem_cons_self a l)
    cases l with
    | nil =>
      simp only [is_list] at hp
      simp only [List.getLast_singleton, List.singleton_append, is_list, Heap.put_same,
        and_true, true_and]
      refine ⟨hp.1, ?_⟩
      rw [Heap.put_other _ _ _ _ (Ne.symm hane), Heap.put_same]
      exact hb
    | cons c l =>
      have hnot : a ∉ c :: l := is_list_head_not_mem h a (c :: l) p hp
      have hlast : (c :: l).getLast (by simp) ∈ c :: l := List.getLast_mem _
      have hane2 : a ≠ (c :: l).getLast (by simp) := fun e => hnot (e ▸ hlast)
      have hp' := hp
      simp only [is_list] at hp
      have := ih (h a).next (by simp) (by simp only [is_list]; exact hp.2)
        (fun hm => hpb (List.mem_cons_of_mem a hm))
      simp only [List.cons_append, is_list, List.getLast_cons_cons] at this ⊢
      refine ⟨hp.1, ?_⟩
      rw [Heap.put_other _ _ _ _ hane2, Heap.put_other _ _ _ _ hane]
      exact this

/-! ## The append to the local pending queue -/

theorem tail_slot_append (head : Slot) (q : List Addr) (pb : Addr) :
    tail_slot head (q ++ [pb]) = Slot.next pb := by
  simp [tail_slot]

theorem tail_slot_of_ne_nil (head : Slot) (q : List Addr) (hq : q ≠ []) :
    tail_slot head q = Slot.next (q.getLast hq) := by
  simp [tail_slot, List.getLast?_eq_getLast _ hq]

/-- Lines 391 to 393 append the cell to a well-formed pending queue: the queue
holds the old cells followed by `pb`, `pb->next` is `NULL`, the tail pointer is
`&pb->next`; the free lists, the inbox and the arenas are as before. -/
theorem enqueue_local_spec (st : State) (pb : Addr) (b : pbuf_t) (q : List Addr)
    (hq : pending_queue st q) (hpb : pb ∉ q) :
    pending_queue (enqueue_local st pb b) (q ++ [pb]) ∧
    ((enqueue_local st pb b).heap pb).next = none ∧
    (enqueue_local st pb b).self.pbuf_incoming_local_last = Slot.next pb := by
  obtain ⟨hl, ht⟩ := hq
  by_cases hne : q = []
  · subst hne
    simp only [tail_slot, List.getLast?_nil] at ht
    simp only [is_list] at hl
    simp [enqueue_local, pending_queue, State.store, ht, is_list, tail_slot]
  · rw [tail_slot_of_ne_nil _ _ hne] at ht
    have hlast : q.getLast hne ≠ pb := fun e => hpb (e ▸ List.getLast_mem hne)
    have happ := is_list_append st.heap pb { b with next := none } rfl q _ hne hl hpb
    refine ⟨⟨?_, ?_⟩, ?_, ?_⟩
    · simpa [enqueue_local, State.store, ht] using happ
    · simp [enqueue_local, State.store, ht, tail_slot]
    · simp [enqueue_local, State.store, ht, Heap.put, hlast.symm]
    · simp [enqueue_local, State.store, ht]

/-! ## Lemmas on `pbuf_get` -/

/-- The refill loop stores into `next` fields of cells of the array only, given
that `*pool` is a cell of the array or `NULL` when it starts; it ends with
`*pool` the last cell of the array. -/
theorem link_cells_spec (S : List Addr) : ∀ (l : List Addr) (i : Nat) (h : Heap)
    (pool : Option Addr), (∀ p, pool = some p → p ∈ S) → (∀ a ∈ l, a ∈ S) →
    (∀ a, a ∉ S → (link_cells l i h pool).1 a = h a) ∧
    (∀ a, ((link_cells l i h pool).1 a).data = (h a).data) ∧
    (∀ p, (link_cells l i h pool).2 = some p → p ∈ S) ∧
    (pool = none → l = [] → (link_cells l i h pool).2 = none) := by
  intro l
  induction l with
  | nil =>
    intro i h pool hpool _
    exact ⟨fun _ _ => rfl, fun _ => rfl, hpool, fun hp _ => hp⟩
  | cons a l ih =>
    intro i h pool hpool hl
    have haS : a ∈ S := hl a (List.mem_cons_self a l)
    have hl2 : ∀ x ∈ l, x ∈ S := fun x hx => hl x (List.mem_cons_of_mem a hx)
    have ha2 : ∀ p, some a = some p → p ∈ S := fun p hp => by cases hp; exact haS
    cases pool with
    | none =>
      simp only [link_cells]
      obtain ⟨k1, k2, k3, _⟩ := ih (i + 1) h (some a) ha2 hl2
      exact ⟨k1, k2, k3, fun _ hne => absurd hne (by simp)⟩
    | some p =>
      have hpS := hpool p rfl
      simp only [link_cells]
      by_cases hi : 0 < i
      · simp only [if_pos hi]
        obtain ⟨k1, k2, k3, _⟩ := ih (i + 1) (h.put p { h p with next := some a }) (some a) ha2 hl2
        refine ⟨?_, ?_, k3, fun hne => absurd hne (by simp)⟩
        · intro x hx
          have hxp : x ≠ p := fun e => hx (e ▸ hpS)
          rw [k1 x hx, Heap.put_other _ _ _ _ hxp]
        · intro x
          rw [k2 x]
          by_cases hxp : x = p
          · subst hxp; simp
          · rw [Heap.put_other _ _ _ _ hxp]
      · simp only [if_neg hi]
        obtain ⟨k1, k2, k3, _⟩ := ih (i + 1) h (some a) ha2 hl2
        exact ⟨k1, k2, k3, fun hne => absurd hne (by simp)⟩

/-- What `pbuf_get_real` does to the heap and where its buffer comes from: it
stores into cells of the arena only and never into the storage behind `data`;
the buffer is the head of the local list, with the heap untouched, or a cell of
the arena whose `buf_len` is set to `len`. -/
theorem pbuf_get_real_spec (h : Heap) (pool : Option Addr) (gp : cellarena_t) (len : Int)
    (n : Nat) :
    (∀ a, a ∉ gp.cells → (pbuf_get_real h pool gp len n).2.1 a = h a) ∧
    (∀ a, ((pbuf_get_real h pool gp len n).2.1 a).data = (h a).data) ∧
    (∀ pb, (pbuf_get_real h pool gp len n).1 = some pb →
      (pool = some pb ∧ (pbuf_get_real h pool gp len n).2.1 = h) ∨
      (pool = none ∧ pb ∈ gp.cells ∧ ((pbuf_get_real h pool gp len n).2.1 pb).buf_len = len)) := by
  cases pool with
  | some p =>
    exact ⟨fun _ _ => rfl, fun _ => rfl, fun pb hpb => Or.inl ⟨hpb, rfl⟩⟩
  | none =>
    have hsub : ∀ a ∈ (cellmallocmany gp n).1, a ∈ gp.cells := by
      intro a ha
      exact List.mem_of_mem_take ha
    obtain ⟨k1, k2, k3, _⟩ := link_cells_spec gp.cells (cellmallocmany gp n).1 0 h none
      (fun p hp => by cases hp) hsub
    simp only [pbuf_get_real]
    cases hlk : (link_cells (cellmallocmany gp n).1 0 h none).2 with
    | none =>
      simp only
      exact ⟨k1, k2, fun pb hpb => by cases hpb⟩
    | some pb =>
      have hpbS := k3 pb hlk
      simp only
      refine ⟨?_, ?_, ?_⟩
      · intro a ha
        have hane : a ≠ pb := fun e => ha (e ▸ hpbS)
        rw [Heap.put_other _ _ _ _ hane, Heap.put_other _ _ _ _ hane]
        exact k1 a ha
      · intro a
        by_cases hap : a = pb
        · subst hap
          simp [pbuf_t.zeroed, k2]
        · rw [Heap.put_other _ _ _ _ hap, Heap.put_other _ _ _ _ hap]
          exact k2 a
      · intro pb' hpb'
        cases hpb'
        exact Or.inr ⟨trivial, hpbS, by simp⟩

/-- What one call of `pbuf_get` that returns a buffer does: the two queues of
the worker and their tail pointers are untouched, so is every cell that is not
free and all storage behind `data`; the buffer was free; and in a state with
`tiers_ok` it carries in `buf_len` its capacity, which is at least `len`. -/
theorem pbuf_get_spec (cfg : Config) (st st1 : State) (len : Int) (pb : Addr)
    (hg : pbuf_get cfg st len = (some pb, st1)) :
    st1.self.pbuf_incoming_local = st.self.pbuf_incoming_local ∧
    st1.self.pbuf_incoming_local_last = st.self.pbuf_incoming_local_last ∧
    st1.self.pbuf_incoming = st.self.pbuf_incoming ∧
    st1.self.pbuf_incoming_last = st.self.pbuf_incoming_last ∧
    (∀ a, ¬ is_free_cell st a → st1.heap a = st.heap a) ∧
    (∀ a, (st1.heap a).data = (st.heap a).data) ∧
    is_free_cell st pb ∧
    (tiers_ok cfg st → len ≤ (st1.heap pb).buf_len ∧
      (st1.heap pb).buf_len = (st1.heap pb).data.length) := by
  unfold pbuf_get at hg
  split_ifs at hg with h1 h2 h3
  · obtain ⟨k1, k2, k3⟩ := pbuf_get_real_spec st.heap st.self.pbuf_free_small
      st.pbuf_cells_small cfg.PACKETLEN_MAX_SMALL cfg.PBUF_ALLOCATE_BUNCH_SMALL
    simp only [Prod.mk.injEq] at hg
    obtain ⟨hpb, hst⟩ := hg
    subst hst
    refine ⟨rfl, rfl, rfl, rfl, ?_, k2, ?_, ?_⟩
    · intro a ha
      exact k1 a (fun hm => ha (Or.inr (Or.inr (Or.inr (Or.inl hm)))))
    · rcases k3 pb hpb with ⟨hp, _⟩ | ⟨_, hm, _⟩
      · exact Or.inl hp
      · exact Or.inr (Or.inr (Or.inr (Or.inl hm)))
    · intro ht
      rcases k3 pb hpb with ⟨hp, hh⟩ | ⟨_, hm, hb⟩
      · have := ht.1 pb hp
        simp only [hh]
        rw [this.1, this.2]
        exact ⟨h1, rfl⟩
      · have := ht.2.2.2.1 pb hm
        simp only [hb, k2 pb, this]
        exact ⟨h1, trivial⟩
  · obtain ⟨k1, k2, k3⟩ := pbuf_get_real_spec st.heap st.self.pbuf_free_large
      st.pbuf_cells_large cfg.PACKETLEN_MAX_LARGE cfg.PBUF_ALLOCATE_BUNCH_LARGE
    simp only [Prod.mk.injEq] at hg
    obtain ⟨hpb, hst⟩ := hg
    subst hst
    refine ⟨rfl, rfl, rfl, rfl, ?_, k2, ?_, ?_⟩
    · intro a ha
      exact k1 a (fun hm => ha (Or.inr (Or.inr (Or.inr (Or.inr (Or.inl hm))))))
    · rcases k3 pb hpb with ⟨hp, _⟩ | ⟨_, hm, _⟩
      · exact Or.inr (Or.inl hp)
      · exact Or.inr (Or.inr (Or.inr (Or.inr (Or.inl hm))))
    · intro ht
      rcases k3 pb hpb with ⟨hp, hh⟩ | ⟨_, hm, hb⟩
      · have := ht.2.1 pb hp
        simp only [hh]
        rw [this.1, this.2]
        exact ⟨h2, rfl⟩
      · have := ht.2.2.2.2.1 pb hm
        simp only [hb, k2 pb, this]
        exact ⟨h2, trivial⟩
  · obtain ⟨k1, k2, k3⟩ := pbuf_get_real_spec st.heap st.self.pbuf_free_huge
      st.pbuf_cells_huge cfg.PACKETLEN_MAX_HUGE cfg.PBUF_ALLOCATE_BUNCH_HUGE
    simp only [Prod.mk.injEq] at hg
    obtain ⟨hpb, hst⟩ := hg
    subst hst
    refine ⟨rfl, rfl, rfl, rfl, ?_, k2, ?_, ?_⟩
    · intro a ha
      exact k1 a (fun hm => ha (Or.inr (Or.inr (Or.inr (Or.inr (Or.inr hm))))))
    · rcases k3 pb hpb with ⟨hp, _⟩ | ⟨_, hm, _⟩
      · exact Or.inr (Or.inr (Or.inl hp))
      · exact Or.inr (Or.inr (Or.inr (Or.inr (Or.inr hm))))
    · intro ht
      rcases k3 pb hpb with ⟨hp, hh⟩ | ⟨_, hm, hb⟩
      · have := ht.2.2.1 pb hp
        simp only [hh]
        rw [this.1, this.2]
        exact ⟨h3, rfl⟩
      · have := ht.2.2.2.2.2 pb hm
        simp only [hb, k2 pb, this]
        exact ⟨h3, trivial⟩
  · simp at hg

/-! ## What `incoming_parse` knows when it reaches `pbuf_get` -/

theorem memchr_some {s : List Char} {c : Char} {n i : Nat} (h : memchr s c n = some i) :
    i < n ∧ i < s.length := by
  unfold memchr at h
  split_ifs at h with hlt
  simp only [Option.some.injEq] at h
  subst h
  rw [List.length_take] at hlt
  omega

theorem memcpy_ret {dst src d : List Char} {off n : Nat} (h : memcpy dst off src n = .ret d) :
    d.length = dst.length ∧ n ≤ src.length ∧ off + n ≤ dst.length := by
  unfold memcpy at h
  split_ifs at h with hc
  simp only [Run.ret.injEq] at h
  subst h
  refine ⟨?_, hc.1, hc.2⟩
  simp only [List.length_append, List.length_take, List.length_drop]
  omega

theorem memcpy_of_le (dst src : List Char) (off n : Nat) (h1 : n ≤ src.length)
    (h2 : off + n ≤ dst.length) :
    memcpy dst off src n = .ret (dst.take off ++ src.take n ++ dst.drop (off + n)) := by
  unfold memcpy
  rw [if_pos ⟨h1, h2⟩]

theorem scan_dstcall_bounds {fuel : Nat} {s : List Char} {path_end start d : Nat}
    (h : scan_dstcall fuel s path_end start = .ret d) (hs : start ≤ path_end) :
    start ≤ d ∧ d ≤ path_end := by
  unfold scan_dstcall at h
  refine (whileM_inv _ _ (fun d => start ≤ d ∧ d ≤ path_end) ?_ fuel start d
    ⟨le_refl _, hs⟩ h).1
  intro x y hx hc hy
  simp only [Run.ret.injEq] at hy
  subst hy
  simp only [Bool.and_eq_true, decide_eq_true_eq] at hc
  omega

theorem scan_back_bounds {fuel : Nat} {s : List Char} {path_end p : Nat}
    (h : scan_back fuel s path_end = .ret p) : p ≤ path_end - 3 := by
  unfold scan_back at h
  refine (whileM_inv _ _ (fun p => p ≤ path_end - 3) ?_ fuel _ p (le_refl _) h).1
  intro x y hx _ hy
  simp only [Run.ret.injEq] at hy
  subst hy
  omega

theorem build_qcons_facts {cfg : Config} {fuel : Nat} {s : List Char} {path_end via_start : Nat}
    {pathlen qcons_len : Nat} {qcons : List Char}
    (h : build_qcons cfg fuel s path_end via_start = .ret (some (pathlen, qcons, qcons_len))) :
    pathlen ≤ path_end ∧ path_end ≤ pathlen + qcons_len ∧
    pathlen + qcons_len ≤ path_end + 2 ∧ qcons_len ≤ qcons.length := by
  unfold build_qcons at h
  split_ifs at h with hI
  · obtain ⟨p, hp, h⟩ := Run.bind_eq_ret.mp h
    have hpb := scan_back_bounds hp
    by_cases hlen : path_end - p > cfg.CALLSIGNLEN_MAX + 3
    · rw [if_pos hlen] at h
      simp at h
    · rw [if_neg hlen] at h
      have hp1 : (if byte_at s p = ',' then p + 1 else p) ≤ p + 1 := by split_ifs <;> omega
      have hp2 : p ≤ (if byte_at s p = ',' then p + 1 else p) := by split_ifs <;> omega
      generalize (if byte_at s p = ',' then p + 1 else p) = p1 at h hp1 hp2
      simp only at h
      obtain ⟨q1, hq1, h⟩ := Run.bind_eq_ret.mp h
      obtain ⟨q2, hq2, h⟩ := Run.bind_eq_ret.mp h
      simp only [Run.ret.injEq, Option.some.injEq, Prod.mk.injEq] at h
      obtain ⟨h1, h2, h3⟩ := h
      have m1 := memcpy_ret hq1
      have m2 := memcpy_ret hq2
      simp only [List.length_replicate] at m1
      rw [← h1, ← h2, ← h3]
      omega
  · obtain ⟨_, _, h⟩ := Run.bind_eq_ret.mp h
    simp only [Run.ret.injEq, Option.some.injEq, Prod.mk.injEq] at h
    obtain ⟨h1, h2, h3⟩ := h
    subst h1 h2 h3
    simp

/-- What holds of the fields of an accepted line: the `>` lies before the end of
the destination callsign, which lies before the payload; the payload is not
empty; the path kept and the annotation together are the original path or two
bytes more; the annotation lies within the scratch array. -/
theorem locate_fields_facts {cfg : Config} {fuel : Nat} {s : List Char} {f : Fields}
    (h : locate_fields cfg fuel s = .ret (some f)) :
    f.src_end < f.dstcall_end ∧ f.dstcall_end < f.info_start ∧ f.info_start < s.length ∧
    f.datalen + f.info_start = s.length + 1 ∧ f.pathlen < f.info_start ∧
    f.info_start ≤ f.pathlen + f.qcons_len + 1 ∧ f.pathlen + f.qcons_len ≤ f.info_start + 1 ∧
    f.qcons_len ≤ f.qcons.length := by
  unfold locate_fields at h
  cases hm : memchr s ':' s.length with
  | none => rw [hm] at h; simp at h
  | some path_end =>
    rw [hm] at h
    simp only at h
    cases hm2 : memchr s '>' (if path_end < cfg.CALLSIGNLEN_MAX + 1 then path_end
        else cfg.CALLSIGNLEN_MAX + 1) with
    | none => rw [hm2] at h; simp at h
    | some src_end =>
      rw [hm2] at h
      simp only at h
      have b1 := memchr_some hm
      have b2 := memchr_some hm2
      have hsp : src_end < path_end := by
        have := b2.1
        split_ifs at this <;> omega
      split_ifs at h with c1 c2 c3
      · simp at h
      · simp at h
      · simp at h
      obtain ⟨d, hd, h⟩ := Run.bind_eq_ret.mp h
      have hdb := scan_dstcall_bounds hd (by omega)
      split_ifs at h with c5
      · simp at h
      obtain ⟨v, _, h⟩ := Run.bind_eq_ret.mp h
      obtain ⟨q, hq, h⟩ := Run.bind_eq_ret.mp h
      cases q with
      | none => simp at h
      | some q =>
        obtain ⟨pathlen, qcons, qcons_len⟩ := q
        simp only [Run.ret.injEq, Option.some.injEq] at h
        have hb := build_qcons_facts hq
        subst h
        simp only
        omega

/-! ## Filling the buffer -/

theorem memcpy_total (dst src : List Char) (off n : Nat) (h1 : n ≤ src.length)
    (h2 : off + n ≤ dst.length) :
    ∃ d, memcpy dst off src n = .ret d ∧ d.length = dst.length := by
  refine ⟨_, memcpy_of_le dst src off n h1 h2, ?_⟩
  simp only [List.length_append, List.length_take, List.length_drop]
  omega

theorem poke_total (dst : List Char) (off : Nat) (c : Char) (h : off < dst.length) :
    ∃ d, poke dst off c = .ret d ∧ d.length = dst.length := by
  refine ⟨dst.set off c, ?_, by simp⟩
  unfold poke
  rw [if_pos h]

/-- Lines 363 to 385 run without leaving an array when the path kept, the
annotation, the `datalen` bytes and the CRLF fit the storage of the buffer; the
header of the filled buffer is as the source sets it. -/
theorem fill_pbuf_ret (c : Nat) (now : Int) (s : List Char) (f : Fields) (b : pbuf_t)
    (hp : f.pathlen ≤ s.length) (hd : f.datalen ≤ s.length)
    (hq : f.qcons_len ≤ f.qcons.length)
    (hcap : f.pathlen + f.qcons_len + f.datalen + 2 ≤ b.data.length) :
    ∃ b2, fill_pbuf c now s f b = .ret b2 ∧ b2.data.length = b.data.length ∧
      b2.buf_len = b.buf_len ∧
      b2.packet_len = (f.pathlen + f.qcons_len + f.datalen + 2 : Nat) ∧
      b2.srccall_end = some f.src_end ∧ b2.dstcall_end = some f.dstcall_end ∧
      b2.info_start = some f.info_start ∧ b2.origin = some c ∧ b2.t = now := by
  obtain ⟨d1, e1, l1⟩ := memcpy_total b.data s 0 f.pathlen hp (by omega)
  obtain ⟨d2, e2, l2⟩ := poke_total d1 f.pathlen NUL (by omega)
  obtain ⟨d3, e3, l3⟩ := memcpy_total d2 f.qcons f.pathlen f.qcons_len hq (by omega)
  obtain ⟨d4, e4, l4⟩ := memcpy_total d3 s (f.pathlen + f.qcons_len) f.datalen hd (by omega)
  obtain ⟨d5, e5, l5⟩ := memcpy_total d4 [CR, LF] (f.pathlen + f.qcons_len + f.datalen) 2
    (by simp) (by omega)
  have hfill : fill_pbuf c now s f b = .ret
      { b with origin := some c, t := now, data := d5,
               packet_len := (f.pathlen + f.qcons_len + f.datalen + 2 : Nat),
               srccall_end := some f.src_end, dstcall_end := some f.dstcall_end,
               info_start := some f.info_start } := by
    unfold fill_pbuf
    rw [e1, Run.bind_ret, e2, Run.bind_ret, e3, Run.bind_ret, e4, Run.bind_ret, e5, Run.bind_ret]
  refine ⟨_, hfill, ?_, rfl, rfl, rfl, rfl, rfl, rfl, rfl⟩
  show d5.length = b.data.length
  omega

/-- A line that reaches `pbuf_get`, gets a buffer and fits its storage is parsed
to the end: the buffer is filled, the content parser runs on it, the buffer is
appended to the pending queue and the status of the content parser is
returned. -/
theorem incoming_parse_accept (cfg : Config) (parse_aprs : worker_t → pbuf_t → Int)
    (now : Int) (fuel : Nat) (st st1 : State) (c : Nat) (s : List Char) (f : Fields)
    (pb : Addr)
    (hf : locate_fields cfg fuel s = .ret (some f))
    (hg : pbuf_get cfg st (s.length + 14 : Nat) = (some pb, st1))
    (hcap : s.length + 4 ≤ (st1.heap pb).data.length) :
    ∃ b, fill_pbuf c now s f (st1.heap pb) = .ret b ∧
      incoming_parse cfg parse_aprs now fuel st c s
        = .ret (parse_aprs st1.self b, enqueue_local st1 pb b) ∧
      b.data.length = (st1.heap pb).data.length ∧ b.buf_len = (st1.heap pb).buf_len ∧
      b.packet_len = (f.pathlen + f.qcons_len + f.datalen + 2 : Nat) ∧
      b.srccall_end = some f.src_end ∧ b.dstcall_end = some f.dstcall_end ∧
      b.info_start = some f.info_start ∧ b.origin = some c ∧ b.t = now := by
  have hfacts := locate_fields_facts hf
  obtain ⟨b, hb, rest⟩ := fill_pbuf_ret c now s f (st1.heap pb) (by omega) (by omega)
    hfacts.2.2.2.2.2.2.2 (by omega)
  refine ⟨b, hb, ?_, rest⟩
  unfold incoming_parse
  rw [hf, Run.bind_ret]
  simp only [hg, hb, Run.bind_ret]

/-! ## The buffer on the pending queue -/

/-- The append of lines 391 to 393 changes no field of the cell but `next`. -/
theorem enqueue_local_cell (st : State) (pb : Addr) (b : pbuf_t) :
    ((enqueue_local st pb b).heap pb).srccall_end = b.srccall_end ∧
    ((enqueue_local st pb b).heap pb).dstcall_end = b.dstcall_end ∧
    ((enqueue_local st pb b).heap pb).info_start = b.info_start ∧
    ((enqueue_local st pb b).heap pb).packet_len = b.packet_len ∧
    ((enqueue_local st pb b).heap pb).buf_len = b.buf_len ∧
    ((enqueue_local st pb b).heap pb).data = b.data := by
  unfold enqueue_local
  cases hs : st.self.pbuf_incoming_local_last with
  | incoming_local => simp [State.store, hs]
  | incoming => simp [State.store, hs]
  | next a =>
    by_cases ha : pb = a
    · subst ha; simp [State.store, hs]
    · simp [State.store, hs, Heap.put, ha]

/-- An accepted line in a well-formed state: the call returns the status of the
content parser and the buffer is appended to the pending queue. -/
theorem incoming_parse_enqueue (cfg : Config)
    (parse_aprs : worker_t → pbuf_t → Int) (now : Int) (fuel : Nat) (st st1 : State)
    (c : Nat) (s : List Char) (f : Fields) (pb : Addr) (q : List Addr)
    (hf : locate_fields cfg fuel s = .ret (some f))
    (hg : pbuf_get cfg st (s.length + 14 : Nat) = (some pb, st1))
    (hcap : s.length + 4 ≤ (st1.heap pb).data.length)
    (hq : pending_queue st q)
    (hsep : ∀ a ∈ q, ¬ is_free_cell st a) :
    ∃ b st2, fill_pbuf c now s f (st1.heap pb) = .ret b ∧
      incoming_parse cfg parse_aprs now fuel st c s = .ret (parse_aprs st1.self b, st2) ∧
      pending_queue st2 (q ++ [pb]) ∧
      (st2.heap pb).next = none ∧
      st2.self.pbuf_incoming_local_last = Slot.next pb := by
  obtain ⟨b, hb, hret, _⟩ := incoming_parse_accept cfg parse_aprs now fuel st st1 c s f pb
    hf hg hcap
  obtain ⟨g1, g2, _, _, g5, _, g7, _⟩ := pbuf_get_spec cfg st st1 _ pb hg
  have hq1 : pending_queue st1 q := by
    refine ⟨?_, by rw [g2]; exact hq.2⟩
    rw [g1]
    exact is_list_congr st.heap st1.heap q _ (fun a ha => by rw [g5 a (hsep a ha)]) hq.1
  have hpb : pb ∉ q := fun hm => hsep pb hm g7
  obtain ⟨e1, e2, e3⟩ := enqueue_local_spec st1 pb b q hq1 hpb
  exact ⟨b, enqueue_local st1 pb b, hb, hret, e1, e2, e3⟩

/-- C4: for every line that passes structural validation (`locate_fields` gives
the fields `f`) and for which `pbuf_get` returns a buffer `pb`, `incoming_parse`
returns, its return value is exactly the status `parse_aprs` returns on the
filled buffer, whatever that status is, and `pb` is appended at the tail of the
worker's local pending queue: the queue holds the old cells followed by `pb`,
`pb->next` is `NULL` and the tail pointer is `&pb->next`.  The state is taken
well formed: the pending queue holds cells `q` with its tail pointer at its tail
slot, no cell of `q` is free, and the storage of `pb` has room for the line and
the four bytes the parser may add. -/
theorem incoming_parse_appends_to_pending_queue (cfg : Config)
    (parse_aprs : worker_t → pbuf_t → Int) (now : Int) (fuel : Nat) (st st1 : State)
    (c : Nat) (s : List Char) (f : Fields) (pb : Addr) (q : List Addr)
    (hf : locate_fields cfg fuel s = .ret (some f))
    (hg : pbuf_get cfg st (s.length + 14 : Nat) = (some pb, st1))
    (hcap : s.length + 4 ≤ (st1.heap pb).data.length)
    (hq : pending_queue st q)
    (hsep : ∀ a ∈ q, ¬ is_free_cell st a) :
    ∃ b st2, fill_pbuf c now s f (st1.heap pb) = .ret b ∧
      incoming_parse cfg parse_aprs now fuel st c s = .ret (parse_aprs st1.self b, st2) ∧
      pending_queue st2 (q ++ [pb]) ∧
      (st2.heap pb).next = none ∧
      st2.self.pbuf_incoming_local_last = Slot.next pb :=
  incoming_parse_enqueue cfg parse_aprs now fuel st st1 c s f pb q hf hg hcap hq hsep

set_option maxRecDepth 100000 in
/-- The line `OH2ABC>APRS,RELAY,I:>Hello` parsed into cell 2 in the state that
has cell 1 pending. -/
theorem incoming_parse_appends_to_pending_queue_witness :
    (locate_fields aprsc_config 100 relay_line = .ret (some relay_fields) ∧
     pbuf_get aprsc_config one_pending_state (relay_line.length + 14 : Nat)
       = (some 2, (pbuf_get aprsc_config one_pending_state (relay_line.length + 14 : Nat)).2) ∧
     pending_queue one_pending_state [1]) ∧
    ∃ b st2, fill_pbuf 6 0 relay_line relay_fields
        ((pbuf_get aprsc_config one_pending_state (relay_line.length + 14 : Nat)).2.heap 2)
          = .ret b ∧
      incoming_parse aprsc_config sample_parse_aprs 0 100 one_pending_state 6 relay_line
        = .ret (sample_parse_aprs
            (pbuf_get aprsc_config one_pending_state (relay_line.length + 14 : Nat)).2.self b,
            st2) ∧
      pending_queue st2 ([1] ++ [2]) ∧
      (st2.heap 2).next = none ∧
      st2.self.pbuf_incoming_local_last = Slot.next 2 :=
  ⟨⟨rfl, rfl, by decide⟩,
   incoming_parse_appends_to_pending_queue aprsc_config sample_parse_aprs 0 100 one_pending_state _
     6 relay_line relay_fields 2 [1] rfl rfl (by decide) (by decide)
     (fun a ha => by
        simp only [List.mem_singleton] at ha
        subst ha
        decide)⟩

/-- C8: every buffer `incoming_parse` places on the pending queue has its three
offsets and its length in order, `0 ≤ src_end ≤ dst_end ≤ info_start ≤
packet_len ≤ capacity`, where the capacity is the `buf_len` of the buffer and
the size of its storage; and every byte written into `data` (path, terminating
zero, annotation, payload, CRLF) lies below the capacity, the run ending in
`Run.ret` and not in `Run.fault`.  The state is taken with `tiers_ok`: what is
at the head of a local free list carries the size of the tier of that list, and
the cells of an arena have the capacity of its tier. -/
theorem queued_buffer_within_capacity (cfg : Config)
    (parse_aprs : worker_t → pbuf_t → Int) (now : Int) (fuel : Nat) (st st1 : State)
    (c : Nat) (s : List Char) (f : Fields) (pb : Addr)
    (ht : tiers_ok cfg st)
    (hf : locate_fields cfg fuel s = .ret (some f))
    (hg : pbuf_get cfg st (s.length + 14 : Nat) = (some pb, st1)) :
    ∃ rc st2 src_end dst_end info_start,
      incoming_parse cfg parse_aprs now fuel st c s = .ret (rc, st2) ∧
      (st2.heap pb).srccall_end = some src_end ∧
      (st2.heap pb).dstcall_end = some dst_end ∧
      (st2.heap pb).info_start = some info_start ∧
      src_end ≤ dst_end ∧ dst_end ≤ info_start ∧
      (info_start : Int) ≤ (st2.heap pb).packet_len ∧
      (st2.heap pb).packet_len ≤ (st2.heap pb).buf_len ∧
      (st2.heap pb).buf_len = (st2.heap pb).data.length := by
  obtain ⟨_, _, _, _, _, _, _, g8⟩ := pbuf_get_spec cfg st st1 _ pb hg
  obtain ⟨hlen, hbl⟩ := g8 ht
  have hcap : s.length + 4 ≤ (st1.heap pb).data.length := by
    have : ((s.length + 14 : Nat) : Int) ≤ ((st1.heap pb).data.length : Int) := by
      rw [← hbl]; exact hlen
    omega
  obtain ⟨b, _, hret, b1, b2, b3, b4, b5, b6, _⟩ := incoming_parse_accept cfg parse_aprs now
    fuel st st1 c s f pb hf hg hcap
  obtain ⟨c1, c2, c3, c4, c5, c6⟩ := enqueue_local_cell st1 pb b
  have hfacts := locate_fields_facts hf
  refine ⟨_, _, f.src_end, f.dstcall_end, f.info_start, hret, ?_, ?_, ?_, ?_, ?_, ?_, ?_, ?_⟩
  · rw [c1, b4]
  · rw [c2, b5]
  · rw [c3, b6]
  · omega
  · omega
  · rw [c4, b3]; omega
  · rw [c4, c5, b3, b2, hbl]; omega
  · rw [c5, c6, b2, b1, hbl]

set_option maxRecDepth 100000 in
/-- The line `OH2ABC>APRS,RELAY,I:>Hello` parsed in the sample state. -/
theorem queued_buffer_within_capacity_witness :
    (tiers_ok aprsc_config sample_state ∧
     locate_fields aprsc_config 100 relay_line = .ret (some relay_fields) ∧
     pbuf_get aprsc_config sample_state (relay_line.length + 14 : Nat)
       = (some 1, (pbuf_get aprsc_config sample_state (relay_line.length + 14 : Nat)).2)) ∧
    ∃ rc st2 src_end dst_end info_start,
      incoming_parse aprsc_config sample_parse_aprs 0 100 sample_state 5 relay_line
        = .ret (rc, st2) ∧
      (st2.heap 1).srccall_end = some src_end ∧
      (st2.heap 1).dstcall_end = some dst_end ∧
      (st2.heap 1).info_start = some info_start ∧
      src_end ≤ dst_end ∧ dst_end ≤ info_start ∧
      (info_start : Int) ≤ (st2.heap 1).packet_len ∧
      (st2.heap 1).packet_len ≤ (st2.heap 1).buf_len ∧
      (st2.heap 1).buf_len = (st2.heap 1).data.length :=
  have ht : tiers_ok aprsc_config sample_state := by
    refine ⟨?_, ?_, ?_, ?_, ?_, ?_⟩
    · intro a ha; cases ha; decide
    · intro a ha; cases ha
    · intro a ha; cases ha
    · intro a ha
      simp only [sample_state, List.mem_cons, List.mem_singleton, List.not_mem_nil, or_false] at ha
      rcases ha with rfl | rfl <;> decide
    · intro a ha
      simp only [sample_state, List.mem_cons, List.mem_singleton, List.not_mem_nil, or_false] at ha
      rcases ha with rfl | rfl <;> decide
    · intro a ha
      simp only [sample_state, List.mem_cons, List.mem_singleton, List.not_mem_nil, or_false] at ha
      subst ha
      decide
  ⟨⟨ht, rfl, rfl⟩,
   queued_buffer_within_capacity aprsc_config sample_parse_aprs 0 100 sample_state _ 5
     relay_line relay_fields 1 ht rfl rfl⟩

/-! ## The handoff to the shared inbox -/

/-- A flush that acquires the lock, in a state whose inbox tail pointer is the
inbox head slot: the inbox then holds the cells of the local pending queue, in
their order, and the local queue is empty with its tail pointer at its head
slot. -/
theorem incoming_flush_publishes (st : State) (q : List Addr)
    (hq : is_list st.heap st.self.pbuf_incoming_local q)
    (hlast : st.self.pbuf_incoming_last = Slot.incoming) :
    inbox (incoming_flush true st) q ∧ pending_queue (incoming_flush true st) [] := by
  refine ⟨?_, ?_, ?_⟩
  · simpa [inbox, incoming_flush, State.store, hlast] using hq
  · simp [incoming_flush, is_list]
  · simp [incoming_flush, tail_slot]

/-- The append of lines 391 to 393 leaves the tail pointer of the inbox alone. -/
theorem enqueue_local_incoming_last (st : State) (pb : Addr) (b : pbuf_t) :
    (enqueue_local st pb b).self.pbuf_incoming_last = st.self.pbuf_incoming_last := by
  unfold enqueue_local
  cases hs : st.self.pbuf_incoming_local_last <;> simp [State.store, hs]

/-- C6: with the result of `pthread_mutex_trylock` as the boolean `locked`: a
flush that does not acquire the lock leaves the whole state unchanged (local
pending queue, its tail pointer, shared inbox and all the rest); and when a
packet is then appended by `incoming_parse` and a later flush acquires the lock,
the inbox, empty before with its tail pointer at its head slot, holds all the
packets accumulated across both attempts in arrival order (the cells `q` that
were pending at the first attempt, then the new cell `pb`), and the local queue
is empty with its tail pointer reset to its head slot.  The state is taken well
formed as for the append: the pending queue holds `q` with its tail pointer at
its tail slot, no cell of `q` is free, and the storage of `pb` has room for the
line and the four bytes the parser may add. -/
theorem contended_flush_keeps_packets (cfg : Config)
    (parse_aprs : worker_t → pbuf_t → Int) (now : Int) (fuel : Nat) (st st1 : State)
    (c : Nat) (s : List Char) (f : Fields) (pb : Addr) (q : List Addr)
    (hf : locate_fields cfg fuel s = .ret (some f))
    (hg : pbuf_get cfg st (s.length + 14 : Nat) = (some pb, st1))
    (hcap : s.length + 4 ≤ (st1.heap pb).data.length)
    (hq : pending_queue st q)
    (hsep : ∀ a ∈ q, ¬ is_free_cell st a)
    (hin : inbox st [])
    (hlast : st.self.pbuf_incoming_last = Slot.incoming) :
    incoming_flush false st = st ∧
    ∃ rc st2,
      incoming_parse cfg parse_aprs now fuel (incoming_flush false st) c s = .ret (rc, st2) ∧
      pending_queue st2 (q ++ [pb]) ∧
      inbox st2 [] ∧
      inbox (incoming_flush true st2) (q ++ [pb]) ∧
      pending_queue (incoming_flush true st2) [] := by
  refine ⟨rfl, ?_⟩
  show ∃ rc st2, incoming_parse cfg parse_aprs now fuel st c s = .ret (rc, st2) ∧ _
  obtain ⟨b, hb, hret, _⟩ := incoming_parse_accept cfg parse_aprs now fuel st st1 c s f pb
    hf hg hcap
  obtain ⟨g1, g2, g3, g4, g5, _, g7, _⟩ := pbuf_get_spec cfg st st1 _ pb hg
  have hq1 : pending_queue st1 q := by
    refine ⟨?_, by rw [g2]; exact hq.2⟩
    rw [g1]
    exact is_list_congr st.heap st1.heap q _ (fun a ha => by rw [g5 a (hsep a ha)]) hq.1
  have hpb : pb ∉ q := fun hm => hsep pb hm g7
  obtain ⟨e1, _, _⟩ := enqueue_local_spec st1 pb b q hq1 hpb
  have hl2 : (enqueue_local st1 pb b).self.pbuf_incoming_last = Slot.incoming := by
    rw [enqueue_local_incoming_last, g4, hlast]
  have hin2 : inbox (enqueue_local st1 pb b) [] := by
    have h0 : st1.self.pbuf_incoming = none := by rw [g3]; exact hin
    have ht := hq1.2
    unfold inbox enqueue_local
    simp only [is_list]
    by_cases hne : q = []
    · subst hne
      simp only [tail_slot, List.getLast?_nil] at ht
      simp [State.store, ht, h0]
    · rw [tail_slot_of_ne_nil _ _ hne] at ht
      simp [State.store, ht, h0]
  obtain ⟨p1, p2⟩ := incoming_flush_publishes (enqueue_local st1 pb b) (q ++ [pb]) e1.1 hl2
  exact ⟨_, _, hret, e1, hin2, p1, p2⟩

set_option maxRecDepth 100000 in
/-- The line `OH2ABC>APRS,RELAY,I:>Hello` parsed into cell 2 after a flush that
found the lock held, in the state that has cell 1 pending. -/
theorem contended_flush_keeps_packets_witness :
    (locate_fields aprsc_config 100 relay_line = .ret (some relay_fields) ∧
     pbuf_get aprsc_config one_pending_state (relay_line.length + 14 : Nat)
       = (some 2, (pbuf_get aprsc_config one_pending_state (relay_line.length + 14 : Nat)).2) ∧
     pending_queue one_pending_state [1] ∧ inbox one_pending_state [] ∧
     one_pending_state.self.pbuf_incoming_last = Slot.incoming) ∧
    (incoming_flush false one_pending_state = one_pending_state ∧
     ∃ rc st2,
      incoming_parse aprsc_config sample_parse_aprs 0 100 (incoming_flush false one_pending_state) 6
        relay_line = .ret (rc, st2) ∧
      pending_queue st2 ([1] ++ [2]) ∧
      inbox st2 [] ∧
      inbox (incoming_flush true st2) ([1] ++ [2]) ∧
      pending_queue (incoming_flush true st2) []) :=
  ⟨⟨rfl, rfl, by decide, by decide, rfl⟩,
   contended_flush_keeps_packets aprsc_config sample_parse_aprs 0 100 one_pending_state _ 6
     relay_line relay_fields 2 [1] rfl rfl (by decide) (by decide)
     (fun a ha => by
        simp only [List.mem_singleton] at ha
        subst ha
        decide) (by decide) rfl⟩

/-! ## The bytes of the filled buffer -/

theorem memcpy_take {dst src d : List Char} {off n : Nat} (h : memcpy dst off src n = .ret d) :
    d.take (off + n) = dst.take off ++ src.take n := by
  have hb := memcpy_ret h
  unfold memcpy at h
  rw [if_pos ⟨hb.2.1, hb.2.2⟩] at h
  simp only [Run.ret.injEq] at h
  subst h
  apply List.take_left'
  simp only [List.length_append, List.length_take]
  omega

theorem poke_take {dst d : List Char} {off : Nat} {c : Char} (h : poke dst off c = .ret d) :
    d.take off = dst.take off := by
  unfold poke at h
  split_ifs at h
  simp only [Run.ret.injEq] at h
  subst h
  rw [List.set_take, List.set_eq_of_length_le]
  simp

/-- The bytes `data[0 .. packet_len)` of a filled buffer: the path kept, the
annotation, the first `datalen` bytes of the line (line 375 copies from `s`),
and CRLF. -/
theorem fill_pbuf_data {c : Nat} {now : Int} {s : List Char} {f : Fields} {b b2 : pbuf_t}
    (h : fill_pbuf c now s f b = .ret b2) :
    b2.data.take (f.pathlen + f.qcons_len + f.datalen + 2)
      = s.take f.pathlen ++ f.qcons.take f.qcons_len ++ s.take f.datalen ++ [CR, LF] := by
  unfold fill_pbuf at h
  obtain ⟨d1, e1, h⟩ := Run.bind_eq_ret.mp h
  obtain ⟨d2, e2, h⟩ := Run.bind_eq_ret.mp h
  obtain ⟨d3, e3, h⟩ := Run.bind_eq_ret.mp h
  obtain ⟨d4, e4, h⟩ := Run.bind_eq_ret.mp h
  obtain ⟨d5, e5, h⟩ := Run.bind_eq_ret.mp h
  simp only [Run.ret.injEq] at h
  subst h
  have t1 := memcpy_take e1
  have t2 := poke_take e2
  have t3 := memcpy_take e3
  have t4 := memcpy_take e4
  have t5 := memcpy_take e5
  simp only [Nat.zero_add, List.take_zero, List.nil_append] at t1
  show d5.take (f.pathlen + f.qcons_len + f.datalen + 2) = _
  rw [t5, t4, t3, t2, t1]
  rfl

/-! ## The empty path -/

/-- The guard of lines 280 to 282, `path_start >= packet_end`, is never true:
the `>` was found before the colon, and the colon lies within the line. -/
theorem path_start_before_packet_end {s : List Char} {n pe se : Nat}
    (h1 : memchr s ':' s.length = some pe) (h2 : memchr s '>' n = some se) (hn : n ≤ pe) :
    se + 1 < s.length := by
  have b1 := memchr_some h1
  have b2 := memchr_some h2
  omega

set_option maxRecDepth 100000 in
/-- C11 (the code does not do this): `incoming_parse` does not reject every line
with nothing between the `>` and the first colon.  The line `OH2ABC>:payload`,
which the claim names, passes all the checks of lines 265 to 305 (the end of the
destination callsign is the colon itself, offset 7 = offset of `>` + 1), a
buffer is filled and queued, and the status of the content parser is returned.
The only guard on the start of the path, line 281, compares `path_start` with
`packet_end`, the end of the line, and not with `path_end`. -/
theorem empty_path_line_is_accepted :
    locate_fields aprsc_config 100 empty_path_line = .ret (some empty_path_fields) ∧
    (observe 1 (incoming_parse aprsc_config sample_parse_aprs 0 100 sample_state 5
        empty_path_line)).map (fun o => (o.1, o.2.1, o.2.2.2.1, o.2.2.2.2))
      = some (0, some 1, 17, some 6, some 7, some 8) := by
  constructor <;> rfl

/-! ## The round trip through the local cache -/

set_option maxRecDepth 100000 in
/-- C15 (the code does not do this): a buffer freed to the worker and acquired
again does not come back with a zero header.  Cell 7 holds a used small buffer;
after `pbuf_free(self, 7)` the call `pbuf_get(self, 40)` selects the small tier
and returns cell 7 by the pop path of lines 154 to 161, which stores nothing in
the buffer: `next` still points to the old head of the free list (cell 1), and
`packet_len`, `origin`, `t` and the three offsets are those of the old packet.
Only the refill path (lines 184 to 188) zeroes the header. -/
theorem freed_buffer_comes_back_with_old_header :
    tier_of aprsc_config (used_cell_state.heap 7).buf_len = some 0 ∧
    (pbuf_get aprsc_config (pbuf_free aprsc_config true 7 used_cell_state) 40).1 = some 7 ∧
    ((pbuf_get aprsc_config (pbuf_free aprsc_config true 7 used_cell_state) 40).2.heap 7).header
      = (some 1, 130, 28, some 5, 1000, some 6, some 11, some 20) := by
  refine ⟨by decide, rfl, rfl⟩

/-! ## The refill of the local cache -/

set_option maxRecDepth 100000 in
/-- C16 (the code does not do this): after a refill the local free list does not
hold the other cells of the bunch.  With an empty small free list and the cells
4 and 5 in the small arena, `pbuf_get_real` gets both cells from
`cellmallocmany`, returns cell 5 and leaves the local list empty: the loop of
lines 167 to 171 moves `*pool` to each cell in turn, so the list that starts at
`*pool` is the last cell alone, and cell 4 is neither on the local list nor in
the arena.  The next acquisition calls the arena again and, the arena having no
cell left, returns `NULL`. -/
theorem refill_keeps_last_cell_only :
    (pbuf_get_real empty_cache_state.heap none empty_cache_state.pbuf_cells_small 130 2000).1
      = some 5 ∧
    (pbuf_get_real empty_cache_state.heap none empty_cache_state.pbuf_cells_small 130 2000).2.2.1
      = none ∧
    (pbuf_get_real empty_cache_state.heap none empty_cache_state.pbuf_cells_small 130 2000).2.2.2
      = { cells := [], calls := [CellCall.mallocmany 2000 [4, 5]] } ∧
    ((pbuf_get_real empty_cache_state.heap none empty_cache_state.pbuf_cells_small
        130 2000).2.1 4).next = some 5 ∧
    (pbuf_get aprsc_config (pbuf_get aprsc_config empty_cache_state 40).2 40).1 = none ∧
    (pbuf_get aprsc_config (pbuf_get aprsc_config empty_cache_state 40).2 40).2.pbuf_cells_small.calls
      = [CellCall.mallocmany 2000 [4, 5], CellCall.mallocmany 2000 []] := by
  refine ⟨rfl, rfl, rfl, rfl, rfl, rfl⟩

/-! ## The entry gate -/

/-- C19: the entry gate `incoming_handler`.  For every line with
`len < PACKETLEN_MIN`, or `len + 2 > PACKETLEN_MAX`, or whose first byte is `#`,
the handler returns 0 with the state unchanged, whatever the step budget, so
`incoming_parse` is not run.  For every other line the handler runs
`incoming_parse` once, on the same state, client, bytes and length: it returns
when `incoming_parse` does, with the state `incoming_parse` leaves, and its
return value is 0 whatever `incoming_parse` returned.  In all cases a handler
that returns, returns 0. -/
theorem incoming_handler_gate (cfg : Config) (parse_aprs : worker_t → pbuf_t → Int)
    (now : Int) (fuel : Nat) (st : State) (c : Nat) (s : List Char) :
    ((s.length < cfg.PACKETLEN_MIN ∨ s.length + 2 > cfg.PACKETLEN_MAX ∨ byte_at s 0 = '#') →
      incoming_handler cfg parse_aprs now fuel st c s = .ret (0, st)) ∧
    (¬ (s.length < cfg.PACKETLEN_MIN ∨ s.length + 2 > cfg.PACKETLEN_MAX ∨ byte_at s 0 = '#') →
      incoming_handler cfg parse_aprs now fuel st c s
        = (incoming_parse cfg parse_aprs now fuel st c s).bind (fun r => .ret (0, r.2)) ∧
      ∀ rc st2, incoming_parse cfg parse_aprs now fuel st c s = .ret (rc, st2) →
        incoming_handler cfg parse_aprs now fuel st c s = .ret (0, st2)) ∧
    (∀ rc st2, incoming_handler cfg parse_aprs now fuel st c s = .ret (rc, st2) → rc = 0) := by
  refine ⟨?_, ?_, ?_⟩
  · intro h
    unfold incoming_handler
    rcases h with h | h | h
    · rw [if_pos (Or.inl h)]
    · rw [if_pos (Or.inr h)]
    · by_cases h2 : s.length < cfg.PACKETLEN_MIN ∨ s.length + 2 > cfg.PACKETLEN_MAX
      · rw [if_pos h2]
      · rw [if_neg h2, if_pos h]
  · intro h
    have h1 : ¬ (s.length < cfg.PACKETLEN_MIN ∨ s.length + 2 > cfg.PACKETLEN_MAX) :=
      fun hh => h (hh.elim Or.inl (fun x => Or.inr (Or.inl x)))
    have h2 : ¬ byte_at s 0 = '#' := fun hh => h (Or.inr (Or.inr hh))
    have he : incoming_handler cfg parse_aprs now fuel st c s
        = (incoming_parse cfg parse_aprs now fuel st c s).bind (fun r => .ret (0, r.2)) := by
      unfold incoming_handler
      rw [if_neg h1, if_neg h2]
    refine ⟨he, ?_⟩
    intro rc st2 hp
    rw [he, hp]
    rfl
  · intro rc st2 h
    unfold incoming_handler at h
    split_ifs at h
    · cases h; rfl
    · cases h; rfl
    · obtain ⟨r, _, hr⟩ := Run.bind_eq_ret.mp h
      cases hr; rfl

set_option maxRecDepth 100000 in
/-- The comment line `# aprsc 1.0` is dropped and leaves the sample state as it
is; the line `OH2ABC>APRS,WIDE2-1:>Hello` goes to `incoming_parse`. -/
theorem incoming_handler_gate_witness :
    (byte_at "# aprsc 1.0".toList 0 = '#' ∧
      incoming_handler aprsc_config sample_parse_aprs 0 100 sample_state 5 "# aprsc 1.0".toList
        = .ret (0, sample_state)) ∧
    (incoming_parse aprsc_config sample_parse_aprs 0 100 sample_state 5 plain_line
        = .ret (0, one_pending_state) ∧
      incoming_handler aprsc_config sample_parse_aprs 0 100 sample_state 5 plain_line
        = .ret (0, one_pending_state)) :=
  ⟨⟨by decide,
    (incoming_handler_gate aprsc_config sample_parse_aprs 0 100 sample_state 5
      "# aprsc 1.0".toList).1 (Or.inr (Or.inr (by decide)))⟩,
   ⟨rfl,
    ((incoming_handler_gate aprsc_config sample_parse_aprs 0 100 sample_state 5
      plain_line).2.1 (by decide)).2 0 one_pending_state rfl⟩⟩

/-! ## Freeing buffers -/

/-- What `pbuf_free` does with a worker: the buffer is pushed at the head of the
free list of its tier by a store into its `next` field; nothing else changes. -/
theorem pbuf_free_self (cfg : Config) (p : Addr) (st : State) (t : Fin 3)
    (ht : tier_of cfg (st.heap p).buf_len = some t) :
    free_list (pbuf_free cfg true p st).self t = some p ∧
    (pbuf_free cfg true p st).heap = st.heap.put p { st.heap p with next := free_list st.self t } ∧
    (∀ t2 : Fin 3, t2 ≠ t → free_list (pbuf_free cfg true p st).self t2 = free_list st.self t2) ∧
    (pbuf_free cfg true p st).self.pbuf_incoming_local = st.self.pbuf_incoming_local ∧
    (pbuf_free cfg true p st).self.pbuf_incoming_local_last = st.self.pbuf_incoming_local_last ∧
    (pbuf_free cfg true p st).self.pbuf_incoming = st.self.pbuf_incoming ∧
    (pbuf_free cfg true p st).self.pbuf_incoming_last = st.self.pbuf_incoming_last ∧
    (∀ t2 : Fin 3, arena_of (pbuf_free cfg true p st) t2 = arena_of st t2) := by
  unfold pbuf_free
  rw [ht]
  fin_cases t
  · refine ⟨rfl, rfl, ?_, rfl, rfl, rfl, rfl, ?_⟩
    · intro t2 h2; fin_cases t2
      · exact absurd rfl h2
      · rfl
      · rfl
    · intro t2; fin_cases t2 <;> rfl
  · refine ⟨rfl, rfl, ?_, rfl, rfl, rfl, rfl, ?_⟩
    · intro t2 h2; fin_cases t2
      · rfl
      · exact absurd rfl h2
      · rfl
    · intro t2; fin_cases t2 <;> rfl
  · refine ⟨rfl, rfl, ?_, rfl, rfl, rfl, rfl, ?_⟩
    · intro t2 h2; fin_cases t2
      · rfl
      · rfl
      · exact absurd rfl h2
    · intro t2; fin_cases t2 <;> rfl

/-- What `pbuf_free` does without a worker: one `cellfree` on the arena of the
tier of the buffer; nothing else changes. -/
theorem pbuf_free_global (cfg : Config) (p : Addr) (st : State) (t : Fin 3)
    (ht : tier_of cfg (st.heap p).buf_len = some t) :
    arena_of (pbuf_free cfg false p st) t = cellfree (arena_of st t) p ∧
    (∀ t2 : Fin 3, t2 ≠ t → arena_of (pbuf_free cfg false p st) t2 = arena_of st t2) ∧
    (pbuf_free cfg false p st).self = st.self ∧
    (pbuf_free cfg false p st).heap = st.heap := by
  unfold pbuf_free
  rw [ht]
  fin_cases t
  · refine ⟨rfl, ?_, rfl, rfl⟩
    intro t2 h2; fin_cases t2
    · exact absurd rfl h2
    · rfl
    · rfl
  · refine ⟨rfl, ?_, rfl, rfl⟩
    intro t2 h2; fin_cases t2
    · rfl
    · exact absurd rfl h2
    · rfl
  · refine ⟨rfl, ?_, rfl, rfl⟩
    intro t2 h2; fin_cases t2
    · rfl
    · rfl
    · exact absurd rfl h2

/-- A buffer whose `buf_len` names no tier is dropped by `pbuf_free`. -/
theorem pbuf_free_unknown (cfg : Config) (has_self : Bool) (p : Addr) (st : State)
    (ht : tier_of cfg (st.heap p).buf_len = none) : pbuf_free cfg has_self p st = st := by
  unfold pbuf_free
  rw [ht]
  cases has_self <;> rfl

/-- A chain that does not hold `p` is untouched by a store into `p->next`. -/
theorem is_list_put_next (h : Heap) (p : Addr) (v : Option Addr) (q : Option Addr)
    (l : List Addr) (hl : is_list h q l) (hp : p ∉ l) :
    is_list (h.put p { h p with next := v }) q l := by
  refine is_list_congr h _ l q (fun a ha => ?_) hl
  have hap : a ≠ p := fun e => hp (e ▸ ha)
  rw [Heap.put_other _ _ _ _ hap]

/-- C17: `pbuf_free` routes by context, for a buffer `p` whose `buf_len` is one of
the three tier sizes (`tier_of` gives its tier `t`).  Called with a worker, it
pushes `p` at the head of the worker's free list of tier `t`: the head is `p`,
`p->next` is the old head, and a list `l` without `p` becomes `p :: l`; the other
two free lists keep their heads and their cells, the pending queue and the inbox
keep their heads, tail pointers and cells, and the three arenas are as before,
so no arena call is made.  Called without a worker, it makes exactly one
`cellfree` call, on the arena of tier `t` (the record of the calls of that arena
grows by `cellfree(p)`, the other two arenas are as before), and the worker and
the heap are unchanged. -/
theorem pbuf_free_routes_by_context (cfg : Config) (p : Addr) (st : State) (t : Fin 3)
    (ht : tier_of cfg (st.heap p).buf_len = some t) :
    (free_list (pbuf_free cfg true p st).self t = some p ∧
     ((pbuf_free cfg true p st).heap p).next = free_list st.self t ∧
     (∀ l, is_list st.heap (free_list st.self t) l → p ∉ l →
        is_list (pbuf_free cfg true p st).heap (free_list (pbuf_free cfg true p st).self t)
          (p :: l)) ∧
     (∀ t2 : Fin 3, t2 ≠ t →
        free_list (pbuf_free cfg true p st).self t2 = free_list st.self t2 ∧
        ∀ l, is_list st.heap (free_list st.self t2) l → p ∉ l →
          is_list (pbuf_free cfg true p st).heap (free_list st.self t2) l) ∧
     (∀ q, pending_queue st q → p ∉ q → pending_queue (pbuf_free cfg true p st) q) ∧
     (∀ q, inbox st q → p ∉ q → inbox (pbuf_free cfg true p st) q) ∧
     (pbuf_free cfg true p st).self.pbuf_incoming_last = st.self.pbuf_incoming_last ∧
     (∀ t2 : Fin 3, arena_of (pbuf_free cfg true p st) t2 = arena_of st t2)) ∧
    ((arena_of (pbuf_free cfg false p st) t).calls
        = (arena_of st t).calls ++ [CellCall.free p] ∧
     (arena_of (pbuf_free cfg false p st) t).cells = (arena_of st t).cells ++ [p] ∧
     (∀ t2 : Fin 3, t2 ≠ t → arena_of (pbuf_free cfg false p st) t2 = arena_of st t2) ∧
     (pbuf_free cfg false p st).self = st.self ∧
     (pbuf_free cfg false p st).heap = st.heap) := by
  obtain ⟨a1, a2, a3, a4, a5, a6, a7, a8⟩ := pbuf_free_self cfg p st t ht
  obtain ⟨b1, b2, b3, b4⟩ := pbuf_free_global cfg p st t ht
  refine ⟨⟨a1, ?_, ?_, ?_, ?_, ?_, a7, a8⟩, ?_, ?_, b2, b3, b4⟩
  · rw [a2]; simp
  · intro l hl hp
    rw [a1, a2]
    simp only [is_list, Heap.put_same, true_and]
    exact is_list_put_next st.heap p _ _ l hl hp
  · intro t2 h2
    refine ⟨a3 t2 h2, ?_⟩
    intro l hl hp
    rw [a2]
    exact is_list_put_next st.heap p _ _ l hl hp
  · intro q hq hp
    refine ⟨?_, ?_⟩
    · rw [a2, a4]
      exact is_list_put_next st.heap p _ _ q hq.1 hp
    · rw [a5]; exact hq.2
  · intro q hq hp
    unfold inbox
    rw [a2, a6]
    exact is_list_put_next st.heap p _ _ q hq hp
  · rw [b1]; rfl
  · rw [b1]; rfl

set_option maxRecDepth 100000 in
/-- The used small buffer in cell 7 of `used_cell_state`, freed with and without
the worker; the small free list of that state holds the cells 1, 2, 3. -/
theorem pbuf_free_routes_by_context_witness :
    (tier_of aprsc_config (used_cell_state.heap 7).buf_len = some 0 ∧
     is_list used_cell_state.heap (free_list used_cell_state.self 0) [1, 2, 3]) ∧
    is_list (pbuf_free aprsc_config true 7 used_cell_state).heap
      (free_list (pbuf_free aprsc_config true 7 used_cell_state).self 0) (7 :: [1, 2, 3]) ∧
    (arena_of (pbuf_free aprsc_config false 7 used_cell_state) 0).calls
      = (arena_of used_cell_state 0).calls ++ [CellCall.free 7] :=
  ⟨⟨by decide, by decide⟩,
   (pbuf_free_routes_by_context aprsc_config 7 used_cell_state 0 (by decide)).1.2.2.1
     [1, 2, 3] (by decide) (by decide),
   (pbuf_free_routes_by_context aprsc_config 7 used_cell_state 0 (by decide)).2.1⟩

/-! ## Freeing many buffers -/

/-- The loop of `pbuf_free_many` appends to each array the cells of its tier, in
the order of the input. -/
theorem sort_cells_eq (cfg : Config) (h : Heap) : ∀ (l a b c : List Addr),
    sort_cells cfg h l (a, b, c)
      = (a ++ cells_of_tier cfg h l 0, b ++ cells_of_tier cfg h l 1,
         c ++ cells_of_tier cfg h l 2) := by
  intro l
  induction l with
  | nil => intro a b c; simp [sort_cells, cells_of_tier]
  | cons p l ih =>
    intro a b c
    unfold sort_cells
    cases ht : tier_of cfg (h p).buf_len with
    | none => simp [ih, cells_of_tier, ht]
    | some t =>
      fin_cases t
      · simp only [Fin.zero_eta]
        rw [ih]
        simp [cells_of_tier, ht]
      · simp only [Fin.mk_one]
        rw [ih]
        simp [cells_of_tier, ht]
      · simp only [Fin.reduceFinMk]
        rw [ih]
        simp [cells_of_tier, ht]

/-- The three arrays together are the cells of a known tier, up to order. -/
theorem cells_of_tier_perm (cfg : Config) (h : Heap) : ∀ l : List Addr,
    (cells_of_tier cfg h l 0 ++ cells_of_tier cfg h l 1 ++ cells_of_tier cfg h l 2).Perm
      (cells_of_known_tier cfg h l) := by
  intro l
  induction l with
  | nil => simp [cells_of_tier, cells_of_known_tier]
  | cons p l ih =>
    unfold cells_of_tier cells_of_known_tier at ih ⊢
    cases ht : tier_of cfg (h p).buf_len with
    | none => simpa [ht] using ih
    | some t =>
      fin_cases t
      · simpa [ht] using ih
      · simp only [ht, List.filter_cons]
        simp only [Fin.mk_one, Fin.isValue, Option.some.injEq, Fin.reduceEq, decide_False,
          decide_True, ne_eq, not_false_eq_true, reduceCtorEq, ite_true, Bool.false_eq_true,
          ↓reduceIte, one_ne_zero]
        refine List.Perm.trans ?_ (List.Perm.cons p ih)
        simp only [List.append_assoc]
        exact List.perm_middle
      · simp only [ht, List.filter_cons]
        simp only [Fin.reduceFinMk, Fin.isValue, Option.some.injEq, Fin.reduceEq, decide_False,
          decide_True, ne_eq, not_false_eq_true, reduceCtorEq, ite_true, Bool.false_eq_true,
          ↓reduceIte]
        refine List.Perm.trans ?_ (List.Perm.cons p ih)
        exact List.perm_middle

/-- The state `pbuf_free_many` leaves: each arena whose array is not empty got
one `cellfreemany` with that array. -/
theorem pbuf_free_many_eq (cfg : Config) (array : List Addr) (st : State) :
    pbuf_free_many cfg array st =
      { st with
        pbuf_cells_small :=
          if 0 < (cells_of_tier cfg st.heap array 0).length then
            cellfreemany st.pbuf_cells_small (cells_of_tier cfg st.heap array 0)
          else st.pbuf_cells_small,
        pbuf_cells_large :=
          if 0 < (cells_of_tier cfg st.heap array 1).length then
            cellfreemany st.pbuf_cells_large (cells_of_tier cfg st.heap array 1)
          else st.pbuf_cells_large,
        pbuf_cells_huge :=
          if 0 < (cells_of_tier cfg st.heap array 2).length then
            cellfreemany st.pbuf_cells_huge (cells_of_tier cfg st.heap array 2)
          else st.pbuf_cells_huge } := by
  unfold pbuf_free_many
  rw [sort_cells_eq]
  simp only [List.nil_append]
  split_ifs <;> rfl

/-- C18: `pbuf_free_many` partitions by tier.  For every array of buffers and
every tier `t`: when the array holds a buffer of tier `t`, the arena of tier `t`
receives exactly one call, a `cellfreemany` with the buffers of tier `t` of the
array in the order of the array; when it holds none, that arena receives no call
(it is as before).  So at most three calls are made.  The arrays passed are
together, up to order, the buffers of the array with a recognized tier; a buffer
whose `buf_len` matches none of the three tier sizes is in none of the arrays
passed; and the worker and the heap are unchanged. -/
theorem pbuf_free_many_partitions (cfg : Config) (array : List Addr) (st : State) :
    (∀ t : Fin 3,
      (cells_of_tier cfg st.heap array t ≠ [] →
        (arena_of (pbuf_free_many cfg array st) t).calls
          = (arena_of st t).calls ++ [CellCall.freemany (cells_of_tier cfg st.heap array t)] ∧
        (arena_of (pbuf_free_many cfg array st) t).cells
          = (arena_of st t).cells ++ cells_of_tier cfg st.heap array t) ∧
      (cells_of_tier cfg st.heap array t = [] →
        arena_of (pbuf_free_many cfg array st) t = arena_of st t)) ∧
    ((arena_of (pbuf_free_many cfg array st) 0).calls.length
      + (arena_of (pbuf_free_many cfg array st) 1).calls.length
      + (arena_of (pbuf_free_many cfg array st) 2).calls.length
      ≤ (arena_of st 0).calls.length + (arena_of st 1).calls.length
        + (arena_of st 2).calls.length + 3) ∧
    (cells_of_tier cfg st.heap array 0 ++ cells_of_tier cfg st.heap array 1
        ++ cells_of_tier cfg st.heap array 2).Perm (cells_of_known_tier cfg st.heap array) ∧
    (∀ p ∈ array, tier_of cfg (st.heap p).buf_len = none →
      ∀ t : Fin 3, p ∉ cells_of_tier cfg st.heap array t) ∧
    (pbuf_free_many cfg array st).self = st.self ∧
    (pbuf_free_many cfg array st).heap = st.heap := by
  have key : ∀ t : Fin 3, arena_of (pbuf_free_many cfg array st) t
      = if 0 < (cells_of_tier cfg st.heap array t).length then
          cellfreemany (arena_of st t) (cells_of_tier cfg st.heap array t)
        else arena_of st t := by
    intro t
    rw [pbuf_free_many_eq]
    fin_cases t <;> rfl
  refine ⟨?_, ?_, cells_of_tier_perm cfg st.heap array, ?_, ?_, ?_⟩
  · intro t
    refine ⟨fun hne => ?_, fun he => ?_⟩
    · rw [key t, if_pos (List.length_pos.mpr hne)]
      exact ⟨rfl, rfl⟩
    · rw [key t, he]
      rfl
  · rw [key 0, key 1, key 2]
    split_ifs <;> simp [cellfreemany] <;> omega
  · intro p _ hp t hm
    unfold cells_of_tier at hm
    rw [List.mem_filter] at hm
    simp [hp] at hm
  · rw [pbuf_free_many_eq]
  · rw [pbuf_free_many_eq]

set_option maxRecDepth 100000 in
/-- The array of the cells 31, 32, 34, 33, 35 of `mixed_state`: two small
buffers, a large one, a huge one and one of no tier; and the array of the cells
31 and 34, which has no large and no huge buffer. -/
theorem pbuf_free_many_partitions_witness :
    (cells_of_tier aprsc_config mixed_state.heap [31, 32, 34, 33, 35] 0 = [31, 35] ∧
     (arena_of (pbuf_free_many aprsc_config [31, 32, 34, 33, 35] mixed_state) 0).calls
        = (arena_of mixed_state 0).calls ++ [CellCall.freemany [31, 35]]) ∧
    (cells_of_tier aprsc_config mixed_state.heap [31, 34] 1 = [] ∧
     arena_of (pbuf_free_many aprsc_config [31, 34] mixed_state) 1 = arena_of mixed_state 1) :=
  ⟨⟨by decide,
    ((pbuf_free_many_partitions aprsc_config [31, 32, 34, 33, 35] mixed_state).1 0).1
      (by decide) |>.1⟩,
   ⟨by decide,
    ((pbuf_free_many_partitions aprsc_config [31, 34] mixed_state).1 1).2 (by decide)⟩⟩

/-! ## Tier selection -/

/-- With the tier sizes in order, `pbuf_get` runs `pbuf_get_real` on the free
list and the arena of the smallest tier that fits, and touches nothing else. -/
theorem pbuf_get_of_smallest_fit (cfg : Config)
    (hsl : cfg.PACKETLEN_MAX_SMALL < cfg.PACKETLEN_MAX_LARGE)
    (hlh : cfg.PACKETLEN_MAX_LARGE < cfg.PACKETLEN_MAX_HUGE)
    (st : State) (len : Int) (t : Fin 3) (hfit : smallest_fit cfg len t) :
    (pbuf_get cfg st len).1
      = (pbuf_get_real st.heap (free_list st.self t) (arena_of st t) (tier_size cfg t)
          (bunch_size cfg t)).1 ∧
    (pbuf_get cfg st len).2.heap
      = (pbuf_get_real st.heap (free_list st.self t) (arena_of st t) (tier_size cfg t)
          (bunch_size cfg t)).2.1 ∧
    free_list (pbuf_get cfg st len).2.self t
      = (pbuf_get_real st.heap (free_list st.self t) (arena_of st t) (tier_size cfg t)
          (bunch_size cfg t)).2.2.1 ∧
    arena_of (pbuf_get cfg st len).2 t
      = (pbuf_get_real st.heap (free_list st.self t) (arena_of st t) (tier_size cfg t)
          (bunch_size cfg t)).2.2.2 ∧
    (∀ t2 : Fin 3, t2 ≠ t →
      free_list (pbuf_get cfg st len).2.self t2 = free_list st.self t2 ∧
      arena_of (pbuf_get cfg st len).2 t2 = arena_of st t2) ∧
    (pbuf_get cfg st len).2.self.pbuf_incoming_local = st.self.pbuf_incoming_local ∧
    (pbuf_get cfg st len).2.self.pbuf_incoming_local_last = st.self.pbuf_incoming_local_last ∧
    (pbuf_get cfg st len).2.self.pbuf_incoming = st.self.pbuf_incoming ∧
    (pbuf_get cfg st len).2.self.pbuf_incoming_last = st.self.pbuf_incoming_last := by
  obtain ⟨h1, h2⟩ := hfit
  fin_cases t
  · have c1 : len ≤ (cfg.PACKETLEN_MAX_SMALL : Int) := h1
    unfold pbuf_get
    rw [if_pos c1]
    refine ⟨rfl, rfl, rfl, rfl, ?_, rfl, rfl, rfl, rfl⟩
    intro t2 ht2
    fin_cases t2
    · exact absurd rfl ht2
    · exact ⟨rfl, rfl⟩
    · exact ⟨rfl, rfl⟩
  · have c2 : len ≤ (cfg.PACKETLEN_MAX_LARGE : Int) := h1
    have c1 : ¬ len ≤ (cfg.PACKETLEN_MAX_SMALL : Int) := by
      intro hc
      have := h2 0 hc
      simp only [tier_size] at this
      omega
    unfold pbuf_get
    rw [if_neg c1, if_pos c2]
    refine ⟨rfl, rfl, rfl, rfl, ?_, rfl, rfl, rfl, rfl⟩
    intro t2 ht2
    fin_cases t2
    · exact ⟨rfl, rfl⟩
    · exact absurd rfl ht2
    · exact ⟨rfl, rfl⟩
  · have c3 : len ≤ (cfg.PACKETLEN_MAX_HUGE : Int) := h1
    have c1 : ¬ len ≤ (cfg.PACKETLEN_MAX_SMALL : Int) := by
      intro hc
      have := h2 0 hc
      simp only [tier_size] at this
      omega
    have c2 : ¬ len ≤ (cfg.PACKETLEN_MAX_LARGE : Int) := by
      intro hc
      have := h2 1 hc
      simp only [tier_size] at this
      omega
    unfold pbuf_get
    rw [if_neg c1, if_neg c2, if_pos c3]
    refine ⟨rfl, rfl, rfl, rfl, ?_, rfl, rfl, rfl, rfl⟩
    intro t2 ht2
    fin_cases t2
    · exact ⟨rfl, rfl⟩
    · exact ⟨rfl, rfl⟩
    · exact absurd rfl ht2

/-- A request above the huge tier gets `NULL` and touches nothing. -/
theorem pbuf_get_too_large (cfg : Config)
    (hsl : cfg.PACKETLEN_MAX_SMALL < cfg.PACKETLEN_MAX_LARGE)
    (hlh : cfg.PACKETLEN_MAX_LARGE < cfg.PACKETLEN_MAX_HUGE)
    (st : State) (len : Int) (h : (cfg.PACKETLEN_MAX_HUGE : Int) < len) :
    pbuf_get cfg st len = (none, st) := by
  unfold pbuf_get
  rw [if_neg (by omega), if_neg (by omega), if_neg (by omega)]

/-- The buffer `pbuf_get_real` returns carries `len` in `buf_len` when the head
of the local list does. -/
theorem pbuf_get_real_buf_len (h : Heap) (pool : Option Addr) (gp : cellarena_t) (len : Int)
    (n : Nat) (pb : Addr) (hpb : (pbuf_get_real h pool gp len n).1 = some pb)
    (hhead : ∀ a, pool = some a → (h a).buf_len = len) :
    ((pbuf_get_real h pool gp len n).2.1 pb).buf_len = len := by
  obtain ⟨_, _, k3⟩ := pbuf_get_real_spec h pool gp len n
  rcases k3 pb hpb with ⟨hp, hh⟩ | ⟨_, _, hb⟩
  · rw [hh]; exact hhead pb hp
  · exact hb

/-- With the tier sizes in order, every length up to the huge size has a
smallest tier that fits. -/
theorem smallest_fit_exists (cfg : Config)
    (hsl : cfg.PACKETLEN_MAX_SMALL < cfg.PACKETLEN_MAX_LARGE)
    (hlh : cfg.PACKETLEN_MAX_LARGE < cfg.PACKETLEN_MAX_HUGE)
    (len : Int) (h : len ≤ (cfg.PACKETLEN_MAX_HUGE : Int)) : ∃ t, smallest_fit cfg len t := by
  by_cases c1 : len ≤ (cfg.PACKETLEN_MAX_SMALL : Int)
  · refine ⟨0, c1, ?_⟩
    intro t2 _
    fin_cases t2 <;> simp only [tier_size] <;> omega
  · by_cases c2 : len ≤ (cfg.PACKETLEN_MAX_LARGE : Int)
    · refine ⟨1, c2, ?_⟩
      intro t2 h2
      fin_cases t2
      · exact absurd h2 c1
      · exact le_refl _
      · simp only [tier_size]; omega
    · refine ⟨2, h, ?_⟩
      intro t2 h2
      fin_cases t2
      · exact absurd h2 c1
      · exact absurd h2 c2
      · exact le_refl _

/-- C14: tier selection, for tier sizes `PACKETLEN_MAX_SMALL <
PACKETLEN_MAX_LARGE < PACKETLEN_MAX_HUGE`.  For every requested length `len` up
to the huge size there is a smallest tier `t` whose size is at least `len`, and
`pbuf_get` serves the request from it: the buffer, the heap, the free list of
tier `t` and the arena of tier `t` are those `pbuf_get_real` leaves when run on
that list and that arena; the free lists and arenas of the other two tiers, the
pending queue and the inbox are untouched; and a returned buffer has `buf_len`
equal to the size of tier `t`, given that the head of the free list of tier `t`
does.  When `len` is above the huge size, `pbuf_get` returns `NULL` and the
state is unchanged.  And `incoming_parse` asks for `len + 14` for a line of
length `len`: a line that reaches `pbuf_get` is rejected with the state
`pbuf_get(self, len + 14)` leaves when that call returns `NULL`, and otherwise
the buffer `pbuf_get(self, len + 14)` returns is the one filled and queued. -/
theorem pbuf_get_selects_smallest_tier (cfg : Config)
    (hsl : cfg.PACKETLEN_MAX_SMALL < cfg.PACKETLEN_MAX_LARGE)
    (hlh : cfg.PACKETLEN_MAX_LARGE < cfg.PACKETLEN_MAX_HUGE)
    (parse_aprs : worker_t → pbuf_t → Int) (now : Int) (fuel : Nat) (st : State) (c : Nat)
    (len : Int) (s : List Char) :
    (len ≤ (cfg.PACKETLEN_MAX_HUGE : Int) → ∃ t, smallest_fit cfg len t) ∧
    (∀ t : Fin 3, smallest_fit cfg len t →
      (pbuf_get cfg st len).1
        = (pbuf_get_real st.heap (free_list st.self t) (arena_of st t) (tier_size cfg t)
            (bunch_size cfg t)).1 ∧
      (pbuf_get cfg st len).2.heap
        = (pbuf_get_real st.heap (free_list st.self t) (arena_of st t) (tier_size cfg t)
            (bunch_size cfg t)).2.1 ∧
      free_list (pbuf_get cfg st len).2.self t
        = (pbuf_get_real st.heap (free_list st.self t) (arena_of st t) (tier_size cfg t)
            (bunch_size cfg t)).2.2.1 ∧
      arena_of (pbuf_get cfg st len).2 t
        = (pbuf_get_real st.heap (free_list st.self t) (arena_of st t) (tier_size cfg t)
            (bunch_size cfg t)).2.2.2 ∧
      (∀ t2 : Fin 3, t2 ≠ t →
        free_list (pbuf_get cfg st len).2.self t2 = free_list st.self t2 ∧
        arena_of (pbuf_get cfg st len).2 t2 = arena_of st t2) ∧
      (pbuf_get cfg st len).2.self.pbuf_incoming_local = st.self.pbuf_incoming_local ∧
      (pbuf_get cfg st len).2.self.pbuf_incoming_local_last
        = st.self.pbuf_incoming_local_last ∧
      (pbuf_get cfg st len).2.self.pbuf_incoming = st.self.pbuf_incoming ∧
      (pbuf_get cfg st len).2.self.pbuf_incoming_last = st.self.pbuf_incoming_last ∧
      (∀ pb, (pbuf_get cfg st len).1 = some pb →
        (∀ a, free_list st.self t = some a → (st.heap a).buf_len = tier_size cfg t) →
        ((pbuf_get cfg st len).2.heap pb).buf_len = tier_size cfg t)) ∧
    ((cfg.PACKETLEN_MAX_HUGE : Int) < len → pbuf_get cfg st len = (none, st)) ∧
    (∀ f, locate_fields cfg fuel s = .ret (some f) →
      ((pbuf_get cfg st (s.length + 14 : Nat)).1 = none →
        incoming_parse cfg parse_aprs now fuel st c s
          = .ret (-1, (pbuf_get cfg st (s.length + 14 : Nat)).2)) ∧
      (∀ pb, (pbuf_get cfg st (s.length + 14 : Nat)).1 = some pb →
        s.length + 4 ≤ ((pbuf_get cfg st (s.length + 14 : Nat)).2.heap pb).data.length →
        ∃ b, incoming_parse cfg parse_aprs now fuel st c s
          = .ret (parse_aprs (pbuf_get cfg st (s.length + 14 : Nat)).2.self b,
                  enqueue_local (pbuf_get cfg st (s.length + 14 : Nat)).2 pb b))) := by
  refine ⟨smallest_fit_exists cfg hsl hlh len, ?_, pbuf_get_too_large cfg hsl hlh st len, ?_⟩
  · intro t hfit
    obtain ⟨e1, e2, e3, e4, e5, e6, e7, e8, e9⟩ := pbuf_get_of_smallest_fit cfg hsl hlh st len t hfit
    refine ⟨e1, e2, e3, e4, e5, e6, e7, e8, e9, ?_⟩
    intro pb hpb hhead
    rw [e2]
    rw [e1] at hpb
    exact pbuf_get_real_buf_len _ _ _ _ _ pb hpb hhead
  · intro f hf
    refine ⟨?_, ?_⟩
    · intro hnone
      unfold incoming_parse
      rw [hf, Run.bind_ret]
      have : pbuf_get cfg st (s.length + 14 : Nat)
          = (none, (pbuf_get cfg st (s.length + 14 : Nat)).2) := by
        rw [← hnone]
      simp only
      rw [this]
    · intro pb hpb hcap
      have hg : pbuf_get cfg st (s.length + 14 : Nat)
          = (some pb, (pbuf_get cfg st (s.length + 14 : Nat)).2) := by
        rw [← hpb]
      obtain ⟨b, _, hret, _⟩ := incoming_parse_accept cfg parse_aprs now fuel st _ c s f pb
        hf hg hcap
      exact ⟨b, hret⟩

set_option maxRecDepth 100000 in
/-- The sizes 130 < 300 < 600 of aprsc; a request for 200 bytes in the sample
state is served from the large tier, whose free list is empty and whose arena
holds the cells 11 and 12. -/
theorem pbuf_get_selects_smallest_tier_witness :
    (aprsc_config.PACKETLEN_MAX_SMALL < aprsc_config.PACKETLEN_MAX_LARGE ∧
     aprsc_config.PACKETLEN_MAX_LARGE < aprsc_config.PACKETLEN_MAX_HUGE ∧
     smallest_fit aprsc_config 200 1) ∧
    (pbuf_get aprsc_config sample_state 200).1
      = (pbuf_get_real sample_state.heap (free_list sample_state.self 1)
          (arena_of sample_state 1) (tier_size aprsc_config 1) (bunch_size aprsc_config 1)).1 ∧
    (pbuf_get aprsc_config sample_state 200).1 = some 12 ∧
    pbuf_get aprsc_config sample_state 601 = (none, sample_state) :=
  have hfit : smallest_fit aprsc_config 200 1 := by
    refine ⟨by decide, ?_⟩
    intro t2 h2
    fin_cases t2
    · exact absurd h2 (by decide)
    · exact le_refl _
    · decide
  ⟨⟨by decide, by decide, hfit⟩,
   ((pbuf_get_selects_smallest_tier aprsc_config (by decide) (by decide) sample_parse_aprs 0 100
      sample_state 5 200 plain_line).2.1 1 hfit).1,
   rfl,
   (pbuf_get_selects_smallest_tier aprsc_config (by decide) (by decide) sample_parse_aprs 0 100
      sample_state 5 601 plain_line).2.2.1 (by decide)⟩

/-! ## Lemmas on `on_list` -/

theorem on_list_none (h : Heap) (a : Addr) : ¬ on_list h none a := by
  intro hh
  cases hh

/-- A cell on a chain with cells `l` is one of `l`. -/
theorem mem_of_on_list (h : Heap) : ∀ (l : List Addr) (p : Option Addr) (a : Addr),
    is_list h p l → on_list h p a → a ∈ l := by
  intro l
  induction l with
  | nil =>
    intro p a hl ho
    simp only [is_list] at hl
    subst hl
    exact absurd ho (on_list_none h a)
  | cons x l ih =>
    intro p a hl ho
    simp only [is_list] at hl
    obtain ⟨hp, hl⟩ := hl
    subst hp
    cases ho with
    | head => exact List.mem_cons_self _ _
    | tail _ _ ht => exact List.mem_cons_of_mem _ (ih _ a hl ht)

/-- The cells on a list are on it in the old heap when the `next` fields of the
cells the old list holds are unchanged. -/
theorem on_list_congr (h h2 : Heap) (q : Option Addr) (a : Addr)
    (ho : on_list h2 q a) : (∀ x, on_list h q x → (h2 x).next = (h x).next) → on_list h q a := by
  induction ho with
  | head a => intro _; exact on_list.head a
  | tail x b _ ih =>
    intro hn
    have hx : (h2 x).next = (h x).next := hn x (on_list.head x)
    have hb : on_list h (h2 x).next b := by
      apply ih
      intro y hy
      rw [hx] at hy
      exact hn y (on_list.tail x y hy)
    rw [hx] at hb
    exact on_list.tail x b hb

/-- After the `next` field of the one cell `p` has been set to `v`, a cell on a
list was on it before, or `p` was on it and the cell was on the list that starts
at `v`. -/
theorem on_list_put (h h2 : Heap) (p : Addr) (v : Option Addr)
    (hne : ∀ x, x ≠ p → (h2 x).next = (h x).next) (hp : (h2 p).next = v)
    (q : Option Addr) (a : Addr) (ho : on_list h2 q a) :
    on_list h q a ∨ (on_list h q p ∧ on_list h v a) := by
  induction ho with
  | head a => exact Or.inl (on_list.head a)
  | tail x b _ ih =>
    by_cases hx : x = p
    · subst hx
      rw [hp] at ih
      rcases ih with i | ⟨_, i⟩
      · exact Or.inr ⟨on_list.head x, i⟩
      · exact Or.inr ⟨on_list.head x, i⟩
    · rw [hne x hx] at ih
      rcases ih with i | ⟨i1, i2⟩
      · exact Or.inl (on_list.tail x b i)
      · exact Or.inr ⟨on_list.tail x p i1, i2⟩

theorem tier_of_some {cfg : Config} {x : Int} {t : Fin 3} (h : tier_of cfg x = some t) :
    x = tier_size cfg t := by
  unfold tier_of at h
  split_ifs at h with h1 h2 h3
  · cases h; exact h1
  · cases h; exact h2
  · cases h; exact h3

/-! ## The free-list tier invariant -/

/-- The tier invariant survives `pbuf_free`, with or without a worker, for any
buffer. -/
theorem pbuf_free_tiered (cfg : Config) (has_self : Bool) (p : Addr) (st : State)
    (hinv : free_lists_tiered cfg st) : free_lists_tiered cfg (pbuf_free cfg has_self p st) := by
  cases ht : tier_of cfg (st.heap p).buf_len with
  | none => rw [pbuf_free_unknown cfg has_self p st ht]; exact hinv
  | some t =>
    cases has_self with
    | false =>
      obtain ⟨_, _, b3, b4⟩ := pbuf_free_global cfg p st t ht
      intro t2 a ha
      rw [b3, b4] at ha
      rw [b4]
      exact hinv t2 a ha
    | true =>
      obtain ⟨a1, a2, a3, _⟩ := pbuf_free_self cfg p st t ht
      have hbl : ∀ a, ((pbuf_free cfg true p st).heap a).buf_len = (st.heap a).buf_len := by
        intro a
        rw [a2]
        by_cases hap : a = p
        · subst hap; simp
        · rw [Heap.put_other _ _ _ _ hap]
      have hne : ∀ x, x ≠ p →
          ((pbuf_free cfg true p st).heap x).next = (st.heap x).next := by
        intro x hx
        rw [a2, Heap.put_other _ _ _ _ hx]
      have hp : ((pbuf_free cfg true p st).heap p).next = free_list st.self t := by
        rw [a2]; simp
      have hpl : (st.heap p).buf_len = tier_size cfg t := tier_of_some ht
      intro t2 a ha
      rw [hbl]
      by_cases h2 : t2 = t
      · subst h2
        rw [a1] at ha
        cases ha with
        | head => exact hpl
        | tail _ _ hta =>
          rw [hp] at hta
          rcases on_list_put st.heap _ p _ hne hp _ a hta with i | ⟨_, i⟩
          · exact hinv t2 a i
          · exact hinv t2 a i
      · rw [a3 t2 h2] at ha
        rcases on_list_put st.heap _ p _ hne hp _ a ha with i | ⟨i1, i2⟩
        · exact hinv t2 a i
        · have e1 := hinv t2 p i1
          have e2 := hinv t a i2
          rw [e2, ← hpl, e1]

/-- The refill path of `pbuf_get_real` leaves the local list empty. -/
theorem pbuf_get_real_refill_pool (h : Heap) (gp : cellarena_t) (len : Int) (n : Nat) :
    (pbuf_get_real h none gp len n).2.2.1 = none := by
  simp only [pbuf_get_real]
  cases (link_cells (cellmallocmany gp n).1 0 h none).2 with
  | none => rfl
  | some pb => simp

/-- The call `pbuf_get` returns `NULL` and touches nothing, or runs
`pbuf_get_real` on the free list and the arena of a tier of at least the size
asked for, and leaves the other free lists alone. -/
theorem pbuf_get_cases (cfg : Config) (st : State) (len : Int) :
    pbuf_get cfg st len = (none, st) ∨
    ∃ t : Fin 3, len ≤ (tier_size cfg t : Int) ∧
      (pbuf_get cfg st len).1
        = (pbuf_get_real st.heap (free_list st.self t) (arena_of st t) (tier_size cfg t)
            (bunch_size cfg t)).1 ∧
      (pbuf_get cfg st len).2.heap
        = (pbuf_get_real st.heap (free_list st.self t) (arena_of st t) (tier_size cfg t)
            (bunch_size cfg t)).2.1 ∧
      free_list (pbuf_get cfg st len).2.self t
        = (pbuf_get_real st.heap (free_list st.self t) (arena_of st t) (tier_size cfg t)
            (bunch_size cfg t)).2.2.1 ∧
      (∀ t2 : Fin 3, t2 ≠ t →
        free_list (pbuf_get cfg st len).2.self t2 = free_list st.self t2) := by
  unfold pbuf_get
  split_ifs with c1 c2 c3
  · refine Or.inr ⟨0, c1, rfl, rfl, rfl, ?_⟩
    intro t2 ht2
    fin_cases t2
    · exact absurd rfl ht2
    · rfl
    · rfl
  · refine Or.inr ⟨1, c2, rfl, rfl, rfl, ?_⟩
    intro t2 ht2
    fin_cases t2
    · rfl
    · exact absurd rfl ht2
    · rfl
  · refine Or.inr ⟨2, c3, rfl, rfl, rfl, ?_⟩
    intro t2 ht2
    fin_cases t2
    · rfl
    · rfl
    · exact absurd rfl ht2
  · exact Or.inl rfl

/-- After `pbuf_get`, a cell on a local free list was on that list before, with
the same `buf_len`, when no cell of an arena is on a local free list. -/
theorem pbuf_get_on_list (cfg : Config) (st : State) (len : Int) (hap : arenas_apart st)
    (t2 : Fin 3) (a : Addr)
    (ha : on_list (pbuf_get cfg st len).2.heap (free_list (pbuf_get cfg st len).2.self t2) a) :
    on_list st.heap (free_list st.self t2) a ∧
    ((pbuf_get cfg st len).2.heap a).buf_len = (st.heap a).buf_len := by
  rcases pbuf_get_cases cfg st len with hnone | ⟨t, _, _, e2, e3, e4⟩
  · rw [hnone] at ha ⊢
    exact ⟨ha, rfl⟩
  · cases hpool : free_list st.self t with
    | some pb =>
      rw [hpool] at e2 e3
      have e2' : (pbuf_get cfg st len).2.heap = st.heap := e2
      have e3' : free_list (pbuf_get cfg st len).2.self t = (st.heap pb).next := e3
      rw [e2'] at ha ⊢
      refine ⟨?_, rfl⟩
      by_cases h2 : t2 = t
      · subst h2
        rw [e3'] at ha
        rw [hpool]
        exact on_list.tail pb a ha
      · rw [e4 t2 h2] at ha
        exact ha
    | none =>
      rw [hpool] at e2 e3
      rw [pbuf_get_real_refill_pool] at e3
      obtain ⟨k1, _, _⟩ := pbuf_get_real_spec st.heap none (arena_of st t) (tier_size cfg t)
        (bunch_size cfg t)
      by_cases h2 : t2 = t
      · subst h2
        rw [e3] at ha
        exact absurd ha (on_list_none _ a)
      · rw [e4 t2 h2] at ha
        have hsame : ∀ x, on_list st.heap (free_list st.self t2) x →
            (pbuf_get cfg st len).2.heap x = st.heap x := by
          intro x hx
          rw [e2]
          exact k1 x (fun hm => hap t t2 x hm hx)
        have hold : on_list st.heap (free_list st.self t2) a :=
          on_list_congr st.heap _ _ a ha (fun x hx => by rw [hsame x hx])
        exact ⟨hold, by rw [hsame a hold]⟩

/-- Lines 363 to 385 leave `buf_len` alone. -/
theorem fill_pbuf_buf_len {c : Nat} {now : Int} {s : List Char} {f : Fields} {b b2 : pbuf_t}
    (h : fill_pbuf c now s f b = .ret b2) : b2.buf_len = b.buf_len := by
  unfold fill_pbuf at h
  obtain ⟨d1, _, h⟩ := Run.bind_eq_ret.mp h
  obtain ⟨d2, _, h⟩ := Run.bind_eq_ret.mp h
  obtain ⟨d3, _, h⟩ := Run.bind_eq_ret.mp h
  obtain ⟨d4, _, h⟩ := Run.bind_eq_ret.mp h
  obtain ⟨d5, _, h⟩ := Run.bind_eq_ret.mp h
  simp only [Run.ret.injEq] at h
  subst h
  rfl

/-- After the append of lines 391 to 393, a cell on a local free list was on
that list before, with the same `buf_len`, when the cell behind the tail
pointer is on no local free list and the buffer keeps its `buf_len`. -/
theorem enqueue_local_on_list (st : State) (pb : Addr) (b : pbuf_t)
    (hb : b.buf_len = (st.heap pb).buf_len) (htail : tail_apart st) (t : Fin 3) (a : Addr)
    (ha : on_list (enqueue_local st pb b).heap (free_list (enqueue_local st pb b).self t) a) :
    on_list st.heap (free_list st.self t) a ∧
    ((enqueue_local st pb b).heap a).buf_len = (st.heap a).buf_len := by
  have step1 : ∀ q x, on_list (st.heap.put pb { b with next := none }) q x → on_list st.heap q x := by
    intro q x hx
    rcases on_list_put st.heap _ pb none
      (fun y hy => by rw [Heap.put_other _ _ _ _ hy]) (by simp) q x hx with i | ⟨_, i⟩
    · exact i
    · exact absurd i (on_list_none _ x)
  have bl1 : ∀ x, ((st.heap.put pb { b with next := none }) x).buf_len = (st.heap x).buf_len := by
    intro x
    by_cases hx : x = pb
    · subst hx; simp [hb]
    · rw [Heap.put_other _ _ _ _ hx]
  unfold enqueue_local at ha ⊢
  cases hs : st.self.pbuf_incoming_local_last with
  | incoming_local =>
    simp only [State.store, hs] at ha ⊢
    have ha' : on_list (st.heap.put pb { b with next := none }) (free_list st.self t) a := by
      fin_cases t <;> exact ha
    exact ⟨step1 _ a ha', bl1 a⟩
  | incoming =>
    simp only [State.store, hs] at ha ⊢
    have ha' : on_list (st.heap.put pb { b with next := none }) (free_list st.self t) a := by
      fin_cases t <;> exact ha
    exact ⟨step1 _ a ha', bl1 a⟩
  | next x =>
    simp only [State.store, hs] at ha ⊢
    have hx := htail x hs
    have ha' : on_list ((st.heap.put pb { b with next := none }).put x
        { (st.heap.put pb { b with next := none }) x with next := some pb })
        (free_list st.self t) a := by
      fin_cases t <;> exact ha
    have hmid : on_list (st.heap.put pb { b with next := none }) (free_list st.self t) a := by
      refine on_list_congr _ _ _ a ha' ?_
      intro y hy
      have hyx : y ≠ x := fun e => hx t (e ▸ step1 _ y hy)
      rw [Heap.put_other _ _ _ _ hyx]
    refine ⟨step1 _ a hmid, ?_⟩
    by_cases hax : a = x
    · subst hax
      simp only [Heap.put_same]
      exact bl1 a
    · rw [Heap.put_other _ _ _ _ hax]
      exact bl1 a

/-- The tier invariant survives `pbuf_get`, when no cell of an arena is on a
local free list. -/
theorem pbuf_get_tiered (cfg : Config) (st : State) (len : Int)
    (hinv : free_lists_tiered cfg st) (hap : arenas_apart st) :
    free_lists_tiered cfg (pbuf_get cfg st len).2 := by
  intro t a ha
  obtain ⟨h1, h2⟩ := pbuf_get_on_list cfg st len hap t a ha
  rw [h2]
  exact hinv t a h1

/-- Under the tier invariant a buffer `pbuf_get` returns has `buf_len >= len`. -/
theorem pbuf_get_buf_len_ge (cfg : Config) (st : State) (len : Int) (pb : Addr)
    (hinv : free_lists_tiered cfg st) (hpb : (pbuf_get cfg st len).1 = some pb) :
    len ≤ ((pbuf_get cfg st len).2.heap pb).buf_len := by
  rcases pbuf_get_cases cfg st len with hnone | ⟨t, hle, e1, e2, _, _⟩
  · rw [hnone] at hpb
    cases hpb
  · rw [e1] at hpb
    rw [e2, pbuf_get_real_buf_len _ _ _ _ _ pb hpb
      (fun a ha => hinv t a (ha ▸ on_list.head a))]
    exact hle

/-- The tier invariant survives `incoming_parse`, when no cell of an arena and
not the cell behind the tail pointer of the pending queue is on a local free
list. -/
theorem incoming_parse_tiered (cfg : Config) (parse_aprs : worker_t → pbuf_t → Int)
    (now : Int) (fuel : Nat) (st : State) (c : Nat) (s : List Char) (rc : Int) (st2 : State)
    (hinv : free_lists_tiered cfg st) (hap : arenas_apart st) (htail : tail_apart st)
    (h : incoming_parse cfg parse_aprs now fuel st c s = .ret (rc, st2)) :
    free_lists_tiered cfg st2 := by
  unfold incoming_parse at h
  obtain ⟨r, _, h⟩ := Run.bind_eq_ret.mp h
  cases r with
  | none =>
    simp only [Run.ret.injEq, Prod.mk.injEq] at h
    rw [← h.2]
    exact hinv
  | some f =>
    simp only at h
    have hinv1 := pbuf_get_tiered cfg st (s.length + 14 : Nat) hinv hap
    cases hg : pbuf_get cfg st (s.length + 14 : Nat) with
    | mk o st1 =>
      rw [hg] at h hinv1
      cases o with
      | none =>
        simp only [Run.ret.injEq, Prod.mk.injEq] at h
        rw [← h.2]
        exact hinv1
      | some pb =>
        simp only at h
        obtain ⟨b, hb, h⟩ := Run.bind_eq_ret.mp h
        simp only [Run.ret.injEq, Prod.mk.injEq] at h
        rw [← h.2]
        have hlast : st1.self.pbuf_incoming_local_last = st.self.pbuf_incoming_local_last :=
          (pbuf_get_spec cfg st st1 _ pb hg).2.1
        have htail1 : tail_apart st1 := by
          intro a ha t hon
          rw [hlast] at ha
          have := pbuf_get_on_list cfg st (s.length + 14 : Nat) hap t a (by rw [hg]; exact hon)
          exact htail a ha t this.1
        intro t a ha
        obtain ⟨o1, o2⟩ := enqueue_local_on_list st1 pb b (fill_pbuf_buf_len hb) htail1 t a ha
        rw [o2]
        exact hinv1 t a o1

/-- C20: the free-list tier invariant, "every buffer on the worker's small,
large and huge local free list has `buf_len` equal to the size of that tier".
It holds when the three lists are empty.  It is preserved by `pbuf_free`, with
or without a worker, for any buffer.  It is preserved by `pbuf_get` for any
length, on the pop path and on the refill path, whatever the header contents of
the cells of the arenas, and by `incoming_parse` whenever it returns; here the
state is taken separated: no cell held by an arena is on a local free list, and
for `incoming_parse` neither is the cell behind the tail pointer of the pending
queue.  Consequently every buffer `pbuf_get(self, len)` returns in a state with
the invariant has `buf_len >= len`. -/
theorem free_list_tier_invariant (cfg : Config) :
    (∀ st : State, st.self.pbuf_free_small = none → st.self.pbuf_free_large = none →
      st.self.pbuf_free_huge = none → free_lists_tiered cfg st) ∧
    (∀ (st : State) (has_self : Bool) (p : Addr), free_lists_tiered cfg st →
      free_lists_tiered cfg (pbuf_free cfg has_self p st)) ∧
    (∀ (st : State) (len : Int), free_lists_tiered cfg st → arenas_apart st →
      free_lists_tiered cfg (pbuf_get cfg st len).2) ∧
    (∀ (parse_aprs : worker_t → pbuf_t → Int) (now : Int) (fuel : Nat) (st : State) (c : Nat)
      (s : List Char) (rc : Int) (st2 : State),
      free_lists_tiered cfg st → arenas_apart st → tail_apart st →
      incoming_parse cfg parse_aprs now fuel st c s = .ret (rc, st2) →
      free_lists_tiered cfg st2) ∧
    (∀ (st : State) (len : Int) (pb : Addr), free_lists_tiered cfg st →
      (pbuf_get cfg st len).1 = some pb →
      len ≤ ((pbuf_get cfg st len).2.heap pb).buf_len) := by
  refine ⟨?_, ?_, ?_, ?_, ?_⟩
  · intro st h0 h1 h2 t a ha
    fin_cases t
    · exact absurd (show on_list st.heap none a from h0 ▸ ha) (on_list_none _ a)
    · exact absurd (show on_list st.heap none a from h1 ▸ ha) (on_list_none _ a)
    · exact absurd (show on_list st.heap none a from h2 ▸ ha) (on_list_none _ a)
  · intro st has_self p hinv
    exact pbuf_free_tiered cfg has_self p st hinv
  · intro st len hinv hap
    exact pbuf_get_tiered cfg st len hinv hap
  · intro parse_aprs now fuel st c s rc st2 hinv hap htail h
    exact incoming_parse_tiered cfg parse_aprs now fuel st c s rc st2 hinv hap htail h
  · intro st len pb hinv hpb
    exact pbuf_get_buf_len_ge cfg st len pb hinv hpb

/-- The sample state has the tier invariant and is separated. -/
theorem sample_state_tiered :
    free_lists_tiered aprsc_config sample_state ∧ arenas_apart sample_state ∧
    tail_apart sample_state := by
  have hl : is_list sample_state.heap sample_state.self.pbuf_free_small [1, 2, 3] := by decide
  have hmem : ∀ (t : Fin 3) (a : Addr), on_list sample_state.heap (free_list sample_state.self t) a →
      t = 0 ∧ a ∈ [1, 2, 3] := by
    intro t a ha
    fin_cases t
    · exact ⟨rfl, mem_of_on_list _ _ _ a hl ha⟩
    · exact absurd ha (on_list_none _ a)
    · exact absurd ha (on_list_none _ a)
  refine ⟨?_, ?_, ?_⟩
  · intro t a ha
    obtain ⟨ht, hm⟩ := hmem t a ha
    subst ht
    simp only [List.mem_cons, List.mem_singleton, List.not_mem_nil, or_false] at hm
    rcases hm with rfl | rfl | rfl <;> decide
  · intro t t2 a hm ha
    obtain ⟨_, hm2⟩ := hmem t2 a ha
    simp only [List.mem_cons, List.mem_singleton, List.not_mem_nil, or_false] at hm2
    fin_cases t <;> rcases hm2 with rfl | rfl | rfl <;> revert hm <;> decide
  · intro a ha
    have hs : sample_state.self.pbuf_incoming_local_last = Slot.incoming_local := rfl
    rw [hs] at ha
    cases ha

/-- The state `used_cell_state` has the tier invariant. -/
theorem used_cell_state_tiered : free_lists_tiered aprsc_config used_cell_state := by
  have hl : is_list used_cell_state.heap used_cell_state.self.pbuf_free_small [1, 2, 3] := by
    decide
  intro t a ha
  fin_cases t
  · have hm := mem_of_on_list _ _ _ a hl ha
    simp only [List.mem_cons, List.mem_singleton, List.not_mem_nil, or_false] at hm
    rcases hm with rfl | rfl | rfl <;> decide
  · exact absurd ha (on_list_none _ a)
  · exact absurd ha (on_list_none _ a)

set_option maxRecDepth 100000 in
/-- The sample state: the used buffer of cell 7 is freed to the worker, a buffer
is taken for 40 bytes, and `OH2ABC>APRS,WIDE2-1:>Hello` is parsed. -/
theorem free_list_tier_invariant_witness :
    (free_lists_tiered aprsc_config sample_state ∧ arenas_apart sample_state ∧
     tail_apart sample_state ∧ free_lists_tiered aprsc_config used_cell_state ∧
     incoming_parse aprsc_config sample_parse_aprs 0 100 sample_state 5 plain_line
       = .ret (0, one_pending_state) ∧
     (pbuf_get aprsc_config sample_state 40).1 = some 1) ∧
    free_lists_tiered aprsc_config (pbuf_free aprsc_config true 7 used_cell_state) ∧
    free_lists_tiered aprsc_config (pbuf_get aprsc_config sample_state 40).2 ∧
    free_lists_tiered aprsc_config one_pending_state ∧
    (40 : Int) ≤ ((pbuf_get aprsc_config sample_state 40).2.heap 1).buf_len :=
  ⟨⟨sample_state_tiered.1, sample_state_tiered.2.1, sample_state_tiered.2.2,
    used_cell_state_tiered, rfl, rfl⟩,
   (free_list_tier_invariant aprsc_config).2.1 used_cell_state true 7 used_cell_state_tiered,
   (free_list_tier_invariant aprsc_config).2.2.1 sample_state 40 sample_state_tiered.1
     sample_state_tiered.2.1,
   (free_list_tier_invariant aprsc_config).2.2.2.1 sample_parse_aprs 0 100 sample_state 5
     plain_line 0 one_pending_state sample_state_tiered.1 sample_state_tiered.2.1
     sample_state_tiered.2.2 rfl,
   (free_list_tier_invariant aprsc_config).2.2.2.2 sample_state 40 1 sample_state_tiered.1 rfl⟩

/-! ## Bytes of a line and `memchr` -/

theorem byte_at_append_left (a b : List Char) (j : Nat) (h : j < a.length) :
    byte_at (a ++ b) j = byte_at a j :=
  List.getD_append a b NUL j h

theorem byte_at_append_right (a b : List Char) (j : Nat) (h : a.length ≤ j) :
    byte_at (a ++ b) j = byte_at b (j - a.length) :=
  List.getD_append_right a b NUL j h

theorem byte_at_mem (a : List Char) (j : Nat) (h : j < a.length) : byte_at a j ∈ a := by
  unfold byte_at
  rw [List.getD_eq_getElem _ _ h]
  exact List.getElem_mem _

theorem byte_at_take (s : List Char) (n j : Nat) (h : j < n) :
    byte_at (s.take n) j = byte_at s j := by
  unfold byte_at
  simp only [List.getD_eq_getElem?_getD, List.getElem?_take, h, if_true]

theorem byte_at_indexOf (c : Char) : ∀ l : List Char, l.indexOf c < l.length →
    byte_at l (l.indexOf c) = c := by
  intro l
  induction l with
  | nil => intro h; simp at h
  | cons a l ih =>
    intro h
    by_cases hac : a = c
    · subst hac
      rw [List.indexOf_cons_self]
      rfl
    · rw [List.indexOf_cons_ne _ hac] at h ⊢
      simp only [List.length_cons, Nat.succ_eq_add_one, Nat.add_lt_add_iff_right] at h
      exact ih h

theorem byte_at_lt_indexOf (c : Char) : ∀ (l : List Char) (j : Nat), j < l.indexOf c →
    byte_at l j ≠ c := by
  intro l
  induction l with
  | nil => intro j h; simp at h
  | cons a l ih =>
    intro j h
    by_cases hac : a = c
    · subst hac
      rw [List.indexOf_cons_self] at h
      exact absurd h (Nat.not_lt_zero _)
    · rw [List.indexOf_cons_ne _ hac] at h
      cases j with
      | zero => exact hac
      | succ j => exact ih j (by omega)

/-- What `memchr` returns: the index lies within the first `n` bytes and within
the line, the byte there is `c`, and no byte before it is `c`. -/
theorem memchr_spec {s : List Char} {c : Char} {n i : Nat} (h : memchr s c n = some i) :
    i < n ∧ i < s.length ∧ byte_at s i = c ∧ ∀ j, j < i → byte_at s j ≠ c := by
  have hb := memchr_some h
  unfold memchr at h
  split_ifs at h with hlt
  simp only [Option.some.injEq] at h
  refine ⟨hb.1, hb.2, ?_, ?_⟩
  · have := byte_at_indexOf c (s.take n) hlt
    rw [h, byte_at_take s n i hb.1] at this
    exact this
  · intro j hj
    have := byte_at_lt_indexOf c (s.take n) j (by rw [h]; exact hj)
    rw [byte_at_take s n j (by omega)] at this
    exact this

/-- The first `c` of a line is found when it lies within the first `n` bytes. -/
theorem memchr_first (a b : List Char) (c : Char) (n : Nat) (hc : c ∉ a) (hn : a.length < n) :
    memchr (a ++ c :: b) c n = some a.length := by
  unfold memchr
  have ht : (a ++ c :: b).take n = a ++ c :: b.take (n - a.length - 1) := by
    rw [List.take_append_eq_append_take, List.take_of_length_le (by omega)]
    obtain ⟨k, hk⟩ : ∃ k, n - a.length = k + 1 := ⟨n - a.length - 1, by omega⟩
    rw [hk]
    simp
  rw [ht, List.indexOf_append_of_not_mem hc, List.indexOf_cons_self]
  simp

/-- No `c` among the first `n` bytes: `memchr` returns `NULL`. -/
theorem memchr_none_in_range (a b : List Char) (c : Char) (n : Nat) (hc : c ∉ a)
    (hn : n ≤ a.length) : memchr (a ++ b) c n = none := by
  unfold memchr
  rw [List.take_append_of_le_length hn, if_neg]
  rw [List.indexOf_lt_length]
  exact fun hm => hc (List.mem_of_mem_take hm)

/-! ## Loops that end -/

/-- A loop whose body decreases a measure ends within a budget above the
measure. -/
theorem whileM_terminates {σ : Type} (cond : σ → Bool) (body : σ → Run σ) (m : σ → Nat)
    (I : σ → Prop)
    (hstep : ∀ x, I x → cond x = true → ∃ y, body x = .ret y ∧ I y ∧ m y < m x) :
    ∀ (n : Nat) (x : σ), I x → m x < n → ∃ y, whileM cond body n x = .ret y := by
  intro n
  induction n with
  | zero => intro x _ h; exact absurd h (Nat.not_lt_zero _)
  | succ n ih =>
    intro x hx hm
    rw [whileM_succ]
    by_cases hc : cond x = true
    · rw [if_pos hc]
      obtain ⟨y, hy, hI, hlt⟩ := hstep x hx hc
      rw [hy, Run.bind_ret]
      exact ih y hI (by omega)
    · rw [if_neg hc]
      exact ⟨x, rfl⟩

/-! ## The scans of `incoming_parse` with enough budget -/

/-- The loop of lines 301 and 302 ends. -/
theorem scan_dstcall_returns (fuel : Nat) (s : List Char) (path_end start : Nat)
    (hf : path_end < fuel) : ∃ d, scan_dstcall fuel s path_end start = .ret d := by
  unfold scan_dstcall
  refine whileM_terminates _ _ (fun d => path_end - d) (fun _ => True) ?_ fuel start trivial
    (by show path_end - start < fuel; omega)
  intro x _ hc
  simp only [Bool.and_eq_true, decide_eq_true_eq] at hc
  exact ⟨x + 1, rfl, trivial, by show path_end - (x + 1) < path_end - x; omega⟩

/-- Where the loop of lines 301 and 302 stops: at `path_end` or at a byte that
ends the destination callsign; every byte it passed is none of these. -/
theorem scan_dstcall_stop {fuel : Nat} {s : List Char} {path_end start d : Nat}
    (h : scan_dstcall fuel s path_end start = .ret d) :
    (path_end ≤ d ∨ byte_at s d = '-' ∨ byte_at s d = ',' ∨ byte_at s d = ':') ∧
    ∀ j, start ≤ j → j < d →
      j < path_end ∧ byte_at s j ≠ '-' ∧ byte_at s j ≠ ',' ∧ byte_at s j ≠ ':' := by
  unfold scan_dstcall at h
  have hstep : ∀ x y : Nat,
      (∀ j, start ≤ j → j < x →
        j < path_end ∧ byte_at s j ≠ '-' ∧ byte_at s j ≠ ',' ∧ byte_at s j ≠ ':') →
      (decide (x < path_end) && byte_at s x != '-' && byte_at s x != ','
        && byte_at s x != ':') = true →
      Run.ret (x + 1) = Run.ret y →
      (∀ j, start ≤ j → j < y →
        j < path_end ∧ byte_at s j ≠ '-' ∧ byte_at s j ≠ ',' ∧ byte_at s j ≠ ':') := by
    intro x y hx hcx hy
    simp only [Run.ret.injEq] at hy
    subst hy
    simp only [Bool.and_eq_true, decide_eq_true_eq, bne_iff_ne, ne_eq] at hcx
    intro j h1 h2
    by_cases hj : j < x
    · exact hx j h1 hj
    · have : j = x := by omega
      subst this
      tauto
  obtain ⟨hI, hc⟩ := whileM_inv _ _
    (fun d => ∀ j, start ≤ j → j < d →
      j < path_end ∧ byte_at s j ≠ '-' ∧ byte_at s j ≠ ',' ∧ byte_at s j ≠ ':')
    hstep fuel start d (fun j h1 h2 => by omega) h
  refine ⟨?_, hI⟩
  simp only [Bool.and_eq_false_iff, decide_eq_false_iff_not, bne_eq_false_iff_eq,
    not_lt] at hc
  tauto

/-- Lines 308 to 312 end. -/
theorem scan_via_returns (fuel : Nat) (s : List Char) (path_end start : Nat)
    (hf : path_end < fuel) : ∃ v, scan_via fuel s path_end start = .ret v := by
  unfold scan_via
  obtain ⟨v, hv⟩ := whileM_terminates
    (fun v => decide (v < path_end) && (byte_at s v != ',' && byte_at s v != ':'))
    (fun v => Run.ret (v + 1)) (fun d => path_end - d) (fun _ => True)
    (by
      intro x _ hc
      simp only [Bool.and_eq_true, decide_eq_true_eq] at hc
      exact ⟨x + 1, rfl, trivial, by show path_end - (x + 1) < path_end - x; omega⟩)
    fuel start trivial (by show path_end - start < fuel; omega)
  rw [hv]
  exact ⟨_, rfl⟩

/-- Lines 308 to 312 when the destination callsign ends at a comma or at the
colon: the via path starts after the comma, or is empty. -/
theorem scan_via_at_stop (fuel : Nat) (s : List Char) (path_end d : Nat)
    (hd : byte_at s d = ',' ∨ byte_at s d = ':' ∨ path_end ≤ d) :
    scan_via (fuel + 1) s path_end d = .ret (if byte_at s d = ',' then d + 1 else d) := by
  unfold scan_via
  rw [whileM_succ, if_neg, Run.bind_ret]
  simp only [Bool.and_eq_true, decide_eq_true_eq, bne_iff_ne, ne_eq, not_and, not_not]
  intro h1 h2
  rcases hd with h | h | h
  · exact absurd h h2
  · exact h
  · omega

/-- The loop of lines 320 and 321 ends. -/
theorem scan_back_returns (fuel : Nat) (s : List Char) (path_end : Nat)
    (hf : path_end < fuel) : ∃ p, scan_back fuel s path_end = .ret p := by
  unfold scan_back
  refine whileM_terminates _ _ (fun p => p) (fun _ => True) ?_ fuel _ trivial
    (by show path_end - 3 < fuel; omega)
  intro x _ hc
  simp only [Bool.and_eq_true, decide_eq_true_eq] at hc
  exact ⟨x - 1, rfl, trivial, by show x - 1 < x; omega⟩

/-- Where the loop of lines 320 and 321 stops when there is a comma at index `k`
at or before its start: at a comma or at the start of the line, and not before
`k`. -/
theorem scan_back_stop {fuel : Nat} {s : List Char} {path_end p : Nat} (k : Nat)
    (hk : byte_at s k = ',') (hstart : k ≤ path_end - 3)
    (h : scan_back fuel s path_end = .ret p) :
    k ≤ p ∧ p ≤ path_end - 3 ∧ (p = 0 ∨ byte_at s p = ',') := by
  unfold scan_back at h
  have hstep : ∀ x y : Nat, (k ≤ x ∧ x ≤ path_end - 3) →
      (decide (0 < x) && byte_at s x != ',') = true → Run.ret (x - 1) = Run.ret y →
      (k ≤ y ∧ y ≤ path_end - 3) := by
    intro x y hx hcx hy
    simp only [Run.ret.injEq] at hy
    subst hy
    simp only [Bool.and_eq_true, decide_eq_true_eq, bne_iff_ne, ne_eq] at hcx
    have : x ≠ k := fun e => hcx.2 (e ▸ hk)
    omega
  obtain ⟨hI, hc⟩ := whileM_inv _ _ (fun p => k ≤ p ∧ p ≤ path_end - 3) hstep fuel _ p
    ⟨hstart, le_refl _⟩ h
  refine ⟨hI.1, hI.2, ?_⟩
  simp only [Bool.and_eq_false_iff, decide_eq_false_iff_not, bne_eq_false_iff_eq,
    not_lt] at hc
  rcases hc with hc | hc
  · left; omega
  · right; exact hc

/-- The loop of lines 340 to 344 runs to `path_end` when no byte from its start
to `path_end` is a comma or a colon. -/
theorem scan_hop_exact (s : List Char) (path_end : Nat) :
    ∀ (fuel q : Nat), q ≤ path_end → path_end - q < fuel →
      (∀ j, q ≤ j → j < path_end → byte_at s j ≠ ':' ∧ byte_at s j ≠ ',') →
      scan_hop fuel s path_end q = .ret path_end := by
  intro fuel
  induction fuel with
  | zero => intro q _ h; exact absurd h (Nat.not_lt_zero _)
  | succ n ih =>
    intro q hq hf hgood
    unfold scan_hop
    rw [whileM_succ]
    by_cases hlt : q < path_end
    · rw [if_pos (by simpa using hlt)]
      have hg := hgood q (le_refl _) hlt
      have : (byte_at s q != ':' && byte_at s q != ',') = true := by
        simp [hg.1, hg.2]
      rw [this]
      simp only [if_true, Run.bind_ret]
      exact ih (q + 1) (by omega) (by omega) (fun j h1 h2 => hgood j (by omega) h2)
    · rw [if_neg (by simpa using hlt)]
      have : q = path_end := by omega
      rw [this]

/-- The scan for an existing `qA` ends when the via path holds no comma and no
colon. -/
theorem scan_qcons_returns (s : List Char) (path_end v : Nat) (fuel : Nat)
    (hv : v ≤ path_end) (hf : path_end + 2 ≤ fuel) (hend : byte_at s path_end ≠ ',')
    (hgood : ∀ j, v ≤ j → j < path_end → byte_at s j ≠ ':' ∧ byte_at s j ≠ ',') :
    ∃ q, scan_qcons fuel s path_end v = .ret q := by
  obtain ⟨n, hn⟩ : ∃ n, fuel = n + 2 := ⟨fuel - 2, by omega⟩
  subst hn
  unfold scan_qcons
  rw [whileM_succ]
  split_ifs with hc
  · rw [scan_hop_exact s path_end (n + 2) v hv (by omega) hgood, Run.bind_ret, if_neg hend,
      Run.bind_ret, whileM_succ, if_neg (by simp)]
    exact ⟨_, rfl⟩
  · exact ⟨_, rfl⟩

/-! ## The `,I` form -/

theorem byte_at_append_cons_self (X Y : List Char) (c : Char) :
    byte_at (X ++ c :: Y) X.length = c := by
  rw [byte_at_append_right _ _ _ (le_refl _), Nat.sub_self]
  rfl

theorem byte_at_append_cons_add (X Y : List Char) (c : Char) (k : Nat) :
    byte_at (X ++ c :: Y) (X.length + 1 + k) = byte_at Y k := by
  rw [byte_at_append_right _ _ _ (by omega)]
  have : X.length + 1 + k - X.length = k + 1 := by omega
  rw [this]
  rfl

/-- The annotation of an accepted line is at most `CALLSIGNLEN_MAX + 5` bytes
long, and the scratch array has 20 bytes. -/
theorem build_qcons_len {cfg : Config} {fuel : Nat} {s : List Char} {path_end via_start : Nat}
    {pathlen qcons_len : Nat} {qcons : List Char}
    (h : build_qcons cfg fuel s path_end via_start = .ret (some (pathlen, qcons, qcons_len))) :
    qcons_len ≤ cfg.CALLSIGNLEN_MAX + 5 ∧ qcons.length = 20 := by
  unfold build_qcons at h
  split_ifs at h with hI
  · obtain ⟨p, hp, h⟩ := Run.bind_eq_ret.mp h
    have hpb := scan_back_bounds hp
    by_cases hlen : path_end - p > cfg.CALLSIGNLEN_MAX + 3
    · rw [if_pos hlen] at h
      simp at h
    · rw [if_neg hlen] at h
      have hp2 : p ≤ (if byte_at s p = ',' then p + 1 else p) := by split_ifs <;> omega
      generalize (if byte_at s p = ',' then p + 1 else p) = p1 at h hp2
      simp only at h
      obtain ⟨q1, hq1, h⟩ := Run.bind_eq_ret.mp h
      obtain ⟨q2, hq2, h⟩ := Run.bind_eq_ret.mp h
      simp only [Run.ret.injEq, Option.some.injEq, Prod.mk.injEq] at h
      obtain ⟨_, h2, h3⟩ := h
      have m1 := memcpy_ret hq1
      have m2 := memcpy_ret hq2
      simp only [List.length_replicate] at m1
      rw [← h2, ← h3]
      omega
  · obtain ⟨_, _, h⟩ := Run.bind_eq_ret.mp h
    simp only [Run.ret.injEq, Option.some.injEq, Prod.mk.injEq] at h
    obtain ⟨_, h2, h3⟩ := h
    subst h2 h3
    simp

theorem locate_fields_qcons_len {cfg : Config} {fuel : Nat} {s : List Char} {f : Fields}
    (h : locate_fields cfg fuel s = .ret (some f)) :
    f.qcons_len ≤ cfg.CALLSIGNLEN_MAX + 5 ∧ f.qcons.length = 20 := by
  unfold locate_fields at h
  cases hm : memchr s ':' s.length with
  | none => rw [hm] at h; simp at h
  | some path_end =>
    rw [hm] at h
    simp only at h
    cases hm2 : memchr s '>' (if path_end < cfg.CALLSIGNLEN_MAX + 1 then path_end
        else cfg.CALLSIGNLEN_MAX + 1) with
    | none => rw [hm2] at h; simp at h
    | some src_end =>
      rw [hm2] at h
      simp only at h
      split_ifs at h with c1 c2 c3
      · simp at h
      · simp at h
      · simp at h
      obtain ⟨d, _, h⟩ := Run.bind_eq_ret.mp h
      split_ifs at h with c5
      · simp at h
      obtain ⟨v, _, h⟩ := Run.bind_eq_ret.mp h
      obtain ⟨q, hq, h⟩ := Run.bind_eq_ret.mp h
      cases q with
      | none => simp at h
      | some q =>
        obtain ⟨pathlen, qcons, qcons_len⟩ := q
        simp only [Run.ret.injEq, Option.some.injEq] at h
        have hb := build_qcons_len hq
        subst h
        exact hb

/-- Lines 317 to 323 reject the line when the reporting hop is too long: with a
comma at index `k`, no comma in the hop from `k + 1` to `path_end - 3`, and the
`,I` before the colon. -/
theorem build_qcons_long_hop (cfg : Config) (fuel : Nat) (s : List Char)
    (path_end via_start k : Nat) (hf : path_end < fuel)
    (hk : byte_at s k = ',') (hk3 : k + 3 ≤ path_end)
    (hhop : ∀ j, k < j → j + 3 ≤ path_end → byte_at s j ≠ ',')
    (hI : byte_at s (path_end - 1) = 'I') (hc : byte_at s (path_end - 2) = ',')
    (hlong : path_end - k > cfg.CALLSIGNLEN_MAX + 3) :
    build_qcons cfg fuel s path_end via_start = .ret none := by
  unfold build_qcons
  rw [if_pos ⟨by omega, hI, hc⟩]
  obtain ⟨p, hp⟩ := scan_back_returns fuel s path_end hf
  rw [hp, Run.bind_ret]
  obtain ⟨h1, h2, h3⟩ := scan_back_stop k hk (by omega) hp
  have hpk : p = k := by
    by_contra hne
    have hlt : k < p := by omega
    rcases h3 with h3 | h3
    · omega
    · exact hhop p hlt (by omega) h3
  rw [hpk, if_pos hlong]

/-- A line of the `,I` form whose reporting hop holds no comma and is longer than
`CALLSIGNLEN_MAX` does not reach `pbuf_get`. -/
theorem locate_fields_long_hop (cfg : Config) (fuel : Nat) (X HOP P : List Char)
    (hf : (X ++ ',' :: (HOP ++ ',' :: 'I' :: ':' :: P)).length < fuel)
    (hX : ':' ∉ X) (hH : ':' ∉ HOP) (hH2 : ',' ∉ HOP)
    (hlong : cfg.CALLSIGNLEN_MAX < HOP.length) :
    locate_fields cfg fuel (X ++ ',' :: (HOP ++ ',' :: 'I' :: ':' :: P)) = .ret none := by
  have hs : X ++ ',' :: (HOP ++ ',' :: 'I' :: ':' :: P)
      = (X ++ ',' :: (HOP ++ [',', 'I'])) ++ ':' :: P := by simp
  have hlen : (X ++ ',' :: (HOP ++ ',' :: 'I' :: ':' :: P)).length
      = X.length + HOP.length + 4 + P.length := by
    simp only [List.length_append, List.length_cons]; omega
  have hpe : memchr (X ++ ',' :: (HOP ++ ',' :: 'I' :: ':' :: P)) ':'
      (X ++ ',' :: (HOP ++ ',' :: 'I' :: ':' :: P)).length = some (X.length + HOP.length + 3) := by
    have hnot : ':' ∉ X ++ ',' :: (HOP ++ [',', 'I']) := by
      simp only [List.mem_append, List.mem_cons, List.mem_singleton, List.not_mem_nil,
        or_false, not_or]
      exact ⟨hX, by decide, hH, by decide, by decide⟩
    have := memchr_first (X ++ ',' :: (HOP ++ [',', 'I'])) P ':'
      (X ++ ',' :: (HOP ++ ',' :: 'I' :: ':' :: P)).length hnot
      (by rw [hlen]; simp only [List.length_append, List.length_cons, List.length_nil]; omega)
    rw [← hs] at this
    rw [this]
    simp only [List.length_append, List.length_cons, List.length_nil, Option.some.injEq]
    omega
  rw [hlen] at hf
  generalize hsd : X ++ ',' :: (HOP ++ ',' :: 'I' :: ':' :: P) = s at hpe hlen ⊢
  have hk : byte_at s X.length = ',' := by
    rw [← hsd]; exact byte_at_append_cons_self X _ ','
  have hI : byte_at s (X.length + HOP.length + 3 - 1) = 'I' := by
    rw [← hsd]
    have : X.length + HOP.length + 3 - 1 = X.length + 1 + (HOP.length + 1) := by omega
    rw [this, byte_at_append_cons_add, byte_at_append_right _ _ _ (by omega)]
    have : HOP.length + 1 - HOP.length = 1 := by omega
    rw [this]
    rfl
  have hc : byte_at s (X.length + HOP.length + 3 - 2) = ',' := by
    rw [← hsd]
    have : X.length + HOP.length + 3 - 2 = X.length + 1 + HOP.length := by omega
    rw [this, byte_at_append_cons_add, byte_at_append_right _ _ _ (le_refl _), Nat.sub_self]
    rfl
  have hhop : ∀ j, X.length < j → j + 3 ≤ X.length + HOP.length + 3 → byte_at s j ≠ ',' := by
    intro j h1 h2
    rw [← hsd]
    have : j = X.length + 1 + (j - X.length - 1) := by omega
    rw [this, byte_at_append_cons_add, byte_at_append_left _ _ _ (by omega)]
    intro he
    exact hH2 (he ▸ byte_at_mem HOP _ (by omega))
  have hq : ∀ v, build_qcons cfg fuel s (X.length + HOP.length + 3) v = .ret none :=
    fun v => build_qcons_long_hop cfg fuel s _ v X.length (by omega) hk (by omega) hhop hI hc
      (by omega)
  unfold locate_fields
  rw [hpe]
  simp only
  cases hm2 : memchr s '>' (if X.length + HOP.length + 3 < cfg.CALLSIGNLEN_MAX + 1
      then X.length + HOP.length + 3 else cfg.CALLSIGNLEN_MAX + 1) with
  | none => rfl
  | some src_end =>
    simp only
    by_cases c1 : src_end + 1 ≥ s.length
    · rw [if_pos c1]
    rw [if_neg c1]
    by_cases c2 : src_end > cfg.CALLSIGNLEN_MAX
    · rw [if_pos c2]
    rw [if_neg c2]
    by_cases c3 : X.length + HOP.length + 3 + 1 ≥ s.length
    · rw [if_pos c3]
    rw [if_neg c3]
    by_cases c4 : s.length ≤ X.length + HOP.length + 3 + 1
    · rw [if_pos c4]
    rw [if_neg c4]
    obtain ⟨d, hd⟩ := scan_dstcall_returns fuel s (X.length + HOP.length + 3) (src_end + 1)
      (by omega)
    rw [hd, Run.bind_ret]
    by_cases c5 : d - (src_end + 1) > cfg.CALLSIGNLEN_MAX
    · rw [if_pos c5]
    rw [if_neg c5]
    obtain ⟨v, hv⟩ := scan_via_returns fuel s (X.length + HOP.length + 3) d (by omega)
    rw [hv, Run.bind_ret, hq v, Run.bind_ret]

/-- C13: in the `,I` special case of `incoming_parse`, a line
`X ++ "," ++ HOP ++ ",I:" ++ P` whose reporting hop `HOP` holds no comma and is
longer than `CALLSIGNLEN_MAX` is rejected with -1 and the state is left as it
was (`X` and `HOP` hold no colon, so that the `,I` stands before the first
colon; the step budget exceeds the length of the line).  And whenever a line is
accepted with `CALLSIGNLEN_MAX = 9`, the annotation is at most 14 bytes long,
the scratch array it was built in has 20 bytes, and the bytes written into the
buffer are at most the `len + 14` asked of `pbuf_get`. -/
theorem long_reporting_hop_rejected (cfg : Config) (parse_aprs : worker_t → pbuf_t → Int)
    (now : Int) (fuel : Nat) (st : State) (c : Nat) :
    (∀ X HOP P : List Char,
      (X ++ ',' :: (HOP ++ ',' :: 'I' :: ':' :: P)).length < fuel →
      ':' ∉ X → ':' ∉ HOP → ',' ∉ HOP → cfg.CALLSIGNLEN_MAX < HOP.length →
      incoming_parse cfg parse_aprs now fuel st c (X ++ ',' :: (HOP ++ ',' :: 'I' :: ':' :: P))
        = .ret (-1, st)) ∧
    (∀ (s : List Char) (f : Fields), cfg.CALLSIGNLEN_MAX = 9 →
      locate_fields cfg fuel s = .ret (some f) →
      f.qcons_len ≤ 14 ∧ f.qcons_len ≤ f.qcons.length ∧ f.qcons.length = 20 ∧
      f.pathlen + f.qcons_len + f.datalen + 2 ≤ s.length + 14) := by
  refine ⟨?_, ?_⟩
  · intro X HOP P hf hX hH hH2 hlong
    exact incoming_parse_of_reject cfg parse_aprs now fuel st c _
      (locate_fields_long_hop cfg fuel X HOP P hf hX hH hH2 hlong)
  · intro s f h9 hf
    obtain ⟨h1, h2⟩ := locate_fields_qcons_len hf
    have hfacts := locate_fields_facts hf
    refine ⟨by omega, by omega, h2, by omega⟩

set_option maxRecDepth 100000 in
/-- The line `OH2ABC>APRS,VERYLONGHOP,I:>Hello`, whose reporting hop has 11
bytes, is rejected; `OH2ABC>APRS,RELAY,I:>Hello` is accepted with an annotation
of 9 bytes. -/
theorem long_reporting_hop_rejected_witness :
    ((("OH2ABC>APRS".toList ++ ',' :: ("VERYLONGHOP".toList ++ ',' :: 'I' :: ':' ::
          ">Hello".toList)).length < 100 ∧
      ':' ∉ "OH2ABC>APRS".toList ∧ ':' ∉ "VERYLONGHOP".toList ∧ ',' ∉ "VERYLONGHOP".toList ∧
      aprsc_config.CALLSIGNLEN_MAX < "VERYLONGHOP".toList.length) ∧
     incoming_parse aprsc_config sample_parse_aprs 0 100 sample_state 5
        ("OH2ABC>APRS".toList ++ ',' :: ("VERYLONGHOP".toList ++ ',' :: 'I' :: ':' ::
          ">Hello".toList)) = .ret (-1, sample_state)) ∧
    ((aprsc_config.CALLSIGNLEN_MAX = 9 ∧
      locate_fields aprsc_config 100 relay_line = .ret (some relay_fields)) ∧
     relay_fields.qcons_len ≤ 14 ∧ relay_fields.qcons_len ≤ relay_fields.qcons.length ∧
     relay_fields.qcons.length = 20 ∧
     relay_fields.pathlen + relay_fields.qcons_len + relay_fields.datalen + 2
       ≤ relay_line.length + 14) :=
  ⟨⟨⟨by decide, by decide, by decide, by decide, by decide⟩,
    (long_reporting_hop_rejected aprsc_config sample_parse_aprs 0 100 sample_state 5).1
      "OH2ABC>APRS".toList "VERYLONGHOP".toList ">Hello".toList
      (by decide) (by decide) (by decide) (by decide) (by decide)⟩,
   ⟨⟨rfl, rfl⟩,
    (long_reporting_hop_rejected aprsc_config sample_parse_aprs 0 100 sample_state 5).2
      relay_line relay_fields rfl rfl⟩⟩

/-! ## The callsign length limit -/

/-- A source callsign longer than `CALLSIGNLEN_MAX`: no `>` is found in range. -/
theorem locate_fields_long_source (cfg : Config) (fuel : Nat) (src rest : List Char)
    (hsrc : '>' ∉ src) (hlong : cfg.CALLSIGNLEN_MAX < src.length) :
    locate_fields cfg fuel (src ++ '>' :: rest) = .ret none := by
  unfold locate_fields
  cases hm : memchr (src ++ '>' :: rest) ':' (src ++ '>' :: rest).length with
  | none => rfl
  | some path_end =>
    simp only
    rw [memchr_none_in_range src ('>' :: rest) '>' _ hsrc (by split_ifs <;> omega)]

/-- The `>` that `memchr` finds in a line `src ++ ">" ++ rest` is the one after
`src`. -/
theorem memchr_gt_eq {src rest : List Char} {n se : Nat} (hsrc : '>' ∉ src)
    (h : memchr (src ++ '>' :: rest) '>' n = some se) : se = src.length := by
  obtain ⟨_, _, h3, h4⟩ := memchr_spec h
  by_contra hne
  rcases Nat.lt_or_gt_of_ne hne with hlt | hgt
  · rw [byte_at_append_left _ _ _ hlt] at h3
    exact hsrc (h3 ▸ byte_at_mem src se hlt)
  · exact h4 src.length hgt (byte_at_append_cons_self src rest '>')

/-- A destination callsign longer than `CALLSIGNLEN_MAX` is rejected at line
305 at the latest. -/
theorem locate_fields_long_dest (cfg : Config) (fuel : Nat) (src dst rest : List Char)
    (hf : (src ++ '>' :: (dst ++ rest)).length < fuel)
    (hsrc : '>' ∉ src) (hd1 : '-' ∉ dst) (hd2 : ',' ∉ dst) (hd3 : ':' ∉ dst)
    (hlong : cfg.CALLSIGNLEN_MAX < dst.length) :
    locate_fields cfg fuel (src ++ '>' :: (dst ++ rest)) = .ret none := by
  have hdst : ∀ j, src.length < j → j ≤ src.length + dst.length →
      byte_at (src ++ '>' :: (dst ++ rest)) j ∈ dst := by
    intro j h1 h2
    have : j = src.length + 1 + (j - src.length - 1) := by omega
    rw [this, byte_at_append_cons_add, byte_at_append_left _ _ _ (by omega)]
    exact byte_at_mem dst _ (by omega)
  generalize hsd : src ++ '>' :: (dst ++ rest) = s at hf hdst ⊢
  unfold locate_fields
  cases hm : memchr s ':' s.length with
  | none => rfl
  | some path_end =>
    simp only
    cases hm2 : memchr s '>' (if path_end < cfg.CALLSIGNLEN_MAX + 1 then path_end
        else cfg.CALLSIGNLEN_MAX + 1) with
    | none => rfl
    | some src_end =>
      simp only
      have hse : src_end = src.length := by
        rw [← hsd] at hm2
        exact memchr_gt_eq hsrc hm2
      obtain ⟨b1, b2, b3, _⟩ := memchr_spec hm
      obtain ⟨c1, _, _, _⟩ := memchr_spec hm2
      have hsp : src_end < path_end := by split_ifs at c1 <;> omega
      by_cases e1 : src_end + 1 ≥ s.length
      · rw [if_pos e1]
      rw [if_neg e1]
      by_cases e2 : src_end > cfg.CALLSIGNLEN_MAX
      · rw [if_pos e2]
      rw [if_neg e2]
      by_cases e3 : path_end + 1 ≥ s.length
      · rw [if_pos e3]
      rw [if_neg e3]
      by_cases e4 : s.length ≤ path_end + 1
      · rw [if_pos e4]
      rw [if_neg e4]
      obtain ⟨d0, hd0⟩ := scan_dstcall_returns fuel s path_end (src_end + 1) (by omega)
      rw [hd0, Run.bind_ret]
      have hb := scan_dstcall_bounds hd0 (by omega)
      obtain ⟨hstop, _⟩ := scan_dstcall_stop hd0
      have hpe : src.length + dst.length < path_end := by
        by_contra hcon
        have := hdst path_end (by omega) (by omega)
        rw [b3] at this
        exact hd3 this
      have hd0ge : src.length + dst.length < d0 := by
        by_contra hcon
        have hmem := hdst d0 (by omega) (by omega)
        rcases hstop with h | h | h | h
        · omega
        · exact hd1 (h ▸ hmem)
        · exact hd2 (h ▸ hmem)
        · exact hd3 (h ▸ hmem)
      rw [if_pos (by omega)]

/-- A line whose fields are in order is not rejected: the `>` at `se` within
reach, the destination callsign from `se + 1` to `de` of at most
`CALLSIGNLEN_MAX` bytes, then the colon at `path_end` or a comma and one via hop
up to the colon, no `,I` before the colon, and a payload. -/
theorem locate_fields_accepts (cfg : Config) (fuel : Nat) (s : List Char) (pe se de : Nat)
    (h1 : memchr s ':' s.length = some pe)
    (h2 : memchr s '>' (if pe < cfg.CALLSIGNLEN_MAX + 1 then pe
      else cfg.CALLSIGNLEN_MAX + 1) = some se)
    (h3 : pe + 1 < s.length) (h4 : se < de) (h4b : de ≤ pe)
    (h5 : ∀ j, se < j → j < de →
      byte_at s j ≠ '-' ∧ byte_at s j ≠ ',' ∧ byte_at s j ≠ ':')
    (h6 : de = pe ∨ (byte_at s de = ',' ∧
      ∀ j, de < j → j < pe → byte_at s j ≠ ':' ∧ byte_at s j ≠ ','))
    (h7 : de - (se + 1) ≤ cfg.CALLSIGNLEN_MAX)
    (h8 : ¬ (2 < pe ∧ byte_at s (pe - 1) = 'I' ∧ byte_at s (pe - 2) = ','))
    (h9 : s.length < fuel) :
    locate_fields cfg fuel s = .ret (some
      { src_end := se, dstcall_end := de,
        via_start := if byte_at s de = ',' then de + 1 else de,
        info_start := pe + 1, pathlen := pe, datalen := s.length - pe,
        qcons := List.replicate 20 NUL, qcons_len := 0 }) := by
  obtain ⟨_, _, b3, _⟩ := memchr_spec h1
  obtain ⟨c1, _, _, _⟩ := memchr_spec h2
  have hse : se ≤ cfg.CALLSIGNLEN_MAX := by split_ifs at c1 <;> omega
  have hcolon : byte_at s pe ≠ ',' := by rw [b3]; decide
  -- the end of the destination callsign
  obtain ⟨d0, hd0⟩ := scan_dstcall_returns fuel s pe (se + 1) (by omega)
  have hb := scan_dstcall_bounds hd0 (by omega)
  obtain ⟨hstop, hpass⟩ := scan_dstcall_stop hd0
  have hde : d0 = de := by
    by_contra hne
    rcases Nat.lt_or_gt_of_ne hne with hlt | hgt
    · have := h5 d0 (by omega) hlt
      rcases hstop with h | h | h | h
      · omega
      · exact this.1 h
      · exact this.2.1 h
      · exact this.2.2 h
    · have := hpass de (by omega) hgt
      rcases h6 with h | h
      · omega
      · exact this.2.2.1 h.1
  subst hde
  -- the start of the via path
  obtain ⟨n, hn⟩ : ∃ n, fuel = n + 1 := ⟨fuel - 1, by omega⟩
  have hvia : scan_via fuel s pe d0 = .ret (if byte_at s d0 = ',' then d0 + 1 else d0) := by
    rw [hn]
    refine scan_via_at_stop n s pe d0 ?_
    rcases h6 with h | h
    · exact Or.inr (Or.inr (by omega))
    · exact Or.inl h.1
  -- the scan for an existing q construct
  have hvle : (if byte_at s d0 = ',' then d0 + 1 else d0) ≤ pe := by
    split_ifs with hc
    · rcases h6 with h | h
      · rw [h] at hc; exact absurd hc hcolon
      · have : d0 ≠ pe := fun e => hcolon (e ▸ hc)
        omega
    · exact h4b
  have hgood : ∀ j, (if byte_at s d0 = ',' then d0 + 1 else d0) ≤ j → j < pe →
      byte_at s j ≠ ':' ∧ byte_at s j ≠ ',' := by
    intro j hj1 hj2
    rcases h6 with h | h
    · have : (if byte_at s d0 = ',' then d0 + 1 else d0) = pe := by
        rw [if_neg (by rw [h]; exact hcolon), h]
      omega
    · rw [if_pos h.1] at hj1
      exact h.2 j (by omega) hj2
  obtain ⟨q, hq⟩ := scan_qcons_returns s pe _ fuel hvle (by omega) hcolon hgood
  unfold locate_fields
  rw [h1]
  simp only
  rw [h2]
  simp only
  rw [if_neg (by omega), if_neg (by omega), if_neg (by omega), if_neg (by omega), hd0,
    Run.bind_ret, if_neg (by omega), hvia, Run.bind_ret]
  unfold build_qcons
  rw [if_neg h8, hq, Run.bind_ret, Run.bind_ret]

/-- A line `src > dst via : payload` with callsigns of at most `CALLSIGNLEN_MAX`
bytes, no via hop or one via hop other than `I`, and a payload, reaches
`pbuf_get`. -/
theorem locate_fields_accepts_line (cfg : Config) (fuel : Nat)
    (src dst via payload : List Char)
    (hf : (src ++ '>' :: (dst ++ (via ++ ':' :: payload))).length < fuel)
    (hs1 : '>' ∉ src) (hs2 : ':' ∉ src) (hs3 : src.length ≤ cfg.CALLSIGNLEN_MAX)
    (hd1 : '-' ∉ dst) (hd2 : ',' ∉ dst) (hd3 : ':' ∉ dst)
    (hd4 : dst.length ≤ cfg.CALLSIGNLEN_MAX)
    (hvia : via = [] ∨ ∃ hop, via = ',' :: hop ∧ ',' ∉ hop ∧ ':' ∉ hop ∧ hop ≠ ['I'])
    (hp : payload ≠ []) :
    ∃ f, locate_fields cfg fuel (src ++ '>' :: (dst ++ (via ++ ':' :: payload)))
        = .ret (some f) ∧
      f.src_end = src.length ∧ f.dstcall_end = src.length + 1 + dst.length := by
  have hplen : 0 < payload.length := List.length_pos.mpr hp
  have hvc : ':' ∉ via := by
    rcases hvia with h | ⟨hop, h, _, h2, _⟩
    · rw [h]; exact List.not_mem_nil _
    · rw [h]
      simp only [List.mem_cons, not_or]
      exact ⟨by decide, h2⟩
  have hlen : (src ++ '>' :: (dst ++ (via ++ ':' :: payload))).length
      = src.length + 1 + dst.length + via.length + 1 + payload.length := by
    simp only [List.length_append, List.length_cons]; omega
  have hs : src ++ '>' :: (dst ++ (via ++ ':' :: payload))
      = (src ++ '>' :: (dst ++ via)) ++ ':' :: payload := by simp
  have h1 : memchr (src ++ '>' :: (dst ++ (via ++ ':' :: payload))) ':'
      (src ++ '>' :: (dst ++ (via ++ ':' :: payload))).length
      = some (src.length + 1 + dst.length + via.length) := by
    have hnot : ':' ∉ src ++ '>' :: (dst ++ via) := by
      simp only [List.mem_append, List.mem_cons, not_or]
      exact ⟨hs2, by decide, hd3, hvc⟩
    have := memchr_first (src ++ '>' :: (dst ++ via)) payload ':'
      (src ++ '>' :: (dst ++ (via ++ ':' :: payload))).length hnot
      (by rw [hlen]; simp only [List.length_append, List.length_cons]; omega)
    rw [← hs] at this
    rw [this]
    simp only [List.length_append, List.length_cons, Option.some.injEq]
    omega
  have h2 : ∀ n, src.length < n →
      memchr (src ++ '>' :: (dst ++ (via ++ ':' :: payload))) '>' n = some src.length :=
    fun n hn => memchr_first src _ '>' n hs1 hn
  have B3 : ∀ k, k < dst.length →
      byte_at (src ++ '>' :: (dst ++ (via ++ ':' :: payload))) (src.length + 1 + k)
        = byte_at dst k := by
    intro k hk
    rw [byte_at_append_cons_add, byte_at_append_left _ _ _ hk]
  have B4 : ∀ k, k < via.length →
      byte_at (src ++ '>' :: (dst ++ (via ++ ':' :: payload))) (src.length + 1 + dst.length + k)
        = byte_at via k := by
    intro k hk
    have : src.length + 1 + dst.length + k = src.length + 1 + (dst.length + k) := by omega
    rw [this, byte_at_append_cons_add, byte_at_append_right _ _ _ (by omega)]
    have : dst.length + k - dst.length = k := by omega
    rw [this, byte_at_append_left _ _ _ hk]
  have B2 : byte_at (src ++ '>' :: (dst ++ (via ++ ':' :: payload))) src.length = '>' :=
    byte_at_append_cons_self src _ '>'
  rw [hlen] at hf
  generalize hsd : src ++ '>' :: (dst ++ (via ++ ':' :: payload)) = s at h1 h2 B2 B3 B4 hlen ⊢
  have hdstb : ∀ j, src.length < j → j < src.length + 1 + dst.length → byte_at s j ∈ dst := by
    intro j hj1 hj2
    have : j = src.length + 1 + (j - src.length - 1) := by omega
    rw [this, B3 _ (by omega)]
    exact byte_at_mem dst _ (by omega)
  have hviab : ∀ j, src.length + 1 + dst.length ≤ j →
      j < src.length + 1 + dst.length + via.length →
      byte_at s j = byte_at via (j - (src.length + 1 + dst.length)) := by
    intro j hj1 hj2
    have : j = src.length + 1 + dst.length + (j - (src.length + 1 + dst.length)) := by omega
    rw [this, B4 _ (by omega)]
    congr 1
    omega
  refine ⟨_, locate_fields_accepts cfg fuel s (src.length + 1 + dst.length + via.length)
    src.length (src.length + 1 + dst.length) h1 (h2 _ (by split_ifs <;> omega))
    (by omega) (by omega) (by omega) ?_ ?_ (by omega) ?_ (by omega), rfl, rfl⟩
  · intro j hj1 hj2
    have hm := hdstb j hj1 hj2
    exact ⟨fun e => hd1 (e ▸ hm), fun e => hd2 (e ▸ hm), fun e => hd3 (e ▸ hm)⟩
  · rcases hvia with h | ⟨hop, h, hc, hcol, _⟩
    · left
      rw [h]
      rfl
    · right
      have hvl : via.length = hop.length + 1 := by rw [h]; rfl
      refine ⟨?_, ?_⟩
      · rw [hviab _ (le_refl _) (by omega), Nat.sub_self, h]
        rfl
      · intro j hj1 hj2
        rw [hviab j (by omega) hj2, h]
        obtain ⟨k, hk⟩ : ∃ k, j - (src.length + 1 + dst.length) = k + 1 :=
          ⟨j - (src.length + 1 + dst.length) - 1, by omega⟩
        rw [hk]
        have hm : byte_at (',' :: hop) (k + 1) ∈ hop := byte_at_mem hop k (by omega)
        exact ⟨fun e => hcol (e ▸ hm), fun e => hc (e ▸ hm)⟩
  · rintro ⟨g1, g2, g3⟩
    rcases hvia with h | ⟨hop, h, hc, _, hI⟩
    · have hv0 : via.length = 0 := by rw [h]; rfl
      rw [hv0] at g2 g3
      by_cases hd : dst.length = 0
      · have : src.length + 1 + dst.length + 0 - 1 = src.length := by omega
        rw [this, B2] at g2
        exact absurd g2 (by decide)
      · by_cases hd' : dst.length = 1
        · have : src.length + 1 + dst.length + 0 - 2 = src.length := by omega
          rw [this, B2] at g3
          exact absurd g3 (by decide)
        · have hm := hdstb (src.length + 1 + dst.length + 0 - 2) (by omega) (by omega)
          exact hd2 (g3 ▸ hm)
    · subst h
      simp only [List.length_cons] at g1 g2 g3 B4
      cases hop with
      | nil =>
        simp only [List.length_nil] at g2 B4
        have : src.length + 1 + dst.length + (0 + 1) - 1 = src.length + 1 + dst.length + 0 := by
          omega
        rw [this, B4 0 (by omega)] at g2
        exact absurd g2 (by decide)
      | cons x hop2 =>
        cases hop2 with
        | nil =>
          simp only [List.length_cons, List.length_nil] at g2 B4
          have : src.length + 1 + dst.length + (0 + 1 + 1) - 1
              = src.length + 1 + dst.length + 1 := by omega
          rw [this, B4 1 (by omega)] at g2
          have hx : x = 'I' := g2
          exact hI (by rw [hx])
        | cons y hop3 =>
          simp only [List.length_cons] at g3 B4
          have : src.length + 1 + dst.length + (hop3.length + 1 + 1 + 1) - 2
              = src.length + 1 + dst.length + (hop3.length + 1) := by omega
          rw [this, B4 (hop3.length + 1) (by omega)] at g3
          have hm : byte_at (',' :: x :: y :: hop3) (hop3.length + 1) ∈ x :: y :: hop3 :=
            byte_at_mem (x :: y :: hop3) hop3.length (by simp only [List.length_cons]; omega)
          exact hc (g3 ▸ hm)

/-- C12: the callsign length limit of `incoming_parse`.  A line whose source
callsign, the bytes before the first `>`, is longer than `CALLSIGNLEN_MAX` is
rejected with -1 (for every step budget).  A line in which the `>` is followed
by more than `CALLSIGNLEN_MAX` bytes that are none of `-`, `,` and `:`, so that
its destination callsign is longer than `CALLSIGNLEN_MAX`, is rejected with -1
(for a step budget above the length of the line).  A source or destination
callsign of up to `CALLSIGNLEN_MAX` bytes, in particular of exactly
`CALLSIGNLEN_MAX`, is no cause for rejection: a line `src > dst via : payload`
with such callsigns, with no via hop or one via hop other than `I`, with a
payload and with a buffer available that has room for it, is accepted; its
buffer is filled and queued and the status of the content parser is returned. -/
theorem callsign_length_limit (cfg : Config) (parse_aprs : worker_t → pbuf_t → Int)
    (now : Int) (fuel : Nat) (st : State) (c : Nat) :
    (∀ src rest : List Char, '>' ∉ src → cfg.CALLSIGNLEN_MAX < src.length →
      incoming_parse cfg parse_aprs now fuel st c (src ++ '>' :: rest) = .ret (-1, st)) ∧
    (∀ src dst rest : List Char, (src ++ '>' :: (dst ++ rest)).length < fuel →
      '>' ∉ src → '-' ∉ dst → ',' ∉ dst → ':' ∉ dst → cfg.CALLSIGNLEN_MAX < dst.length →
      incoming_parse cfg parse_aprs now fuel st c (src ++ '>' :: (dst ++ rest))
        = .ret (-1, st)) ∧
    (∀ (src dst via payload : List Char) (pb : Addr) (st1 : State),
      (src ++ '>' :: (dst ++ (via ++ ':' :: payload))).length < fuel →
      '>' ∉ src → ':' ∉ src → src.length ≤ cfg.CALLSIGNLEN_MAX →
      '-' ∉ dst → ',' ∉ dst → ':' ∉ dst → dst.length ≤ cfg.CALLSIGNLEN_MAX →
      (via = [] ∨ ∃ hop, via = ',' :: hop ∧ ',' ∉ hop ∧ ':' ∉ hop ∧ hop ≠ ['I']) →
      payload ≠ [] →
      pbuf_get cfg st ((src ++ '>' :: (dst ++ (via ++ ':' :: payload))).length + 14 : Nat)
        = (some pb, st1) →
      (src ++ '>' :: (dst ++ (via ++ ':' :: payload))).length + 4
        ≤ (st1.heap pb).data.length →
      ∃ b, incoming_parse cfg parse_aprs now fuel st c
          (src ++ '>' :: (dst ++ (via ++ ':' :: payload)))
        = .ret (parse_aprs st1.self b, enqueue_local st1 pb b)) := by
  refine ⟨?_, ?_, ?_⟩
  · intro src rest h1 h2
    exact incoming_parse_of_reject cfg parse_aprs now fuel st c _
      (locate_fields_long_source cfg fuel src rest h1 h2)
  · intro src dst rest hf h1 h2 h3 h4 h5
    exact incoming_parse_of_reject cfg parse_aprs now fuel st c _
      (locate_fields_long_dest cfg fuel src dst rest hf h1 h2 h3 h4 h5)
  · intro src dst via payload pb st1 hf hs1 hs2 hs3 hd1 hd2 hd3 hd4 hvia hp hg hcap
    obtain ⟨f, hloc, _⟩ := locate_fields_accepts_line cfg fuel src dst via payload hf hs1 hs2
      hs3 hd1 hd2 hd3 hd4 hvia hp
    obtain ⟨b, _, hret, _⟩ := incoming_parse_accept cfg parse_aprs now fuel st st1 c _ f pb
      hloc hg hcap
    exact ⟨b, hret⟩

set_option maxRecDepth 100000 in
/-- The source callsign `OH2ABCDEFG` and the destination callsign `ABCDEFGHIJ`
have 10 bytes and are rejected; `OH2ABCDEF` and `ABCDEFGHI` have 9 bytes and the
line `OH2ABCDEF>ABCDEFGHI,WIDE2-1:>Hello` is accepted in the sample state. -/
theorem callsign_length_limit_witness :
    (('>' ∉ "OH2ABCDEFG".toList ∧ aprsc_config.CALLSIGNLEN_MAX < "OH2ABCDEFG".toList.length) ∧
      incoming_parse aprsc_config sample_parse_aprs 0 100 sample_state 5
        ("OH2ABCDEFG".toList ++ '>' :: "APRS:>Hello".toList) = .ret (-1, sample_state)) ∧
    ((aprsc_config.CALLSIGNLEN_MAX < "ABCDEFGHIJ".toList.length ∧
      ("OH2ABC".toList ++ '>' :: ("ABCDEFGHIJ".toList ++ ",WIDE2-1:>Hello".toList)).length
        < 100) ∧
      incoming_parse aprsc_config sample_parse_aprs 0 100 sample_state 5
        ("OH2ABC".toList ++ '>' :: ("ABCDEFGHIJ".toList ++ ",WIDE2-1:>Hello".toList))
          = .ret (-1, sample_state)) ∧
    (("OH2ABCDEF".toList.length = aprsc_config.CALLSIGNLEN_MAX ∧
      "ABCDEFGHI".toList.length = aprsc_config.CALLSIGNLEN_MAX ∧
      (pbuf_get aprsc_config sample_state
        (("OH2ABCDEF".toList ++ '>' :: ("ABCDEFGHI".toList ++
          (",WIDE2-1".toList ++ ':' :: ">Hello".toList))).length + 14 : Nat)).1 = some 1) ∧
      ∃ b, incoming_parse aprsc_config sample_parse_aprs 0 100 sample_state 5
          ("OH2ABCDEF".toList ++ '>' :: ("ABCDEFGHI".toList ++
            (",WIDE2-1".toList ++ ':' :: ">Hello".toList)))
        = .ret (sample_parse_aprs (pbuf_get aprsc_config sample_state
            (("OH2ABCDEF".toList ++ '>' :: ("ABCDEFGHI".toList ++
              (",WIDE2-1".toList ++ ':' :: ">Hello".toList))).length + 14 : Nat)).2.self b,
            enqueue_local (pbuf_get aprsc_config sample_state
              (("OH2ABCDEF".toList ++ '>' :: ("ABCDEFGHI".toList ++
                (",WIDE2-1".toList ++ ':' :: ">Hello".toList))).length + 14 : Nat)).2 1 b)) :=
  ⟨⟨⟨by decide, by decide⟩,
    (callsign_length_limit aprsc_config sample_parse_aprs 0 100 sample_state 5).1
      "OH2ABCDEFG".toList "APRS:>Hello".toList (by decide) (by decide)⟩,
   ⟨⟨by decide, by decide⟩,
    (callsign_length_limit aprsc_config sample_parse_aprs 0 100 sample_state 5).2.1
      "OH2ABC".toList "ABCDEFGHIJ".toList ",WIDE2-1:>Hello".toList
      (by decide) (by decide) (by decide) (by decide) (by decide) (by decide)⟩,
   ⟨⟨by decide, by decide, rfl⟩,
    (callsign_length_limit aprsc_config sample_parse_aprs 0 100 sample_state 5).2.2
      "OH2ABCDEF".toList "ABCDEFGHI".toList ",WIDE2-1".toList ">Hello".toList 1 _
      (by decide) (by decide) (by decide) (by decide) (by decide) (by decide) (by decide)
      (by decide) (Or.inr ⟨"WIDE2-1".toList, rfl, by decide, by decide, by decide⟩)
      (by decide) rfl (by decide)⟩⟩

end Aprsc
